import Mathlib

/-!
# tscbench: online statistics, overhead calibration and the adaptive sampler

A shallow embedding of `mathstat.c`, `tsc_x86.c` and `tscbench.c`.

* `double` values are elements of an ordered field `K` (exact arithmetic);
  the C library `sqrt` is a parameter `sqrt : K → K`.  The section on IEEE
  binary64 repeats `stat_sample_add` and the classical estimator with every
  operation rounded to the nearest binary64 number.
* `uint32_t` / `uint64_t` values are natural numbers reduced modulo `2 ^ 32` /
  `2 ^ 64` wherever the C code increments or subtracts them.
* The cycle counter is the list of `(before, after)` readings handed out by
  successive `read_tsc_before(); ...; read_tsc_after()` pairs.  A loop that
  needs another pair when the list is exhausted has no result (`none`).
* An array `double *data` with its `int size` is a list; `size` is its length.
-/

namespace TscBench

variable {K : Type} [LinearOrderedField K]

/-! ## Machine integers -/

/-- Number of values of a `uint32_t`. -/
def U32 : Nat := 2 ^ 32

/-- Number of values of a `uint64_t`. -/
def U64 : Nat := 2 ^ 64

/-- Subtraction of `uint64_t` values: wraps modulo `2 ^ 64`. -/
def sub64 (a b : Nat) : Nat := (a + (U64 - b % U64)) % U64

/-- The constant `DBL_MAX` of `float.h` (IEEE 754 binary64). -/
def DBL_MAX : K := (2 ^ 53 - 1) * 2 ^ 971

/-! ## mathstat.c: the statistical sample -/

/-- The record `struct stat_sample`. -/
structure stat_sample (K : Type) where
  sum : K
  sum_pow2 : K
  knuth_mean : K
  knuth_var : K
  min : K
  max : K
  min_index : Nat
  max_index : Nat
  size : Nat

/-- The state written by `stat_sample_clean`; the sentinel index is
`(uint32_t)~0x1 = 4294967294`. -/
def stat_sample_clean : stat_sample K :=
  { size := 0
    sum := 0
    sum_pow2 := 0
    min := DBL_MAX
    max := 0
    min_index := 4294967294
    max_index := 4294967294
    knuth_mean := 0
    knuth_var := 0 }

/-- The state returned by a successful `stat_sample_create`. -/
def stat_sample_create : stat_sample K := stat_sample_clean

/-- The function `stat_sample_add`: adds `val` to the sample. -/
def stat_sample_add (sample : stat_sample K) (val : K) : stat_sample K :=
  let size := (sample.size + 1) % U32
  let mean_prev := sample.knuth_mean
  let knuth_mean := if size > 1 then mean_prev + (val - mean_prev) / (size : K) else val
  { sum := sample.sum + val
    sum_pow2 := sample.sum_pow2 + val * val
    min := if val < sample.min then val else sample.min
    min_index := if val < sample.min then sample.size else sample.min_index
    max := if val > sample.max then val else sample.max
    max_index := if val > sample.max then sample.size else sample.max_index
    size := size
    knuth_mean := knuth_mean
    knuth_var :=
      if size > 1 then sample.knuth_var + (val - mean_prev) * (val - knuth_mean) else 0 }

/-- The function `stat_sample_add_dataset`: adds the values in order. -/
def stat_sample_add_dataset (sample : stat_sample K) (dataset : List K) : stat_sample K :=
  dataset.foldl stat_sample_add sample

/-- The function `stat_sample_mean`. -/
def stat_sample_mean (sample : stat_sample K) : K :=
  if sample.size > 1 then sample.sum / (sample.size : K) else sample.sum

/-- The function `stat_sample_mean_knuth`. -/
def stat_sample_mean_knuth (sample : stat_sample K) : K := sample.knuth_mean

/-- The function `stat_sample_var`. -/
def stat_sample_var (sample : stat_sample K) : K :=
  if sample.size > 1 then
    1 / ((sample.size : K) - 1) * sample.sum_pow2 -
      (1 / ((sample.size : K) * ((sample.size : K) - 1))) * sample.sum * sample.sum
  else 0

/-- The function `stat_sample_var_knuth`; the divisor `size - 1` is computed on
`uint32_t` and cannot wrap under the guard `size > 1`. -/
def stat_sample_var_knuth (sample : stat_sample K) : K :=
  if sample.size > 1 then sample.knuth_var / ((sample.size - 1 : Nat) : K) else 0

/-- The function `stat_sample_stddev`. -/
def stat_sample_stddev (sqrt : K → K) (sample : stat_sample K) : K :=
  sqrt (stat_sample_var sample)

/-- The function `stat_sample_stddev_knuth`. -/
def stat_sample_stddev_knuth (sqrt : K → K) (sample : stat_sample K) : K :=
  sqrt (stat_sample_var_knuth sample)

/-- The function `stat_sample_stderr`. -/
def stat_sample_stderr (sqrt : K → K) (sample : stat_sample K) : K :=
  stat_sample_stddev sqrt sample / sqrt (sample.size : K)

/-- The function `stat_sample_stderr_knuth`. -/
def stat_sample_stderr_knuth (sqrt : K → K) (sample : stat_sample K) : K :=
  stat_sample_stddev_knuth sqrt sample / sqrt (sample.size : K)

/-- The function `stat_sample_rel_stderr`. -/
def stat_sample_rel_stderr (sqrt : K → K) (sample : stat_sample K) : K :=
  let stderr := stat_sample_stderr sqrt sample
  if stderr > 0 then stderr / stat_sample_mean sample * 100 else 0

/-- The function `stat_sample_rel_stderr_knuth`. -/
def stat_sample_rel_stderr_knuth (sqrt : K → K) (sample : stat_sample K) : K :=
  let stderr := stat_sample_stderr_knuth sqrt sample
  if stderr > 0 then stderr / stat_sample_mean_knuth sample * 100 else 0

/-- The function `stat_sample_min`. -/
def stat_sample_min (sample : stat_sample K) : K := sample.min

/-- The function `stat_sample_max`. -/
def stat_sample_max (sample : stat_sample K) : K := sample.max

/-- Conversion of a `uint32_t` to `int` (two's complement). -/
def toInt32 (n : Nat) : Int := if n % U32 < 2 ^ 31 then ((n % U32 : Nat) : Int) else ((n % U32 : Nat) : Int) - 2 ^ 32

/-- The function `stat_sample_min_index`. -/
def stat_sample_min_index (sample : stat_sample K) : Int := toInt32 sample.min_index

/-- The function `stat_sample_max_index`. -/
def stat_sample_max_index (sample : stat_sample K) : Int := toInt32 sample.max_index

/-- The function `stat_sample_size`. -/
def stat_sample_size (sample : stat_sample K) : Int := toInt32 sample.size

/-- Sum of the squared deviations of the values of `xs` from `m`. -/
def sumSqDev (xs : List K) (m : K) : K := (xs.map (fun x => (x - m) ^ 2)).sum

/-- Arithmetic mean of a list. -/
def listMean (xs : List K) : K := xs.sum / (xs.length : K)

/-! ## tsc_x86.c: overhead calibration -/

/-- A counter stream: the successive `(read_tsc_before (), read_tsc_after ())` pairs. -/
abbrev Stream := List (Nat × Nat)

/-- Every reading of the stream is a `uint64_t`. -/
def Readings64 (stream : Stream) : Prop := ∀ p ∈ stream, p.1 < U64 ∧ p.2 < U64

/-- The function `normolize_ticks`. -/
def normolize_ticks (first second tsc_overhead : Nat) : Nat :=
  if second > first then
    if sub64 second first > tsc_overhead then sub64 (sub64 second first) tsc_overhead else 0
  else 0

/-- The constant `NMEASURES` of `measure_tsc_overhead`. -/
def NMEASURES : Nat := 100

/-- The initial value `(uint64_t)~0x1` of `minticks`. -/
def MINTICKS_INIT : Nat := 18446744073709551614

/-- The `for` loop of `measure_tsc_overhead`: `i` counts the accepted trials, `minticks` is
the running minimum.  Returns the final `minticks` and the unread part of the stream. -/
def measure_tsc_overhead_loop : Nat → Nat → Stream → Option (Nat × Stream)
  | i, minticks, [] => if i < NMEASURES then none else some (minticks, [])
  | i, minticks, (t0, t1) :: rest =>
    if i < NMEASURES then
      if t1 > t0 then
        let ticks := sub64 t1 t0
        measure_tsc_overhead_loop (i + 1) (if ticks < minticks then ticks else minticks) rest
      else measure_tsc_overhead_loop i minticks rest
    else some (minticks, (t0, t1) :: rest)

/-- The function `measure_tsc_overhead`, with the unread part of the stream. -/
def measure_tsc_overhead (stream : Stream) : Option (Nat × Stream) :=
  measure_tsc_overhead_loop 0 MINTICKS_INIT stream

/-! ## tscbench.c: the adaptive sampler -/

/-- The constant `NRUNS_MIN`. -/
def NRUNS_MIN : Nat := 100

/-- The constant `NRUNS_MAX`. -/
def NRUNS_MAX : Int := 1000000

/-- The constant `RSE_MAX`. -/
def RSE_MAX : K := 5

/-- State of the `do ... while` loop of `run_benchmark` after a batch.  `calls` and `total`
are bookkeeping that the C code does not keep: the number of `CODE()` invocations so far and
the number of values added to the sample over all batches so far. -/
structure bench_state (K : Type) where
  stat : stat_sample K
  nruns : Nat
  calls : Nat
  total : Nat
  rest : Stream

/-- The inner `for` loop of `run_benchmark`: one batch.  `i` counts the accepted trials. -/
def bench_batch (overhead nruns : Nat) :
    Nat → stat_sample K → Nat → Stream → Option (stat_sample K × Nat × Stream)
  | i, stat, calls, [] => if i < nruns then none else some (stat, calls, [])
  | i, stat, calls, (t0, t1) :: rest =>
    if i < nruns then
      if t1 > t0 then
        if sub64 t1 t0 > overhead then
          bench_batch overhead nruns (i + 1)
            (stat_sample_add stat ((sub64 (sub64 t1 t0) overhead : Nat) : K)) (calls + 1) rest
        else bench_batch overhead nruns i stat (calls + 1) rest
      else bench_batch overhead nruns i stat (calls + 1) rest
    else some (stat, calls, (t0, t1) :: rest)

/-- The loop condition of `run_benchmark`, evaluated after a batch. -/
def bench_continue (sqrt : K → K) (stat : stat_sample K) : Bool :=
  decide (stat_sample_size stat < NRUNS_MAX) && decide (stat_sample_rel_stderr_knuth sqrt stat > RSE_MAX)

/-- One pass through the body of the `do ... while` loop of `run_benchmark`: clean the
sample, run a batch of `nruns` accepted trials, multiply `nruns` by 4. -/
def bench_body (overhead : Nat) (st : bench_state K) : Option (bench_state K) :=
  match bench_batch overhead st.nruns 0 (stat_sample_clean : stat_sample K) st.calls st.rest with
  | none => none
  | some (stat, calls, rest) =>
    some { stat := stat, nruns := st.nruns * 4, calls := calls,
           total := st.total + st.nruns, rest := rest }

/-- The `do ... while` loop of `run_benchmark`; `fuel` bounds the number of batches. -/
def bench_loop (sqrt : K → K) (overhead : Nat) : Nat → bench_state K → Option (bench_state K)
  | 0, _ => none
  | fuel + 1, st =>
    match bench_body overhead st with
    | none => none
    | some st1 =>
      if bench_continue sqrt st1.stat then bench_loop sqrt overhead fuel st1 else some st1

/-- The states in which the `do ... while` loop of `run_benchmark` starts a batch: the
initial state `s0`, and every state left by a batch after which the loop condition held. -/
inductive BenchHead (sqrt : K → K) (overhead : Nat) (s0 : bench_state K) : bench_state K → Prop
  | start : BenchHead sqrt overhead s0 s0
  | next (st st1 : bench_state K) : BenchHead sqrt overhead s0 st →
      bench_body overhead st = some st1 → bench_continue sqrt st1.stat = true →
      BenchHead sqrt overhead s0 st1

/-- What `run_benchmark` reports, with the final loop state. -/
structure bench_report (K : Type) where
  overhead : Nat
  firstrun : Nat
  final : bench_state K

/-- The function `run_benchmark` on a counter stream (the allocation of the sample
succeeds): calibration, the first run, the convergence loop.  The `int` variable `nruns` is a
natural number; it stays below `100 * 4 ^ 8`. -/
def run_benchmark (sqrt : K → K) (fuel : Nat) (stream : Stream) : Option (bench_report K) :=
  match measure_tsc_overhead stream with
  | none => none
  | some (_, []) => none
  | some (overhead, (t0, t1) :: rest) =>
    let firstrun := normolize_ticks t0 t1 overhead
    match bench_loop sqrt overhead fuel
        { stat := stat_sample_clean, nruns := NRUNS_MIN, calls := 1, total := 0, rest := rest } with
    | none => none
    | some final => some { overhead := overhead, firstrun := firstrun, final := final }

/-- The inner `for` loop of `measure_tsc_overhead_rse`: one batch. -/
def rse_batch (nruns : Nat) : Nat → stat_sample K → Stream → Option (stat_sample K × Stream)
  | i, stat, [] => if i < nruns then none else some (stat, [])
  | i, stat, (t0, t1) :: rest =>
    if i < nruns then
      if t1 > t0 then
        rse_batch nruns (i + 1) (stat_sample_add stat ((sub64 t1 t0 : Nat) : K)) rest
      else rse_batch nruns i stat rest
    else some (stat, (t0, t1) :: rest)

/-- The `do ... while` loop of `measure_tsc_overhead_rse`; `fuel` bounds the number of
batches. -/
def rse_loop (sqrt : K → K) : Nat → Nat → Stream → Option (stat_sample K × Nat × Stream)
  | 0, _, _ => none
  | fuel + 1, nruns, stream =>
    match rse_batch nruns 0 (stat_sample_clean : stat_sample K) stream with
    | none => none
    | some (stat, rest) =>
      if bench_continue sqrt stat then rse_loop sqrt fuel (nruns * 4) rest
      else some (stat, nruns * 4, rest)

/-- The function `measure_tsc_overhead_rse` (allocation succeeds): ten warm-up pairs, the
batches, and the classical mean converted to `uint64_t`. -/
def measure_tsc_overhead_rse [FloorRing K] (sqrt : K → K) (fuel : Nat) (stream : Stream) :
    Option Nat :=
  if stream.length < 10 then none
  else
    match rse_loop sqrt fuel NRUNS_MIN (stream.drop 10) with
    | none => none
    | some (stat, _, _) => some ⌊stat_sample_mean stat⌋₊

/-- The constant `NOTCHANGED_THRESHOLD` of `measure_tsc_overhead_stabilized`. -/
def NOTCHANGED_THRESHOLD : Nat := 10

/-- The constant `NMEASURES_MAX` of `measure_tsc_overhead_stabilized`. -/
def NMEASURES_MAX : Nat := 100

/-- The `for` loop of `measure_tsc_overhead_stabilized`: `i` counts the accepted trials,
`notchanged` the accepted trials since `minticks` was last lowered. -/
def measure_tsc_overhead_stabilized_loop : Nat → Nat → Nat → Stream → Option (Nat × Stream)
  | i, notchanged, minticks, [] =>
    if i < NMEASURES_MAX ∧ notchanged < NOTCHANGED_THRESHOLD then none else some (minticks, [])
  | i, notchanged, minticks, (t0, t1) :: rest =>
    if i < NMEASURES_MAX ∧ notchanged < NOTCHANGED_THRESHOLD then
      if t1 > t0 then
        let ticks := sub64 t1 t0
        let notchanged1 := notchanged + 1
        if ticks < minticks then measure_tsc_overhead_stabilized_loop (i + 1) 0 ticks rest
        else measure_tsc_overhead_stabilized_loop (i + 1) notchanged1 minticks rest
      else measure_tsc_overhead_stabilized_loop i notchanged minticks rest
    else some (minticks, (t0, t1) :: rest)

/-- The function `measure_tsc_overhead_stabilized`, with the unread part of the stream. -/
def measure_tsc_overhead_stabilized (stream : Stream) : Option (Nat × Stream) :=
  measure_tsc_overhead_stabilized_loop 0 0 MINTICKS_INIT stream

/-! ## mathstat.c: divisions that can meet a zero divisor

In Lean `x / 0 = 0`.  The functions below compute the quotients of `stat_sample_stderr`,
`stat_sample_stderr_knuth` and of the two relative standard errors the way IEEE arithmetic
does when the divisor is zero, and the square root of a negative variance as not a number. -/

/-- Value of a `double` expression whose divisor may be zero: a number, an infinity
(`x / 0` with `x ≠ 0`), or not a number (`0 / 0`). -/
inductive fpval (K : Type) where
  | num (x : K)
  | inf (negative : Bool)
  | nan

/-- The quotient `a / b` of two numbers in IEEE arithmetic (a zero divisor is `+0`). -/
def fdiv (a b : K) : fpval K :=
  if b = 0 then (if a = 0 then fpval.nan else fpval.inf (decide (a < 0))) else fpval.num (a / b)

/-- The C library `sqrt` in IEEE arithmetic: not a number for a negative argument. -/
def fsqrt (sqrt : K → K) (x : K) : fpval K :=
  if x < 0 then fpval.nan else fpval.num (sqrt x)

/-- The quotient `a / b` in IEEE arithmetic when the dividend may already be an infinity or
not a number. -/
def fdiv_val (a : fpval K) (b : K) : fpval K :=
  match a with
  | fpval.num x => fdiv x b
  | fpval.inf n => fpval.inf (if b < 0 then !n else n)
  | fpval.nan => fpval.nan

/-- The function `stat_sample_stddev`, with the argument of `sqrt` checked. -/
def stat_sample_stddev_chk (sqrt : K → K) (sample : stat_sample K) : fpval K :=
  fsqrt sqrt (stat_sample_var sample)

/-- The function `stat_sample_stddev_knuth`, with the argument of `sqrt` checked. -/
def stat_sample_stddev_knuth_chk (sqrt : K → K) (sample : stat_sample K) : fpval K :=
  fsqrt sqrt (stat_sample_var_knuth sample)

/-- The function `stat_sample_stderr`, with the division by `sqrt(size)` checked. -/
def stat_sample_stderr_chk (sqrt : K → K) (sample : stat_sample K) : fpval K :=
  fdiv_val (stat_sample_stddev_chk sqrt sample) (sqrt (sample.size : K))

/-- The function `stat_sample_stderr_knuth`, with the division by `sqrt(size)` checked. -/
def stat_sample_stderr_knuth_chk (sqrt : K → K) (sample : stat_sample K) : fpval K :=
  fdiv_val (stat_sample_stddev_knuth_chk sqrt sample) (sqrt (sample.size : K))

/-- The expression `(stderr > 0.0) ? stderr / mean * 100.0 : 0.0` on a checked `stderr`:
the comparison is false for not-a-number and for the negative infinity. -/
def rel_of_stderr (stderr : fpval K) (mean : K) : fpval K :=
  match stderr with
  | fpval.num e =>
    if e > 0 then
      match fdiv e mean with
      | fpval.num q => fpval.num (q * 100)
      | fpval.inf n => fpval.inf n
      | fpval.nan => fpval.nan
    else fpval.num 0
  | fpval.inf false => fpval.inf (decide (mean < 0))
  | fpval.inf true => fpval.num 0
  | fpval.nan => fpval.num 0

/-- The function `stat_sample_rel_stderr`, with both divisions checked. -/
def stat_sample_rel_stderr_chk (sqrt : K → K) (sample : stat_sample K) : fpval K :=
  rel_of_stderr (stat_sample_stderr_chk sqrt sample) (stat_sample_mean sample)

/-- The function `stat_sample_rel_stderr_knuth`, with both divisions checked. -/
def stat_sample_rel_stderr_knuth_chk (sqrt : K → K) (sample : stat_sample K) : fpval K :=
  rel_of_stderr (stat_sample_stderr_knuth_chk sqrt sample) (stat_sample_mean_knuth sample)

/-! ## mathstat.c: clearing as a state transformer -/

/-- The function `stat_sample_clean` applied to a sample in any state: the nine assignments,
in the order of the source. -/
def stat_sample_clean_state (sample : stat_sample K) : stat_sample K :=
  let s1 := { sample with size := 0 }
  let s2 := { s1 with sum := 0 }
  let s3 := { s2 with sum_pow2 := 0 }
  let s4 := { s3 with min := DBL_MAX }
  let s5 := { s4 with max := 0 }
  let s6 := { s5 with min_index := 4294967294 }
  let s7 := { s6 with max_index := 4294967294 }
  let s8 := { s7 with knuth_mean := 0 }
  { s8 with knuth_var := 0 }

/-- The function `stat_sample_create` when `malloc` succeeds: `memory` is the content of the
fresh block, which `stat_sample_clean` overwrites. -/
def stat_sample_create_state (memory : stat_sample K) : stat_sample K :=
  stat_sample_clean_state memory

/-! ## mathstat.c: outlier trimming -/

/-- Conversion of a `double` to `int`: truncation toward zero. -/
def truncInt [FloorRing K] (x : K) : Int := if 0 ≤ x then ⌊x⌋ else ⌈x⌉

/-- What `stat_dataset_remove_outliers` leaves behind: the returned `int` and the array
(`none` for a null pointer). -/
structure outliers_result (K : Type) where
  ret : Int
  data : Option (List K)

/-- The compaction loop `for (i = 0; i < newsize; i++) data[i] = data[i + nmin]`: the first
argument counts the iterations left.  An access outside the array gives `none`. -/
def outliers_copy (nmin : Int) : Nat → Nat → List K → Option (List K)
  | 0, _, data => some data
  | k + 1, i, data =>
    if 0 ≤ (i : Int) + nmin then
      match data[((i : Int) + nmin).toNat]? with
      | none => none
      | some v =>
        if i < data.length then outliers_copy nmin k (i + 1) (data.set i v) else none
    else none

/-- The function `stat_dataset_remove_outliers`; `size` is the length of the array, `qsort`
with `fcmp` is a sort into ascending order, the percentages are computed in exact
arithmetic. -/
def stat_dataset_remove_outliers [FloorRing K] (data : Option (List K)) (lb ub : Int) :
    Option (outliers_result K) :=
  match data with
  | none => some { ret := -1, data := none }
  | some xs =>
    if lb + ub > 100 then some { ret := -1, data := some xs }
    else if xs.length = 0 ∨ lb + ub = 100 then some { ret := 0, data := some xs }
    else
      let sorted := xs.insertionSort (fun a b => a ≤ b)
      let nmin := truncInt ((xs.length : K) / 100 * (lb : K))
      let nmax := truncInt ((xs.length : K) / 100 * (ub : K))
      let newsize := (xs.length : Int) - nmin - nmax
      match outliers_copy nmin newsize.toNat 0 sorted with
      | none => none
      | some ys => some { ret := newsize, data := some ys }

/-- The states in which the `do ... while` loop of `measure_tsc_overhead_rse` starts a batch:
the value of `nruns` and the unread stream.  The loop starts with `NRUNS_MIN` on `s0`; a
batch after which the loop condition held leads to the next state. -/
inductive RseHead (sqrt : K → K) (s0 : Stream) : Nat → Stream → Prop
  | start : RseHead sqrt s0 NRUNS_MIN s0
  | next (nruns : Nat) (stream rest : Stream) (stat : stat_sample K) :
      RseHead sqrt s0 nruns stream →
      rse_batch nruns 0 (stat_sample_clean : stat_sample K) stream = some (stat, rest) →
      bench_continue sqrt stat = true → RseHead sqrt s0 (nruns * 4) rest

/-! ## mathstat.c: the functions on an array

The array `data` of `size` elements is a list; `size` is its length, an `int`. -/

/-- The function `stat_mean`. -/
def stat_mean (data : List K) : K :=
  if data.length > 1 then data.foldl (fun sum d => sum + d) 0 / (data.length : K)
  else if data.length > 0 then data.getD 0 0 else 0

/-- The function `stat_var`; the loop accumulates `sum` and `sum_pow2` together. -/
def stat_var (data : List K) : K :=
  if data.length > 1 then
    let acc := data.foldl (fun (acc : K × K) d => (acc.1 + d, acc.2 + d * d)) (0, 0)
    1 / ((data.length : K) - 1) * acc.2 -
      (1 / ((data.length : K) * ((data.length : K) - 1))) * acc.1 * acc.1
  else 0

/-- The function `stat_min`. -/
def stat_min (data : List K) : K :=
  match data with
  | [] => 0
  | x :: rest => rest.foldl (fun min d => if min > d then d else min) x

/-- The loop of `stat_min_index` from index `i` on: the second argument holds the elements
`data[i], data[i + 1], ...` still to be compared, `imin` is the index kept so far. -/
def stat_min_index_loop (data : List K) : List K → Nat → Nat → Nat
  | [], _, imin => imin
  | d :: rest, i, imin =>
    stat_min_index_loop data rest (i + 1) (if data.getD imin 0 > d then i else imin)

/-- The function `stat_min_index`. -/
def stat_min_index (data : List K) : Int :=
  match data with
  | [] => -1
  | _ :: rest => (stat_min_index_loop data rest 1 0 : Nat)

/-- The function `stat_max`. -/
def stat_max (data : List K) : K :=
  match data with
  | [] => 0
  | x :: rest => rest.foldl (fun max d => if max < d then d else max) x

/-- The loop of `stat_max_index` from index `i` on: the second argument holds the elements
`data[i], data[i + 1], ...` still to be compared, `imax` is the index kept so far. -/
def stat_max_index_loop (data : List K) : List K → Nat → Nat → Nat
  | [], _, imax => imax
  | d :: rest, i, imax =>
    stat_max_index_loop data rest (i + 1) (if data.getD imax 0 < d then i else imax)

/-- The function `stat_max_index`. -/
def stat_max_index (data : List K) : Int :=
  match data with
  | [] => -1
  | _ :: rest => (stat_max_index_loop data rest 1 0 : Nat)

/-! ## mathstat.c in IEEE binary64

The definitions above compute in exact arithmetic.  The ones below round the result of every
arithmetic operation and of `sqrt` to the nearest binary64 number, ties to even, as the
SSE2 `double` arithmetic of x86-64 does.  The exponent range is not bounded: there is no
overflow and there are no subnormal numbers. -/

/-- The pair is a valid reading: `after > before`. -/
def validPair (p : Nat × Nat) : Bool := decide (p.1 < p.2)

/-- The values that a batch of `run_benchmark` accepts from a stream, in order. -/
def acceptedTicks (overhead : Nat) (stream : Stream) : List Nat :=
  stream.filterMap (fun p =>
    if p.2 > p.1 ∧ sub64 p.2 p.1 > overhead then some (sub64 (sub64 p.2 p.1) overhead) else none)

/-- The deltas of the valid pairs of a stream, in order. -/
def validDeltas (stream : Stream) : List Nat :=
  (stream.filter validPair).map (fun p => p.2 - p.1)

/-- The value that a batch of `run_benchmark` adds for an accepted pair. -/
def tickValue (overhead : Nat) (p : Nat × Nat) : Nat := sub64 (sub64 p.2 p.1) overhead

/-- The pair passes both guards of the batch loop of `run_benchmark`. -/
def acceptedPair (overhead : Nat) (p : Nat × Nat) : Prop := p.1 < p.2 ∧ overhead < sub64 p.2 p.1

/-- A batch worth of pairs with one large delta followed by small ones: the values it
contributes under overhead `1` are `1048576, 1, 1, ...`. -/
def skewBatch (n : Nat) : Stream := (0, 1048577) :: List.replicate (n - 1) (0, 2)

/-- A session whose batches never reach a relative standard error of `5`: 100 calibration
pairs of delta `1`, the first run, and eight batches `skewBatch` of the sizes the loop asks
for. -/
def skewStream : Stream :=
  List.replicate 100 (0, 1) ++ (0, 5) ::
    (skewBatch 100 ++ (skewBatch (100 * 4) ++ (skewBatch (100 * 4 * 4) ++
    (skewBatch (100 * 4 * 4 * 4) ++ (skewBatch (100 * 4 * 4 * 4 * 4) ++
    (skewBatch (100 * 4 * 4 * 4 * 4 * 4) ++ (skewBatch (100 * 4 * 4 * 4 * 4 * 4 * 4) ++
    (skewBatch (100 * 4 * 4 * 4 * 4 * 4 * 4 * 4) ++ []))))))))

/-- The final report of the session on `skewStream`. -/
def skewReport : bench_report K :=
  { overhead := 1, firstrun := normolize_ticks 0 5 1,
    final := { stat := stat_sample_add_dataset stat_sample_clean
                 ((1048576 : K) :: List.replicate (100 * 4 * 4 * 4 * 4 * 4 * 4 * 4 - 1) (1 : K)),
               nruns := 100 * 4 * 4 * 4 * 4 * 4 * 4 * 4 * 4,
               calls := 1 + 100 + 100 * 4 + 100 * 4 * 4 + 100 * 4 * 4 * 4
                 + 100 * 4 * 4 * 4 * 4 + 100 * 4 * 4 * 4 * 4 * 4
                 + 100 * 4 * 4 * 4 * 4 * 4 * 4 + 100 * 4 * 4 * 4 * 4 * 4 * 4 * 4,
               total := 0 + 100 + 100 * 4 + 100 * 4 * 4 + 100 * 4 * 4 * 4
                 + 100 * 4 * 4 * 4 * 4 + 100 * 4 * 4 * 4 * 4 * 4
                 + 100 * 4 * 4 * 4 * 4 * 4 * 4 + 100 * 4 * 4 * 4 * 4 * 4 * 4 * 4,
               rest := [] } }

/-- The values that a batch of `measure_tsc_overhead_rse` accepts from a stream, in order. -/
def validTicks (stream : Stream) : List Nat :=
  stream.filterMap (fun p => if p.2 > p.1 then some (sub64 p.2 p.1) else none)

/-- The running minimum kept in `minticks`: starts at `m`, lowered by every strictly smaller
delta. -/
def runMin (m : Nat) (ds : List Nat) : Nat :=
  ds.foldl (fun acc t => if t < acc then t else acc) m

/-- The textbook data set `2, 4, 4, 4, 5, 5, 7, 9`. -/
def textbookData : List K := [2, 4, 4, 4, 5, 5, 7, 9]

/-- A session of 100 calibration pairs of delta 3 followed by 101 pairs of delta 7. -/
def steadyStream : Stream := List.replicate 100 (100, 103) ++ List.replicate 101 (100, 107)

/-! ## Theorems: machine arithmetic -/

theorem sub64_eq (a b : Nat) (ha : a < U64) (hb : b ≤ a) : sub64 a b = a - b := by
  unfold sub64 U64 at *
  omega

theorem sub64_lt (a b : Nat) : sub64 a b < U64 := by
  unfold sub64
  exact Nat.mod_lt _ (by unfold U64; norm_num)

/-- C9: on 64-bit unsigned inputs `normolize_ticks` returns `second - first - overhead` (as an
integer, so nothing wrapped) when `second > first` and `second - first > overhead`, and `0` in
every other case; both subtractions it evaluates are exact; the result never exceeds the 64-bit
difference `second - first`; and `result + overhead = second - first` whenever the result is
non-zero. -/
theorem normolize_ticks_exact (first second overhead : Nat)
    (hf : first < U64) (hs : second < U64) (ho : overhead < U64) :
    (first < second ∧ overhead < second - first →
      ((normolize_ticks first second overhead : Nat) : Int)
        = (second : Int) - (first : Int) - (overhead : Int)) ∧
    (¬ (first < second ∧ overhead < second - first) →
      normolize_ticks first second overhead = 0) ∧
    (first < second → ((sub64 second first : Nat) : Int) = (second : Int) - (first : Int)) ∧
    (first < second → overhead < sub64 second first →
      ((sub64 (sub64 second first) overhead : Nat) : Int)
        = (second : Int) - (first : Int) - (overhead : Int)) ∧
    normolize_ticks first second overhead ≤ sub64 second first ∧
    normolize_ticks first second overhead ≤ second - first ∧
    normolize_ticks first second overhead < U64 ∧
    (normolize_ticks first second overhead ≠ 0 →
      ((normolize_ticks first second overhead : Nat) : Int) + (overhead : Int)
        = (second : Int) - (first : Int)) := by
  have hU : U64 = 2 ^ 64 := rfl
  by_cases h1 : first < second
  · have e1 : sub64 second first = second - first := sub64_eq _ _ hs h1.le
    by_cases h2 : overhead < second - first
    · have e2 : sub64 (second - first) overhead = second - first - overhead :=
        sub64_eq _ _ (by omega) h2.le
      have hv : normolize_ticks first second overhead = second - first - overhead := by
        simp only [normolize_ticks, e1, e2, gt_iff_lt, h1, h2, if_true]
      rw [hv, e1, e2]
      refine ⟨fun _ => by omega, fun h => absurd ⟨h1, h2⟩ h,
        fun _ => by omega, fun _ _ => by omega, by omega, by omega, by omega, fun _ => by omega⟩
    · have hv : normolize_ticks first second overhead = 0 := by
        simp only [normolize_ticks, e1, gt_iff_lt, h1, h2, if_true, if_false]
      rw [hv, e1]
      refine ⟨fun h => absurd h.2 h2, fun _ => rfl, fun _ => by omega, fun _ h => absurd h h2,
        by omega, by omega, by omega, fun h => absurd rfl h⟩
  · have hv : normolize_ticks first second overhead = 0 := by
      simp only [normolize_ticks, gt_iff_lt, h1, if_false]
    rw [hv]
    refine ⟨fun h => absurd h.1 h1, fun _ => rfl, fun h => absurd h h1, fun h => absurd h h1,
      by omega, by omega, by omega, fun h => absurd rfl h⟩

/-- C9 at `first = 100`, `second = 170`, `overhead = 30`. -/
theorem normolize_ticks_exact_witness :
    ((normolize_ticks 100 170 30 : Nat) : Int) = (170 : Int) - 100 - 30 ∧
    normolize_ticks 100 170 30 ≤ 170 - 100 :=
  have h := normolize_ticks_exact 100 170 30 (by unfold U64; norm_num) (by unfold U64; norm_num)
    (by unfold U64; norm_num)
  ⟨h.1 ⟨by decide, by decide⟩, h.2.2.2.2.2.1⟩

/-! ## Theorems: the two estimators -/

theorem add_dataset_snoc (s : stat_sample K) (xs : List K) (x : K) :
    stat_sample_add_dataset s (xs ++ [x]) = stat_sample_add (stat_sample_add_dataset s xs) x := by
  simp [stat_sample_add_dataset, List.foldl_append]

theorem add_size (s : stat_sample K) (v : K) :
    (stat_sample_add s v).size = (s.size + 1) % U32 := rfl

theorem add_sum (s : stat_sample K) (v : K) : (stat_sample_add s v).sum = s.sum + v := rfl

/-- When the incremented counter is at most `1`, `stat_sample_add` restarts the Welford
mean at the added value. -/
theorem add_knuth_mean_wrap (s : stat_sample K) (v : K) (h : (s.size + 1) % U32 ≤ 1) :
    (stat_sample_add s v).knuth_mean = v := by
  simp only [stat_sample_add]
  rw [if_neg (by omega)]

/-- Expansion of the sum of squared deviations. -/
theorem sumSqDev_eq (xs : List K) (m : K) :
    sumSqDev xs m = (xs.map (fun x => x ^ 2)).sum - 2 * m * xs.sum + (xs.length : K) * m ^ 2 := by
  induction xs with
  | nil => simp [sumSqDev]
  | cons x xs ih =>
    simp only [sumSqDev, List.map_cons, List.sum_cons, List.length_cons] at ih ⊢
    rw [ih]; push_cast; ring

/-- Closed form of every accumulator after adding `xs` to a cleared sample, as long as the
32-bit element counter has not wrapped. -/
theorem add_dataset_clean_inv (xs : List K) (h : xs.length < U32) :
    (stat_sample_add_dataset stat_sample_clean xs).size = xs.length ∧
    (stat_sample_add_dataset stat_sample_clean xs).sum = xs.sum ∧
    (stat_sample_add_dataset stat_sample_clean xs).sum_pow2 = (xs.map (fun x => x ^ 2)).sum ∧
    (stat_sample_add_dataset stat_sample_clean xs).knuth_mean = xs.sum / (xs.length : K) ∧
    (stat_sample_add_dataset stat_sample_clean xs).knuth_var =
      (xs.map (fun x => x ^ 2)).sum - xs.sum ^ 2 / (xs.length : K) := by
  induction xs using List.reverseRecOn with
  | nil => simp [stat_sample_add_dataset, stat_sample_clean]
  | append_singleton xs x ih =>
    have hlen : xs.length + 1 < U32 := by simpa using h
    obtain ⟨h1, h2, h3, h4, h5⟩ := ih (by omega)
    rw [add_dataset_snoc]
    have hmod : (xs.length + 1) % U32 = xs.length + 1 := Nat.mod_eq_of_lt hlen
    simp only [stat_sample_add, h1, h2, h3, h4, h5, hmod, List.length_append,
      List.length_singleton, List.sum_append, List.sum_singleton, List.map_append,
      List.map_cons, List.map_nil]
    refine ⟨trivial, trivial, by ring, ?_, ?_⟩
    · rcases Nat.eq_zero_or_pos xs.length with h0 | h0
      · have : xs = [] := List.length_eq_zero.mp h0
        subst this; simp
      · have hn : (xs.length : K) ≠ 0 := by exact_mod_cast h0.ne'
        have hn1 : ((xs.length : K) + 1) ≠ 0 := by positivity
        rw [if_pos (by omega)]
        push_cast
        field_simp
        ring
    · rcases Nat.eq_zero_or_pos xs.length with h0 | h0
      · have : xs = [] := List.length_eq_zero.mp h0
        subst this; simp
      · have hn : (xs.length : K) ≠ 0 := by exact_mod_cast h0.ne'
        have hn1 : ((xs.length : K) + 1) ≠ 0 := by positivity
        rw [if_pos (by omega), if_pos (by omega)]
        push_cast
        field_simp
        ring

/-- C1 (amended): for every non-empty sequence of fewer than `2 ^ 32` values added to a
cleared sample, `stat_sample_mean_knuth` is the arithmetic mean, the accumulator `knuth_var`
is the sum of the squared deviations from the mean, and for at least two values
`stat_sample_var_knuth` is that sum divided by `n - 1`. -/
theorem welford_correct (xs : List K) (hne : xs ≠ []) (hlen : xs.length < U32) :
    stat_sample_mean_knuth (stat_sample_add_dataset stat_sample_clean xs) = listMean xs ∧
    (stat_sample_add_dataset stat_sample_clean xs).knuth_var = sumSqDev xs (listMean xs) ∧
    (2 ≤ xs.length →
      stat_sample_var_knuth (stat_sample_add_dataset stat_sample_clean xs)
        = sumSqDev xs (listMean xs) / ((xs.length : K) - 1)) := by
  obtain ⟨h1, h2, h3, h4, h5⟩ := add_dataset_clean_inv xs hlen
  have hpos : 0 < xs.length := List.length_pos.mpr hne
  have hn : (xs.length : K) ≠ 0 := by exact_mod_cast hpos.ne'
  have hvar : (stat_sample_add_dataset stat_sample_clean xs).knuth_var
      = sumSqDev xs (listMean xs) := by
    rw [h5, sumSqDev_eq, listMean]
    field_simp
    ring
  refine ⟨by rw [stat_sample_mean_knuth, h4, listMean], hvar, fun h2le => ?_⟩
  rw [stat_sample_var_knuth, h1, if_pos (by omega), hvar, Nat.cast_sub (by omega)]
  simp

/-- C1 (amended) on the values `2, 4, 9`. -/
theorem welford_correct_witness :
    stat_sample_mean_knuth (stat_sample_add_dataset stat_sample_clean [(2 : ℚ), 4, 9])
      = listMean [(2 : ℚ), 4, 9] ∧
    (stat_sample_add_dataset stat_sample_clean [(2 : ℚ), 4, 9]).knuth_var
      = sumSqDev [(2 : ℚ), 4, 9] (listMean [(2 : ℚ), 4, 9]) ∧
    (2 ≤ [(2 : ℚ), 4, 9].length →
      stat_sample_var_knuth (stat_sample_add_dataset stat_sample_clean [(2 : ℚ), 4, 9])
        = sumSqDev [(2 : ℚ), 4, 9] (listMean [(2 : ℚ), 4, 9])
          / (([(2 : ℚ), 4, 9].length : ℚ) - 1)) :=
  welford_correct [(2 : ℚ), 4, 9] (by simp) (by simp [U32])

/-- C1 as stated fails once the 32-bit element counter wraps: after `2 ^ 32 - 1` zeros and
a final `1` the counter is back at `0`, `stat_sample_add` takes its first-element branch and
the Welford mean is `1`, while the arithmetic mean of the sequence is `1 / 2 ^ 32`. -/
theorem welford_counter_wrap :
    stat_sample_mean_knuth
        (stat_sample_add_dataset stat_sample_clean (List.replicate (U32 - 1) (0 : ℚ) ++ [1])) = 1 ∧
    listMean (List.replicate (U32 - 1) (0 : ℚ) ++ [1]) = 1 / 4294967296 := by
  have hU : U32 - 1 + 1 = 4294967296 := by unfold U32; norm_num
  constructor
  · have h := (add_dataset_clean_inv (List.replicate (U32 - 1) (0 : ℚ))
      (by rw [List.length_replicate]; unfold U32; norm_num)).1
    rw [List.length_replicate] at h
    rw [add_dataset_snoc, stat_sample_mean_knuth]
    exact add_knuth_mean_wrap _ _ (by rw [h, hU]; unfold U32; norm_num)
  · rw [listMean, List.sum_append, List.sum_replicate, List.length_append,
      List.length_replicate, List.sum_singleton, List.length_singleton, smul_zero, hU]
    norm_num

/-- C2 (amended): for every sequence of fewer than `2 ^ 32` values added to a cleared
sample, the classical and the Welford estimator return the same variance and the same mean
(exact arithmetic). -/
theorem estimators_agree (xs : List K) (hlen : xs.length < U32) :
    stat_sample_var (stat_sample_add_dataset stat_sample_clean xs)
      = stat_sample_var_knuth (stat_sample_add_dataset stat_sample_clean xs) ∧
    stat_sample_mean (stat_sample_add_dataset stat_sample_clean xs)
      = stat_sample_mean_knuth (stat_sample_add_dataset stat_sample_clean xs) := by
  obtain ⟨h1, h2, h3, h4, h5⟩ := add_dataset_clean_inv xs hlen
  rw [stat_sample_var, stat_sample_var_knuth, stat_sample_mean, stat_sample_mean_knuth,
    h1, h2, h3, h4, h5]
  by_cases h : 1 < xs.length
  · have hn : (xs.length : K) ≠ 0 := by
      have : 0 < xs.length := by omega
      exact_mod_cast this.ne'
    have hn1 : (xs.length : K) - 1 ≠ 0 := by
      have : ((1 : Nat) : K) < (xs.length : K) := by exact_mod_cast h
      have : (0 : K) < (xs.length : K) - 1 := by simpa using this
      exact this.ne'
    rw [if_pos h, if_pos h, if_pos h, Nat.cast_sub (by omega)]
    refine ⟨?_, rfl⟩
    push_cast
    field_simp
    ring
  · rw [if_neg h, if_neg h, if_neg h]
    refine ⟨rfl, ?_⟩
    match xs, h with
    | [], _ => simp
    | [x], _ => simp
    | _ :: _ :: _, h => exact absurd (by simp) h

/-- C2 (amended) on the values `3, 1, 4, 1, 5`. -/
theorem estimators_agree_witness :
    stat_sample_var (stat_sample_add_dataset stat_sample_clean [(3 : ℚ), 1, 4, 1, 5])
      = stat_sample_var_knuth (stat_sample_add_dataset stat_sample_clean [(3 : ℚ), 1, 4, 1, 5]) ∧
    stat_sample_mean (stat_sample_add_dataset stat_sample_clean [(3 : ℚ), 1, 4, 1, 5])
      = stat_sample_mean_knuth (stat_sample_add_dataset stat_sample_clean [(3 : ℚ), 1, 4, 1, 5]) :=
  estimators_agree [(3 : ℚ), 1, 4, 1, 5] (by simp [U32])

/-- C2 as stated fails once the 32-bit element counter wraps: after `2 ^ 32` ones the
counter is `0`, so `stat_sample_mean` returns the sum `2 ^ 32` verbatim while
`stat_sample_mean_knuth` returns `1`. -/
theorem estimators_disagree_on_wrap :
    stat_sample_mean
        (stat_sample_add_dataset stat_sample_clean (List.replicate (U32 - 1) (1 : ℚ) ++ [1]))
      = 4294967296 ∧
    stat_sample_mean_knuth
        (stat_sample_add_dataset stat_sample_clean (List.replicate (U32 - 1) (1 : ℚ) ++ [1]))
      = 1 := by
  have hU : U32 - 1 + 1 = 4294967296 := by unfold U32; norm_num
  have hU1 : ((U32 - 1 : Nat) : ℚ) = 4294967295 := by unfold U32; norm_num
  obtain ⟨h1, h2, -, -, -⟩ := add_dataset_clean_inv (List.replicate (U32 - 1) (1 : ℚ))
    (by rw [List.length_replicate]; unfold U32; norm_num)
  rw [List.length_replicate] at h1
  rw [List.sum_replicate, nsmul_eq_mul, mul_one, hU1] at h2
  have hsz : (stat_sample_add (stat_sample_add_dataset stat_sample_clean
      (List.replicate (U32 - 1) (1 : ℚ))) 1).size = 0 := by
    rw [add_size, h1, hU]; unfold U32; norm_num
  rw [add_dataset_snoc, stat_sample_mean_knuth, stat_sample_mean, hsz,
    if_neg (by norm_num), add_sum, h2]
  exact ⟨by norm_num, add_knuth_mean_wrap _ _ (by rw [h1, hU]; unfold U32; norm_num)⟩

/-! ## Theorems: fixed-trials calibration -/

theorem runMin_cons (d : Nat) (ds : List Nat) (m : Nat) :
    runMin m (d :: ds) = runMin (if d < m then d else m) ds := rfl

theorem runMin_le_init (ds : List Nat) (m : Nat) : runMin m ds ≤ m := by
  induction ds generalizing m with
  | nil => simp [runMin]
  | cons d ds ih =>
    rw [runMin_cons]
    have h := ih (if d < m then d else m)
    by_cases hdm : d < m
    · rw [if_pos hdm] at h ⊢; omega
    · rw [if_neg hdm] at h ⊢; omega

theorem runMin_le_mem (ds : List Nat) (m : Nat) : ∀ d ∈ ds, runMin m ds ≤ d := by
  induction ds generalizing m with
  | nil => simp
  | cons d ds ih =>
    intro x hx
    rw [runMin_cons]
    have h0 := runMin_le_init ds (if d < m then d else m)
    rcases List.mem_cons.mp hx with rfl | hx
    · by_cases hdm : x < m
      · rw [if_pos hdm] at h0 ⊢; omega
      · rw [if_neg hdm] at h0 ⊢; omega
    · exact ih _ x hx

theorem runMin_mem (ds : List Nat) (m : Nat) : runMin m ds = m ∨ runMin m ds ∈ ds := by
  induction ds generalizing m with
  | nil => simp [runMin]
  | cons d ds ih =>
    rw [runMin_cons]
    have h := ih (if d < m then d else m)
    by_cases hdm : d < m
    · rw [if_pos hdm] at h ⊢
      rcases h with h | h
      · exact Or.inr (by rw [h]; exact List.mem_cons_self _ _)
      · exact Or.inr (List.mem_cons_of_mem _ h)
    · rw [if_neg hdm] at h ⊢
      rcases h with h | h
      · exact Or.inl h
      · exact Or.inr (List.mem_cons_of_mem _ h)

theorem validDeltas_cons_valid (t0 t1 : Nat) (rest : Stream) (h : t0 < t1) :
    validDeltas ((t0, t1) :: rest) = (t1 - t0) :: validDeltas rest := by
  simp [validDeltas, validPair, h]

theorem validDeltas_cons_invalid (t0 t1 : Nat) (rest : Stream) (h : ¬ t0 < t1) :
    validDeltas ((t0, t1) :: rest) = validDeltas rest := by
  simp [validDeltas, validPair, h]

theorem validDeltas_replicate (n a b : Nat) (h : a < b) :
    validDeltas (List.replicate n (a, b)) = List.replicate n (b - a) := by
  induction n with
  | zero => rfl
  | succ k ih => rw [List.replicate_succ, validDeltas_cons_valid _ _ _ h, ih, List.replicate_succ]

theorem runMin_replicate (n v m : Nat) (hn : 0 < n) (hv : v < m) :
    runMin m (List.replicate n v) = v := by
  have hmem : v ∈ List.replicate n v := List.mem_replicate.mpr ⟨by omega, rfl⟩
  have h1 := runMin_le_mem (List.replicate n v) m v hmem
  rcases runMin_mem (List.replicate n v) m with h2 | h2
  · omega
  · exact List.eq_of_mem_replicate h2

theorem Readings64_tail (p : Nat × Nat) (rest : Stream) (h : Readings64 (p :: rest)) :
    Readings64 rest := fun q hq => h q (List.mem_cons_of_mem _ hq)

/-- The loop of `measure_tsc_overhead` returns exactly when the stream still holds the
missing number of valid pairs, and then returns the running minimum over their deltas. -/
theorem measure_tsc_overhead_loop_fst (stream : Stream) (hwf : Readings64 stream) (i m : Nat) :
    (measure_tsc_overhead_loop i m stream).map Prod.fst =
      if NMEASURES - i ≤ (validDeltas stream).length then
        some (runMin m ((validDeltas stream).take (NMEASURES - i)))
      else none := by
  induction stream generalizing i m with
  | nil =>
    by_cases hi : i < NMEASURES
    · have : ¬ NMEASURES - i ≤ 0 := by omega
      simp [measure_tsc_overhead_loop, hi, validDeltas, this]
    · have : NMEASURES - i = 0 := by omega
      simp [measure_tsc_overhead_loop, hi, validDeltas, this, runMin]
  | cons p rest ih =>
    obtain ⟨t0, t1⟩ := p
    have hwf1 := Readings64_tail _ _ hwf
    have hb := hwf (t0, t1) (List.mem_cons_self _ _)
    by_cases hi : i < NMEASURES
    · by_cases hv : t0 < t1
      · have e1 : sub64 t1 t0 = t1 - t0 := sub64_eq _ _ hb.2 hv.le
        have hs : NMEASURES - i = (NMEASURES - (i + 1)) + 1 := by omega
        simp only [measure_tsc_overhead_loop, hi, hv, gt_iff_lt, if_true, e1,
          validDeltas_cons_valid _ _ _ hv, ih hwf1, List.length_cons]
        rw [hs, List.take_succ_cons]
        simp only [Nat.add_le_add_iff_right, runMin, List.foldl_cons]
      · simp only [measure_tsc_overhead_loop, hi, hv, gt_iff_lt, if_true, if_false,
          validDeltas_cons_invalid _ _ _ hv, ih hwf1]
    · have : NMEASURES - i = 0 := by omega
      simp [measure_tsc_overhead_loop, hi, this, runMin]

/-- The unread part handed back by the loop of `measure_tsc_overhead` is a suffix of the
stream. -/
theorem measure_tsc_overhead_loop_rest (stream : Stream) (i m r : Nat) (rest : Stream)
    (h : measure_tsc_overhead_loop i m stream = some (r, rest)) :
    ∃ pre, stream = pre ++ rest := by
  induction stream generalizing i m with
  | nil =>
    simp only [measure_tsc_overhead_loop] at h
    split at h
    · exact absurd h (by simp)
    · simp only [Option.some.injEq, Prod.mk.injEq] at h
      exact ⟨[], by simp [h.2]⟩
  | cons p tl ih =>
    obtain ⟨t0, t1⟩ := p
    simp only [measure_tsc_overhead_loop] at h
    split at h
    · split at h
      · obtain ⟨pre, hpre⟩ := ih _ _ h
        exact ⟨(t0, t1) :: pre, by simp [hpre]⟩
      · obtain ⟨pre, hpre⟩ := ih _ _ h
        exact ⟨(t0, t1) :: pre, by simp [hpre]⟩
    · simp only [Option.some.injEq, Prod.mk.injEq] at h
      exact ⟨[], by simp [h.2]⟩

/-! ## Theorems: one batch of the sampler -/

theorem acceptedTicks_cons_accept (ov t0 t1 : Nat) (rest : Stream)
    (h1 : t0 < t1) (h2 : ov < sub64 t1 t0) :
    acceptedTicks ov ((t0, t1) :: rest) = sub64 (sub64 t1 t0) ov :: acceptedTicks ov rest := by
  simp [acceptedTicks, h1, h2]

theorem acceptedTicks_cons_reject (ov t0 t1 : Nat) (rest : Stream)
    (h : ¬ (t0 < t1 ∧ ov < sub64 t1 t0)) :
    acceptedTicks ov ((t0, t1) :: rest) = acceptedTicks ov rest := by
  simp only [acceptedTicks, List.filterMap_cons, gt_iff_lt, if_neg h]

/-- A batch of `run_benchmark` completes exactly when the stream still holds the missing
number of accepted pairs, and then the sample holds their values, added in order. -/
theorem bench_batch_fst (ov n : Nat) (stream : Stream) (i : Nat) (st : stat_sample K) (c : Nat) :
    (bench_batch ov n i st c stream).map (fun r => r.1) =
      if n - i ≤ (acceptedTicks ov stream).length then
        some (stat_sample_add_dataset st
          (((acceptedTicks ov stream).take (n - i)).map (fun (v : Nat) => (v : K))))
      else none := by
  induction stream generalizing i st c with
  | nil =>
    by_cases hi : i < n
    · have : ¬ n - i ≤ 0 := by omega
      simp [bench_batch, hi, acceptedTicks, this]
    · have : n - i = 0 := by omega
      simp [bench_batch, hi, acceptedTicks, this, stat_sample_add_dataset]
  | cons p rest ih =>
    obtain ⟨t0, t1⟩ := p
    by_cases hi : i < n
    · by_cases hv : t0 < t1
      · by_cases ho : ov < sub64 t1 t0
        · have hs : n - i = (n - (i + 1)) + 1 := by omega
          simp only [bench_batch, hi, hv, ho, gt_iff_lt, if_true, ih,
            acceptedTicks_cons_accept _ _ _ _ hv ho, List.length_cons]
          rw [hs, List.take_succ_cons]
          simp only [Nat.add_le_add_iff_right, List.map_cons, stat_sample_add_dataset,
            List.foldl_cons]
        · simp only [bench_batch, hi, hv, ho, gt_iff_lt, if_true, if_false, ih,
            acceptedTicks_cons_reject _ _ _ _ (fun h => ho h.2)]
      · simp only [bench_batch, hi, hv, gt_iff_lt, if_true, if_false, ih,
          acceptedTicks_cons_reject _ _ _ _ (fun h => hv h.1)]
    · have : n - i = 0 := by omega
      simp [bench_batch, hi, this, stat_sample_add_dataset]

/-- A completed batch has consumed a prefix of the stream and invoked the timed unit once per
consumed pair. -/
theorem bench_batch_consumed (ov n : Nat) (stream : Stream) (i : Nat) (st st1 : stat_sample K)
    (c c1 : Nat) (rest : Stream) (h : bench_batch ov n i st c stream = some (st1, c1, rest)) :
    ∃ pre, stream = pre ++ rest ∧ c1 = c + pre.length := by
  induction stream generalizing i st c with
  | nil =>
    simp only [bench_batch] at h
    split at h
    · exact absurd h (by simp)
    · simp only [Option.some.injEq, Prod.mk.injEq] at h
      exact ⟨[], by simp [h.2.2], by simp [h.2.1]⟩
  | cons p tl ih =>
    obtain ⟨t0, t1⟩ := p
    simp only [bench_batch] at h
    split at h
    · split at h
      · split at h
        · obtain ⟨pre, hpre, hc⟩ := ih _ _ _ h
          exact ⟨(t0, t1) :: pre, by simp [hpre], by simp [hc]; omega⟩
        · obtain ⟨pre, hpre, hc⟩ := ih _ _ _ h
          exact ⟨(t0, t1) :: pre, by simp [hpre], by simp [hc]; omega⟩
      · obtain ⟨pre, hpre, hc⟩ := ih _ _ _ h
        exact ⟨(t0, t1) :: pre, by simp [hpre], by simp [hc]; omega⟩
    · simp only [Option.some.injEq, Prod.mk.injEq] at h
      exact ⟨[], by simp [h.2.2], by simp [h.2.1]⟩

/-- A run of accepted pairs that exactly fills the batch. -/
theorem bench_batch_accept_all (ov n : Nat) (pre rest : Stream) (i : Nat) (st : stat_sample K)
    (c : Nat) (hacc : ∀ p ∈ pre, acceptedPair ov p) (hlen : i + pre.length = n) :
    bench_batch ov n i st c (pre ++ rest) =
      some (stat_sample_add_dataset st (pre.map (fun p => (tickValue ov p : K))),
        c + pre.length, rest) := by
  induction pre generalizing i st c with
  | nil =>
    have hi : ¬ i < n := by simp at hlen; omega
    cases rest with
    | nil => simp [bench_batch, hi, stat_sample_add_dataset]
    | cons q tl => simp [bench_batch, hi, stat_sample_add_dataset]
  | cons p tl ih =>
    obtain ⟨t0, t1⟩ := p
    have hp := hacc (t0, t1) (List.mem_cons_self _ _)
    have hi : i < n := by simp at hlen; omega
    have := ih (i + 1) (stat_sample_add st ((sub64 (sub64 t1 t0) ov : Nat) : K)) (c + 1)
      (fun q hq => hacc q (List.mem_cons_of_mem _ hq)) (by simp at hlen; omega)
    rw [List.cons_append]
    simp only [bench_batch, hi, hp.1, hp.2, gt_iff_lt, if_true, this,
      List.map_cons, stat_sample_add_dataset, List.foldl_cons, tickValue, List.length_cons]
    have e : c + 1 + tl.length = c + (tl.length + 1) := by omega
    rw [e]

/-- A run of rejected pairs inside a batch only costs invocations. -/
theorem bench_batch_skip (ov n : Nat) (pre rest : Stream) (i : Nat) (st : stat_sample K)
    (c : Nat) (hrej : ∀ p ∈ pre, ¬ acceptedPair ov p) (hi : i < n) :
    bench_batch ov n i st c (pre ++ rest) = bench_batch ov n i st (c + pre.length) rest := by
  induction pre generalizing c with
  | nil => simp
  | cons p tl ih =>
    obtain ⟨t0, t1⟩ := p
    have hp := hrej (t0, t1) (List.mem_cons_self _ _)
    have := ih (c + 1) (fun q hq => hrej q (List.mem_cons_of_mem _ hq))
    have e : c + 1 + tl.length = c + (tl.length + 1) := by omega
    simp only [acceptedPair] at hp
    by_cases hv : t0 < t1
    · have ho : ¬ ov < sub64 t1 t0 := fun h => hp ⟨hv, h⟩
      rw [List.cons_append]
      simp only [bench_batch, hi, hv, ho, gt_iff_lt, if_true, if_false, this,
        List.length_cons, e]
    · rw [List.cons_append]
      simp only [bench_batch, hi, hv, gt_iff_lt, if_true, if_false, this,
        List.length_cons, e]

theorem acceptedTicks_eq_nil (ov : Nat) (stream : Stream)
    (h : ∀ p ∈ stream, ¬ acceptedPair ov p) : acceptedTicks ov stream = [] := by
  induction stream with
  | nil => rfl
  | cons p tl ih =>
    obtain ⟨t0, t1⟩ := p
    rw [acceptedTicks_cons_reject _ _ _ _ (h (t0, t1) (List.mem_cons_self _ _))]
    exact ih (fun q hq => h q (List.mem_cons_of_mem _ hq))

/-- A batch that wants at least one value from a stream without accepted pairs never
completes. -/
theorem bench_batch_starved (ov n : Nat) (stream : Stream) (st : stat_sample K) (c : Nat)
    (hn : 0 < n) (h : ∀ p ∈ stream, ¬ acceptedPair ov p) :
    bench_batch ov n 0 st c stream = none := by
  have := bench_batch_fst ov n stream 0 st c
  rw [acceptedTicks_eq_nil ov stream h] at this
  have hlt : ¬ n - 0 ≤ ([] : List Nat).length := by simp; omega
  rw [if_neg hlt] at this
  simpa using this

/-! ## Theorems: samples of equal values -/

theorem sum_replicate_cast (n : Nat) (v : K) : (List.replicate n v).sum = (n : K) * v := by
  simp [List.sum_replicate]

/-- A sample of `n` equal values has a zero Welford variance accumulator. -/
theorem const_sample (n : Nat) (v : K) (hn : n < U32) :
    (stat_sample_add_dataset stat_sample_clean (List.replicate n v)).size = n ∧
    (stat_sample_add_dataset stat_sample_clean (List.replicate n v)).knuth_var = 0 := by
  obtain ⟨h1, -, -, -, h5⟩ := add_dataset_clean_inv (List.replicate n v) (by simpa using hn)
  rw [List.length_replicate] at h1 h5
  refine ⟨h1, ?_⟩
  rw [h5, List.map_replicate, sum_replicate_cast, sum_replicate_cast]
  rcases Nat.eq_zero_or_pos n with h0 | h0
  · subst h0; simp
  · have : (n : K) ≠ 0 := by exact_mod_cast h0.ne'
    field_simp
    ring

/-- The Welford relative standard error of a sample of equal values is `0`. -/
theorem const_sample_rse (sqrt : K → K) (hsqrt : sqrt 0 = 0) (n : Nat) (v : K) (hn : n < U32) :
    stat_sample_rel_stderr_knuth sqrt
      (stat_sample_add_dataset stat_sample_clean (List.replicate n v)) = 0 := by
  obtain ⟨h1, h2⟩ := const_sample n v hn
  have hvar : stat_sample_var_knuth
      (stat_sample_add_dataset stat_sample_clean (List.replicate n v)) = 0 := by
    rw [stat_sample_var_knuth, h2]
    split <;> simp
  simp [stat_sample_rel_stderr_knuth, stat_sample_stderr_knuth, stat_sample_stddev_knuth,
    hvar, hsqrt]

theorem toInt32_small (n : Nat) (h : n < 2 ^ 31) : toInt32 n = (n : Int) := by
  have : n % U32 = n := Nat.mod_eq_of_lt (by unfold U32; omega)
  rw [toInt32, this, if_pos h]

/-! ## Theorems: sessions with a fixed delta -/

/-- The first batch of a session whose pairs after calibration all have the delta `d`, above
the overhead `o`: it completes on the first 100 pairs with 100 values `d - o`. -/
theorem fixed_delta_batch (o d : Nat) (rest : Stream) (c : Nat) (hd : o < d)
    (hwf : Readings64 rest) (hfix : ∀ p ∈ rest, p.2 = p.1 + d) (hlen : 100 ≤ rest.length) :
    bench_batch o 100 0 (stat_sample_clean : stat_sample K) c rest =
      some (stat_sample_add_dataset stat_sample_clean (List.replicate 100 ((d - o : Nat) : K)),
        c + 100, rest.drop 100) := by
  have hU : U64 = 2 ^ 64 := rfl
  have hacc : ∀ p ∈ rest.take 100, acceptedPair o p ∧ tickValue o p = d - o := by
    intro p hp
    have hm := List.mem_of_mem_take hp
    have h1 := hfix p hm
    have h2 := hwf p hm
    have e1 : sub64 p.2 p.1 = d := by rw [sub64_eq _ _ h2.2 (by omega)]; omega
    have e2 : sub64 d o = d - o := sub64_eq _ _ (by omega) hd.le
    exact ⟨⟨by omega, by rw [e1]; exact hd⟩, by rw [tickValue, e1, e2]⟩
  have hl : (rest.take 100).length = 100 := by rw [List.length_take]; omega
  have hmap : (rest.take 100).map (fun p => (tickValue o p : K))
      = List.replicate 100 ((d - o : Nat) : K) := by
    rw [List.eq_replicate_iff]
    refine ⟨by rw [List.length_map, hl], fun b hb => ?_⟩
    obtain ⟨p, hp, rfl⟩ := List.mem_map.mp hb
    rw [(hacc p hp).2]
  have := bench_batch_accept_all (K := K) o 100 (rest.take 100) (rest.drop 100) 0
    stat_sample_clean c (fun p hp => (hacc p hp).1) (by rw [hl])
  rw [List.take_append_drop, hmap, hl] at this
  exact this

/-- C3 (amended): in a session where calibration returned the overhead `o` and the counter
returns `after = before + d` for one fixed `d > o` on every later pair, `run_benchmark`
(given fuel for at least one batch) terminates after its first batch: the sample holds 100
values `d - o`, its Welford relative standard error is `0`, one batch of 100 values was run
and `nruns` was multiplied once, the timed unit ran 101 times, and the sample size is below
the cap `NRUNS_MAX`. -/
theorem fixed_delta_converges (sqrt : K → K) (hsqrt : sqrt 0 = 0) (stream rest : Stream)
    (o d fuel : Nat) (hfuel : 0 < fuel)
    (hcal : measure_tsc_overhead stream = some (o, rest))
    (hd : o < d) (hwf : Readings64 rest) (hfix : ∀ p ∈ rest, p.2 = p.1 + d)
    (hlen : 101 ≤ rest.length) :
    ∃ r, run_benchmark sqrt fuel stream = some r ∧ r.overhead = o ∧
      r.final.stat
        = stat_sample_add_dataset stat_sample_clean (List.replicate 100 ((d - o : Nat) : K)) ∧
      stat_sample_size r.final.stat = 100 ∧
      stat_sample_rel_stderr_knuth sqrt r.final.stat = 0 ∧
      r.final.total = 100 ∧ r.final.nruns = 400 ∧ r.final.calls = 101 ∧
      stat_sample_size r.final.stat < NRUNS_MAX := by
  obtain ⟨f, rfl⟩ : ∃ f, fuel = f + 1 := ⟨fuel - 1, by omega⟩
  match rest, hwf, hfix, hlen, hcal with
  | [], _, _, hlen, _ => exact absurd hlen (by simp)
  | (t0, t1) :: tl, hwf, hfix, hlen, hcal =>
    have hb := fixed_delta_batch (K := K) o d tl 1 hd (Readings64_tail _ _ hwf)
      (fun p hp => hfix p (List.mem_cons_of_mem _ hp)) (by simp at hlen; omega)
    have hsz := (const_sample 100 ((d - o : Nat) : K) (by unfold U32; norm_num)).1
    have hrse := const_sample_rse sqrt hsqrt 100 ((d - o : Nat) : K) (by unfold U32; norm_num)
    have hsize : stat_sample_size (stat_sample_add_dataset (stat_sample_clean : stat_sample K)
        (List.replicate 100 ((d - o : Nat) : K))) = 100 := by
      rw [stat_sample_size, hsz, toInt32_small _ (by norm_num)]; rfl
    have hcont : bench_continue sqrt (stat_sample_add_dataset (stat_sample_clean : stat_sample K)
        (List.replicate 100 ((d - o : Nat) : K))) = false := by
      have h5 : ¬ ((0 : K) > RSE_MAX) := by unfold RSE_MAX; norm_num
      rw [bench_continue, hrse]
      simp only [h5, decide_False, Bool.and_false]
    refine ⟨{ overhead := o, firstrun := normolize_ticks t0 t1 o,
              final := { stat := stat_sample_add_dataset stat_sample_clean
                            (List.replicate 100 ((d - o : Nat) : K)),
                         nruns := 400, calls := 101, total := 100, rest := tl.drop 100 } },
      ?_, rfl, rfl, hsize, hrse, rfl, rfl, rfl, ?_⟩
    · simp only [run_benchmark, hcal, bench_loop, bench_body, NRUNS_MIN, hb, hcont]
      simp
    · rw [hsize]; simp [NRUNS_MAX]

set_option maxRecDepth 100000 in
/-- C3 (amended) on a stream of 100 calibration pairs of delta 3 followed by 101 pairs of
delta 7, over the reals with `Real.sqrt`. -/
theorem fixed_delta_converges_witness :
    ∃ r, run_benchmark Real.sqrt 1
        (List.replicate 100 (100, 103) ++ List.replicate 101 (100, 107)) = some r ∧
      r.overhead = 3 ∧
      r.final.stat
        = stat_sample_add_dataset stat_sample_clean (List.replicate 100 (((7 - 3 : Nat) : ℝ))) ∧
      stat_sample_size r.final.stat = 100 ∧
      stat_sample_rel_stderr_knuth Real.sqrt r.final.stat = 0 ∧
      r.final.total = 100 ∧ r.final.nruns = 400 ∧ r.final.calls = 101 ∧
      stat_sample_size r.final.stat < NRUNS_MAX :=
  fixed_delta_converges Real.sqrt Real.sqrt_zero
    (List.replicate 100 (100, 103) ++ List.replicate 101 (100, 107))
    (List.replicate 101 (100, 107)) 3 7 1 (by decide) (by decide) (by decide)
    (by intro p hp; rw [List.eq_of_mem_replicate hp]; unfold U64; constructor <;> norm_num)
    (by intro p hp; rw [List.eq_of_mem_replicate hp])
    (by simp)

/-- On a stream whose pairs all have the delta `d` (below `2 ^ 64 - 1`) the calibrated
overhead is `d`. -/
theorem fixed_delta_overhead (stream rest : Stream) (d o : Nat) (hd : 0 < d)
    (hd2 : d ≤ MINTICKS_INIT) (hwf : Readings64 stream) (hfix : ∀ p ∈ stream, p.2 = p.1 + d)
    (h : measure_tsc_overhead stream = some (o, rest)) : o = d := by
  have hfst := measure_tsc_overhead_loop_fst stream hwf 0 MINTICKS_INIT
  rw [measure_tsc_overhead] at h
  rw [h] at hfst
  have hall : ∀ x ∈ validDeltas stream, x = d := by
    intro x hx
    simp only [validDeltas, List.mem_map, List.mem_filter] at hx
    obtain ⟨p, ⟨hp, -⟩, rfl⟩ := hx
    have := hfix p hp
    omega
  by_cases hlen : NMEASURES - 0 ≤ (validDeltas stream).length
  · rw [if_pos hlen] at hfst
    simp only [Option.map_some', Option.some.injEq] at hfst
    have hne : (validDeltas stream).take (NMEASURES - 0) ≠ [] := by
      intro hnil
      have := congrArg List.length hnil
      rw [List.length_take, List.length_nil] at this
      unfold NMEASURES at this hlen
      omega
    obtain ⟨x, hx⟩ := List.exists_mem_of_ne_nil _ hne
    have hxd : x = d := hall x (List.mem_of_mem_take hx)
    have h1 := runMin_le_mem _ MINTICKS_INIT x hx
    rcases runMin_mem ((validDeltas stream).take (NMEASURES - 0)) MINTICKS_INIT with h2 | h2
    · omega
    · have := hall _ (List.mem_of_mem_take h2)
      omega
  · rw [if_neg hlen] at hfst
    simp at hfst

/-- A session on a stream whose pairs all have the same delta `d` (below `2 ^ 64 - 1`),
calibration pairs included, never produces a result: the overhead is `d` and no trial of the
first batch passes the guard `t1 - t0 > overhead`. -/
theorem fixed_delta_no_result (sqrt : K → K) (stream : Stream) (d fuel : Nat) (hd : 0 < d)
    (hd2 : d ≤ MINTICKS_INIT) (hwf : Readings64 stream)
    (hfix : ∀ p ∈ stream, p.2 = p.1 + d) :
    run_benchmark sqrt fuel stream = none := by
  unfold run_benchmark
  cases hcal : measure_tsc_overhead stream with
  | none => rfl
  | some res =>
    obtain ⟨o, rest⟩ := res
    have ho : o = d := fixed_delta_overhead stream rest d o hd hd2 hwf hfix hcal
    subst ho
    obtain ⟨pre, hpre⟩ := measure_tsc_overhead_loop_rest stream 0 MINTICKS_INIT o rest hcal
    cases rest with
    | nil => rfl
    | cons q tl =>
      obtain ⟨t0, t1⟩ := q
      have hrej : ∀ p ∈ tl, ¬ acceptedPair o p := by
        intro p hp hacc
        have hm : p ∈ stream := by rw [hpre]; simp [hp]
        have h1 := hfix p hm
        have h2 := hwf p hm
        have e1 : sub64 p.2 p.1 = o := by rw [sub64_eq _ _ h2.2 (by omega)]; omega
        have := hacc.2
        rw [e1] at this
        exact absurd this (lt_irrefl _)
      cases fuel with
      | zero => rfl
      | succ f =>
        simp only [bench_loop, bench_body, NRUNS_MIN,
          bench_batch_starved (K := K) o 100 tl stat_sample_clean 1 (by norm_num) hrej]

/-- C3 as stated fails: on the stream that returns `before = 100`, `after = 107` on every
pair, calibration included, no length of the stream and no number of batches lets
`run_benchmark` produce a result. -/
theorem fixed_delta_counterexample :
    ¬ ∃ n fuel r, run_benchmark Real.sqrt fuel (List.replicate n (100, 107)) = some r := by
  rintro ⟨n, fuel, r, h⟩
  rw [fixed_delta_no_result Real.sqrt (List.replicate n (100, 107)) 7 fuel (by norm_num)
    (by unfold MINTICKS_INIT; norm_num)
    (by intro p hp; rw [List.eq_of_mem_replicate hp]; unfold U64; constructor <;> norm_num)
    (by intro p hp; rw [List.eq_of_mem_replicate hp])] at h
  exact absurd h (by simp)

/-! ## Theorems: one trial of the batch loop -/

/-- C4 (amended): inside the batch loop of `run_benchmark`, for a trial with `after > before`:
when `delta > overhead` the value `delta - overhead` (at least `1`, computed without
wrap-around) is added to the sample and the trial counts toward the batch; when
`delta ≤ overhead` the trial is discarded: nothing is added, the trial does not count, only
the invocation is spent. -/
theorem batch_trial (ov n i : Nat) (st : stat_sample K) (c t0 t1 : Nat) (rest : Stream)
    (hi : i < n) (hv : t0 < t1) (h64 : t1 < U64) :
    (ov < t1 - t0 →
      bench_batch ov n i st c ((t0, t1) :: rest)
        = bench_batch ov n (i + 1) (stat_sample_add st ((t1 - t0 - ov : Nat) : K)) (c + 1) rest ∧
      1 ≤ t1 - t0 - ov ∧ tickValue ov (t0, t1) = t1 - t0 - ov) ∧
    (t1 - t0 ≤ ov →
      bench_batch ov n i st c ((t0, t1) :: rest) = bench_batch ov n i st (c + 1) rest) := by
  have hU : U64 = 2 ^ 64 := rfl
  have e1 : sub64 t1 t0 = t1 - t0 := sub64_eq _ _ h64 hv.le
  constructor
  · intro ho
    have e2 : sub64 (t1 - t0) ov = t1 - t0 - ov := sub64_eq _ _ (by omega) ho.le
    refine ⟨?_, by omega, by rw [tickValue]; simp only [e1, e2]⟩
    simp only [bench_batch, hi, hv, e1, e2, ho, gt_iff_lt, if_true]
  · intro ho
    have ho1 : ¬ ov < t1 - t0 := by omega
    simp only [bench_batch, hi, hv, e1, ho1, gt_iff_lt, if_true, if_false]

/-- C4 (amended) on the pairs `(10, 20)` and `(10, 13)` with overhead `5`. -/
theorem batch_trial_witness :
    (bench_batch 5 1 0 (stat_sample_clean : stat_sample ℚ) 0 [(10, 20)]
        = bench_batch 5 1 (0 + 1)
            (stat_sample_add stat_sample_clean (((20 - 10 - 5 : Nat) : ℚ))) (0 + 1) [] ∧
      1 ≤ 20 - 10 - 5 ∧ tickValue 5 (10, 20) = 20 - 10 - 5) ∧
    bench_batch 5 1 0 (stat_sample_clean : stat_sample ℚ) 0 [(10, 13), (10, 20)]
      = bench_batch 5 1 0 (stat_sample_clean : stat_sample ℚ) (0 + 1) [(10, 20)] :=
  ⟨(batch_trial 5 1 0 stat_sample_clean 0 10 20 [] (by decide) (by decide)
      (by unfold U64; norm_num)).1 (by decide),
   (batch_trial 5 1 0 stat_sample_clean 0 10 13 [(10, 20)] (by decide) (by decide)
      (by unfold U64; norm_num)).2 (by decide)⟩

/-- C4 as stated fails: with overhead `5`, a batch of one run that first meets the pair
`(10, 13)` (delta `3`) does not add `0` and stop; it skips the pair and ends with the single
value `5` of the next pair `(10, 20)`, after two invocations. -/
theorem small_delta_discarded :
    bench_batch 5 1 0 (stat_sample_clean : stat_sample ℚ) 0 [(10, 13), (10, 20)]
      = some (stat_sample_add stat_sample_clean 5, 2, []) ∧
    (stat_sample_add (stat_sample_clean : stat_sample ℚ) 5).sum = 5 ∧
    (stat_sample_add (stat_sample_clean : stat_sample ℚ) 5).size = 1 ∧
    bench_batch 5 1 0 (stat_sample_clean : stat_sample ℚ) 0 [(10, 13), (10, 20)]
      ≠ some (stat_sample_add stat_sample_clean 0, 1, [(10, 20)]) := by
  have h : bench_batch 5 1 0 (stat_sample_clean : stat_sample ℚ) 0 [(10, 13), (10, 20)]
      = some (stat_sample_add stat_sample_clean 5, 2, []) := by
    have e1 : sub64 13 10 = 3 := by decide
    have e2 : sub64 20 10 = 10 := by decide
    have e3 : sub64 10 5 = 5 := by decide
    simp only [bench_batch, e1, e2, e3]
    norm_num
  refine ⟨h, by simp [stat_sample_add, stat_sample_clean], by decide, ?_⟩
  rw [h]
  intro hc
  simp only [Option.some.injEq, Prod.mk.injEq] at hc
  exact absurd hc.2.1 (by decide)

/-! ## Theorems: the convergence loop -/

theorem acceptedTicks_take_length (ov n : Nat) (stream : Stream)
    (h : n ≤ (acceptedTicks ov stream).length) :
    (((acceptedTicks ov stream).take n).map (fun (v : Nat) => (v : K))).length = n := by
  rw [List.length_map, List.length_take]
  omega

/-- What one pass through the loop body leaves behind: the sample holds the first `nruns`
accepted values of the stream and nothing else, and `nruns` is multiplied by 4. -/
theorem bench_body_spec (ov : Nat) (st st1 : bench_state K) (h : bench_body ov st = some st1) :
    st.nruns ≤ (acceptedTicks ov st.rest).length ∧
    st1.stat = stat_sample_add_dataset stat_sample_clean
      (((acceptedTicks ov st.rest).take st.nruns).map (fun (v : Nat) => (v : K))) ∧
    st1.nruns = st.nruns * 4 ∧ st1.total = st.total + st.nruns ∧
    (∃ pre, st.rest = pre ++ st1.rest ∧ st1.calls = st.calls + pre.length) := by
  unfold bench_body at h
  cases hb : bench_batch ov st.nruns 0 (stat_sample_clean : stat_sample K) st.calls st.rest with
  | none => rw [hb] at h; exact absurd h (by simp)
  | some res =>
    obtain ⟨stat, calls, rest⟩ := res
    rw [hb] at h
    simp only [Option.some.injEq] at h
    subst h
    have hfst := bench_batch_fst (K := K) ov st.nruns st.rest 0 stat_sample_clean st.calls
    rw [hb, Nat.sub_zero] at hfst
    by_cases hlen : st.nruns ≤ (acceptedTicks ov st.rest).length
    · rw [if_pos hlen] at hfst
      simp only [Option.map_some', Option.some.injEq] at hfst
      exact ⟨hlen, hfst, rfl, rfl, bench_batch_consumed ov st.nruns st.rest 0 _ _ _ _ _ hb⟩
    · rw [if_neg hlen] at hfst
      exact absurd hfst (by simp)

/-- After a completed batch of fewer than `2 ^ 31` runs, `stat_sample_size` is `nruns`. -/
theorem bench_body_size (ov : Nat) (st st1 : bench_state K) (h : bench_body ov st = some st1)
    (hn : st.nruns < 2 ^ 31) : stat_sample_size st1.stat = (st.nruns : Int) := by
  obtain ⟨hlen, hstat, -, -, -⟩ := bench_body_spec ov st st1 h
  have hl := acceptedTicks_take_length (K := K) ov st.nruns st.rest hlen
  have := (add_dataset_clean_inv
    (((acceptedTicks ov st.rest).take st.nruns).map (fun (v : Nat) => (v : K)))
    (by rw [hl]; unfold U32; omega)).1
  rw [stat_sample_size, hstat, this, hl, toInt32_small _ hn]

/-- Loop invariant of `run_benchmark`: the batch about to start is the `k`-th growth step for
some `k ≤ 7`, with `nruns = 100 * 4 ^ k` and `100 * (4 ^ k - 1) / 3` values collected so
far. -/
theorem bench_head_inv (sqrt : K → K) (ov : Nat) (s0 st : bench_state K)
    (h0 : s0.nruns = NRUNS_MIN) (h0t : s0.total = 0) (h : BenchHead sqrt ov s0 st) :
    ∃ k, k ≤ 7 ∧ st.nruns = 100 * 4 ^ k ∧ 3 * st.total + 100 = 100 * 4 ^ k := by
  induction h with
  | start => exact ⟨0, by norm_num, by rw [h0]; rfl, by rw [h0t]; norm_num⟩
  | next st st1 _ hbody hcont ih =>
    obtain ⟨k, hk, hn, ht⟩ := ih
    obtain ⟨-, -, hn1, ht1, -⟩ := bench_body_spec ov st st1 hbody
    have hpow : 4 ^ k ≤ 4 ^ 7 := Nat.pow_le_pow_right (by norm_num) hk
    have hsz := bench_body_size ov st st1 hbody (by rw [hn]; norm_num at hpow ⊢; omega)
    simp only [bench_continue, Bool.and_eq_true, decide_eq_true_eq] at hcont
    have hlt := hcont.1
    rw [hsz, hn, NRUNS_MAX] at hlt
    have hlt' : 100 * 4 ^ k < 1000000 := by exact_mod_cast hlt
    have hk6 : k ≤ 6 := by
      by_contra hc
      have : k = 7 := by omega
      subst this
      norm_num at hlt'
    exact ⟨k + 1, by omega, by rw [hn1, hn, pow_succ]; ring, by rw [ht1, hn, pow_succ]; omega⟩

/-- C5: after each batch of `run_benchmark` (started from a state the loop can reach) the
loop stops exactly when the Welford relative standard error of the batch is at most `5.0` or
the number of values collected over all batches so far has reached 1,000,000; otherwise
`nruns` has been multiplied by 4 and the loop goes on with another batch, which starts from a
cleared sample.  The count of collected values grows by the size of the batch. -/
theorem stopping_rule (sqrt : K → K) (ov : Nat) (s0 st st1 : bench_state K) (fuel : Nat)
    (h0 : s0.nruns = NRUNS_MIN) (h0t : s0.total = 0)
    (hhead : BenchHead sqrt ov s0 st) (hbody : bench_body ov st = some st1) :
    ((st1.total : Int) = (st.total : Int) + stat_sample_size st1.stat) ∧
    ((stat_sample_rel_stderr_knuth sqrt st1.stat ≤ RSE_MAX ∨ 1000000 ≤ st1.total) →
      bench_loop sqrt ov (fuel + 1) st = some st1) ∧
    (¬ (stat_sample_rel_stderr_knuth sqrt st1.stat ≤ RSE_MAX ∨ 1000000 ≤ st1.total) →
      bench_loop sqrt ov (fuel + 1) st = bench_loop sqrt ov fuel st1 ∧
      st1.nruns = st.nruns * 4 ∧
      bench_loop sqrt ov fuel st1
        = bench_loop sqrt ov fuel { st1 with stat := stat_sample_clean }) := by
  obtain ⟨k, hk, hn, ht⟩ := bench_head_inv sqrt ov s0 st h0 h0t hhead
  obtain ⟨-, -, hn1, ht1, -⟩ := bench_body_spec ov st st1 hbody
  have hpow : 4 ^ k ≤ 4 ^ 7 := Nat.pow_le_pow_right (by norm_num) hk
  have hsz := bench_body_size ov st st1 hbody (by rw [hn]; norm_num at hpow ⊢; omega)
  have hiff : stat_sample_size st1.stat < NRUNS_MAX ↔ st1.total < 1000000 := by
    rw [hsz, NRUNS_MAX, ht1]
    have e : ((st.nruns : Int) < 1000000) ↔ st.nruns < 1000000 := by norm_cast
    rw [e]
    interval_cases k <;> norm_num at hn ht <;> omega
  have hloop : bench_loop sqrt ov (fuel + 1) st
      = if bench_continue sqrt st1.stat then bench_loop sqrt ov fuel st1 else some st1 := by
    simp only [bench_loop, hbody]
  refine ⟨by rw [hsz, ht1]; push_cast; ring, fun hstop => ?_, fun hgo => ?_⟩
  · have hc : bench_continue sqrt st1.stat = false := by
      simp only [bench_continue, Bool.and_eq_false_iff, decide_eq_false_iff_not, hiff, not_lt]
      rcases hstop with h | h
      · exact Or.inr (by simpa using h)
      · exact Or.inl h
    rw [hloop, hc]
    simp
  · have hc : bench_continue sqrt st1.stat = true := by
      simp only [bench_continue, Bool.and_eq_true, decide_eq_true_eq, hiff]
      simp only [not_or, not_le] at hgo
      exact ⟨hgo.2, hgo.1⟩
    rw [hloop, hc]
    refine ⟨by simp, hn1, ?_⟩
    cases fuel with
    | zero => rfl
    | succ f => rfl

/-- C5 on the first batch of a session with overhead `3` whose pairs have the delta `7`: the
relative standard error is `0`, so the loop stops after this batch. -/
theorem stopping_rule_witness :
    bench_loop Real.sqrt 3 (0 + 1)
        { stat := stat_sample_clean, nruns := NRUNS_MIN, calls := 1, total := 0,
          rest := List.replicate 100 (100, 107) }
      = some { stat := stat_sample_add_dataset stat_sample_clean
                 (List.replicate 100 (((7 - 3 : Nat) : ℝ))),
               nruns := NRUNS_MIN * 4, calls := 1 + 100, total := 0 + NRUNS_MIN,
               rest := (List.replicate 100 (100, 107)).drop 100 } :=
  (stopping_rule Real.sqrt 3
      { stat := stat_sample_clean, nruns := NRUNS_MIN, calls := 1, total := 0,
        rest := List.replicate 100 (100, 107) }
      { stat := stat_sample_clean, nruns := NRUNS_MIN, calls := 1, total := 0,
        rest := List.replicate 100 (100, 107) }
      { stat := stat_sample_add_dataset stat_sample_clean
          (List.replicate 100 (((7 - 3 : Nat) : ℝ))),
        nruns := NRUNS_MIN * 4, calls := 1 + 100, total := 0 + NRUNS_MIN,
        rest := (List.replicate 100 (100, 107)).drop 100 }
      0 rfl rfl (BenchHead.start)
      (by
        have hb := fixed_delta_batch (K := ℝ) 3 7 (List.replicate 100 (100, 107)) 1
          (by norm_num)
          (by intro p hp; rw [List.eq_of_mem_replicate hp]; unfold U64; constructor <;> norm_num)
          (by intro p hp; rw [List.eq_of_mem_replicate hp])
          (by rw [List.length_replicate])
        simp only [bench_body, NRUNS_MIN, hb])).2.1
    (Or.inl (by
      rw [const_sample_rse Real.sqrt Real.sqrt_zero 100 _ (by unfold U32; norm_num)]
      unfold RSE_MAX; norm_num))

/-! ## Theorems: size of a session -/

theorem acceptedTicks_length_le (ov : Nat) (stream : Stream) :
    (acceptedTicks ov stream).length ≤ stream.length := by
  unfold acceptedTicks
  exact List.length_filterMap_le _ _

theorem acceptedTicks_append (ov : Nat) (a b : Stream) :
    acceptedTicks ov (a ++ b) = acceptedTicks ov a ++ acceptedTicks ov b := by
  unfold acceptedTicks
  exact List.filterMap_append _ _ _

/-- The pairs consumed by a completed batch hold exactly the accepted values that were still
missing. -/
theorem bench_batch_consumed_count (ov n : Nat) (stream : Stream) (i : Nat)
    (st st1 : stat_sample K) (c c1 : Nat) (rest : Stream)
    (h : bench_batch ov n i st c stream = some (st1, c1, rest)) :
    ∃ pre, stream = pre ++ rest ∧ (acceptedTicks ov pre).length = n - i := by
  induction stream generalizing i st c with
  | nil =>
    simp only [bench_batch] at h
    split at h
    · exact absurd h (by simp)
    · simp only [Option.some.injEq, Prod.mk.injEq] at h
      exact ⟨[], by simp [h.2.2], by simp [acceptedTicks]; omega⟩
  | cons p tl ih =>
    obtain ⟨t0, t1⟩ := p
    simp only [bench_batch] at h
    by_cases hi : i < n
    · rw [if_pos hi] at h
      by_cases hv : t1 > t0
      · rw [if_pos hv] at h
        by_cases ho : sub64 t1 t0 > ov
        · rw [if_pos ho] at h
          obtain ⟨pre, hpre, hc⟩ := ih _ _ _ h
          refine ⟨(t0, t1) :: pre, by simp [hpre], ?_⟩
          rw [acceptedTicks_cons_accept _ _ _ _ hv ho, List.length_cons, hc]
          omega
        · rw [if_neg ho] at h
          obtain ⟨pre, hpre, hc⟩ := ih _ _ _ h
          refine ⟨(t0, t1) :: pre, by simp [hpre], ?_⟩
          rw [acceptedTicks_cons_reject _ _ _ _ (fun hh => ho hh.2), hc]
      · rw [if_neg hv] at h
        obtain ⟨pre, hpre, hc⟩ := ih _ _ _ h
        refine ⟨(t0, t1) :: pre, by simp [hpre], ?_⟩
        rw [acceptedTicks_cons_reject _ _ _ _ (fun hh => hv hh.1), hc]
    · rw [if_neg hi] at h
      simp only [Option.some.injEq, Prod.mk.injEq] at h
      exact ⟨[], by simp [h.2.2], by simp [acceptedTicks]; omega⟩

/-- One pass through the loop body spends one invocation per consumed pair, and at least
`nruns` of them. -/
theorem bench_body_calls (ov : Nat) (st st1 : bench_state K) (h : bench_body ov st = some st1) :
    st1.calls + st1.rest.length = st.calls + st.rest.length ∧
    st.calls + st.nruns ≤ st1.calls := by
  unfold bench_body at h
  cases hb : bench_batch ov st.nruns 0 (stat_sample_clean : stat_sample K) st.calls st.rest with
  | none => rw [hb] at h; exact absurd h (by simp)
  | some res =>
    obtain ⟨stat, calls, rest⟩ := res
    rw [hb] at h
    simp only [Option.some.injEq] at h
    subst h
    obtain ⟨pre, hpre, hc⟩ := bench_batch_consumed ov st.nruns st.rest 0 _ _ _ _ _ hb
    obtain ⟨pre2, hpre2, hc2⟩ := bench_batch_consumed_count ov st.nruns st.rest 0 _ _ _ _ _ hb
    have hsame : pre2 = pre := by
      have := hpre.symm.trans hpre2
      exact (List.append_left_inj _).mp this.symm
    subst hsame
    have hle := acceptedTicks_length_le ov pre2
    have hl : st.rest.length = pre2.length + rest.length := by
      rw [hpre, List.length_append]
    simp only
    omega

/-- Invocation bookkeeping along the loop: invocations plus unread pairs are conserved, and
every collected value cost an invocation. -/
theorem bench_head_calls (sqrt : K → K) (ov : Nat) (s0 st : bench_state K)
    (h0t : s0.total = 0) (h : BenchHead sqrt ov s0 st) :
    st.calls + st.rest.length = s0.calls + s0.rest.length ∧ s0.calls + st.total ≤ st.calls := by
  induction h with
  | start => exact ⟨rfl, by rw [h0t]; omega⟩
  | next st st1 _ hbody _ ih =>
    obtain ⟨h1, h2⟩ := bench_body_calls ov st st1 hbody
    obtain ⟨-, -, -, ht1, -⟩ := bench_body_spec ov st st1 hbody
    exact ⟨by omega, by omega⟩

/-- The state in which the loop ends is the one left by a batch, started from a reachable
state, after which the loop condition failed. -/
theorem bench_loop_last (sqrt : K → K) (ov : Nat) (s0 : bench_state K) (fuel : Nat)
    (st r : bench_state K) (hhead : BenchHead sqrt ov s0 st)
    (h : bench_loop sqrt ov fuel st = some r) :
    ∃ prev, BenchHead sqrt ov s0 prev ∧ bench_body ov prev = some r ∧
      bench_continue sqrt r.stat = false := by
  induction fuel generalizing st with
  | zero => exact absurd h (by simp [bench_loop])
  | succ f ih =>
    simp only [bench_loop] at h
    cases hb : bench_body ov st with
    | none => rw [hb] at h; exact absurd h (by simp)
    | some st1 =>
      rw [hb] at h
      simp only at h
      by_cases hc : bench_continue sqrt st1.stat = true
      · rw [if_pos hc] at h
        exact ih st1 (BenchHead.next st st1 hhead hb hc) h
      · rw [if_neg hc] at h
        simp only [Option.some.injEq] at h
        subst h
        exact ⟨st, hhead, hb, by simpa using hc⟩

/-- Eight batches always suffice: a result obtained with some fuel is obtained with any fuel
that covers the growth steps still possible. -/
theorem bench_loop_fuel (sqrt : K → K) (ov : Nat) (fuel : Nat) (st r : bench_state K) (k : Nat)
    (hk : k ≤ 7) (hn : st.nruns = 100 * 4 ^ k)
    (h : bench_loop sqrt ov fuel st = some r) (fuel1 : Nat) (hf : 8 ≤ fuel1 + k) :
    bench_loop sqrt ov fuel1 st = some r := by
  induction fuel generalizing st k fuel1 with
  | zero => exact absurd h (by simp [bench_loop])
  | succ f ih =>
    obtain ⟨g, rfl⟩ : ∃ g, fuel1 = g + 1 := ⟨fuel1 - 1, by omega⟩
    simp only [bench_loop] at h ⊢
    cases hb : bench_body ov st with
    | none => rw [hb] at h; exact absurd h (by simp)
    | some st1 =>
      rw [hb] at h
      simp only at h ⊢
      by_cases hc : bench_continue sqrt st1.stat = true
      · rw [if_pos hc] at h ⊢
        have hpow : 4 ^ k ≤ 4 ^ 7 := Nat.pow_le_pow_right (by norm_num) hk
        have hsz := bench_body_size ov st st1 hb (by rw [hn]; norm_num at hpow ⊢; omega)
        obtain ⟨-, -, hn1, -, -⟩ := bench_body_spec ov st st1 hb
        simp only [bench_continue, Bool.and_eq_true, decide_eq_true_eq] at hc
        have hlt := hc.1
        rw [hsz, hn, NRUNS_MAX] at hlt
        have hlt1 : 100 * 4 ^ k < 1000000 := by exact_mod_cast hlt
        have hk6 : k ≤ 6 := by
          by_contra hcon
          have : k = 7 := by omega
          subst this
          norm_num at hlt1
        exact ih st1 (k + 1) (by omega) (by rw [hn1, hn, pow_succ]; ring) h g (by omega)
      · rw [if_neg hc] at h ⊢
        exact h

/-- C6 (amended): in every session of `run_benchmark` that ends, the last batch is growth
step `k` for some `k ≤ 7`; the final sample holds `100 * 4 ^ k` values, hence at most
1,638,400; the values collected over all batches number `100 * (4 ^ (k + 1) - 1) / 3`, hence
at most 2,184,500; the timed unit was invoked once per pair read after calibration (the first
run and every trial, accepted or discarded), which is at least one more than the values
collected; and eight batches of fuel always reproduce the result. -/
theorem session_size (sqrt : K → K) (fuel : Nat) (stream : Stream) (r : bench_report K)
    (h : run_benchmark sqrt fuel stream = some r) :
    ∃ k, k ≤ 7 ∧
      stat_sample_size r.final.stat = ((100 * 4 ^ k : Nat) : Int) ∧
      r.final.stat.size = 100 * 4 ^ k ∧
      r.final.nruns = 100 * 4 ^ (k + 1) ∧
      3 * r.final.total + 100 = 100 * 4 ^ (k + 1) ∧
      r.final.stat.size ≤ 1638400 ∧ r.final.total ≤ 2184500 ∧
      1 + r.final.total ≤ r.final.calls ∧
      (∃ cal, measure_tsc_overhead stream = some (r.overhead, cal) ∧
        r.final.calls + r.final.rest.length = cal.length) ∧
      (∀ fuel1, 8 ≤ fuel1 → run_benchmark sqrt fuel1 stream = some r) := by
  unfold run_benchmark at h
  cases hcal : measure_tsc_overhead stream with
  | none => rw [hcal] at h; exact absurd h (by simp)
  | some res =>
    obtain ⟨o, cal⟩ := res
    rw [hcal] at h
    cases cal with
    | nil => exact absurd h (by simp)
    | cons q tl =>
      obtain ⟨t0, t1⟩ := q
      simp only at h
      cases hl : bench_loop sqrt o fuel
          { stat := stat_sample_clean, nruns := NRUNS_MIN, calls := 1, total := 0, rest := tl } with
      | none => rw [hl] at h; exact absurd h (by simp)
      | some fin =>
        rw [hl] at h
        simp only [Option.some.injEq] at h
        subst h
        obtain ⟨prev, hprev, hbody, -⟩ := bench_loop_last sqrt o _ fuel _ fin BenchHead.start hl
        obtain ⟨k, hk, hn, ht⟩ := bench_head_inv sqrt o _ prev rfl rfl hprev
        obtain ⟨hc1, hc2⟩ := bench_head_calls sqrt o _ prev rfl hprev
        obtain ⟨hlen, hstat, hn1, ht1, -⟩ := bench_body_spec o prev fin hbody
        obtain ⟨hb1, hb2⟩ := bench_body_calls o prev fin hbody
        have hpow : 4 ^ k ≤ 4 ^ 7 := Nat.pow_le_pow_right (by norm_num) hk
        have hp7 : (4 : Nat) ^ 7 = 16384 := by norm_num
        have hsz := bench_body_size o prev fin hbody (by rw [hn]; omega)
        have hl2 := acceptedTicks_take_length (K := K) o prev.nruns prev.rest hlen
        have hsize : fin.stat.size = prev.nruns := by
          rw [hstat, (add_dataset_clean_inv _ (by rw [hl2, hn]; unfold U32; omega)).1, hl2]
        simp only at hc1 hc2
        refine ⟨k, hk, by rw [hsz, hn], by rw [hsize, hn], by rw [hn1, hn, pow_succ]; ring,
          by rw [ht1, hn, pow_succ]; omega, by rw [hsize, hn]; omega, by rw [ht1]; omega,
          by simp only; omega, ⟨(t0, t1) :: tl, rfl, by simp only [List.length_cons]; omega⟩, ?_⟩
        intro fuel1 hf
        have := bench_loop_fuel sqrt o fuel _ fin 0 (by norm_num) rfl hl fuel1 (by omega)
        simp only [run_benchmark, hcal, this]

/-! ## Theorems: a session that runs into the cap -/

/-- A run of valid pairs that exactly fills the calibration loop. -/
theorem measure_tsc_overhead_loop_exact (pre rest : Stream) (i m : Nat)
    (hwf : Readings64 pre) (hv : ∀ p ∈ pre, p.1 < p.2) (hlen : i + pre.length = NMEASURES) :
    measure_tsc_overhead_loop i m (pre ++ rest) = some (runMin m (validDeltas pre), rest) := by
  induction pre generalizing i m with
  | nil =>
    have hi : ¬ i < NMEASURES := by simp at hlen; omega
    cases rest with
    | nil => simp [measure_tsc_overhead_loop, hi, validDeltas, runMin]
    | cons q tl => simp [measure_tsc_overhead_loop, hi, validDeltas, runMin]
  | cons p tl ih =>
    obtain ⟨t0, t1⟩ := p
    have hp : t0 < t1 := hv (t0, t1) (List.mem_cons_self _ _)
    have hb := hwf (t0, t1) (List.mem_cons_self _ _)
    have hi : i < NMEASURES := by simp at hlen; omega
    have e1 : sub64 t1 t0 = t1 - t0 := sub64_eq _ _ hb.2 hp.le
    have := ih (i + 1) (if t1 - t0 < m then t1 - t0 else m) (Readings64_tail _ _ hwf)
      (fun q hq => hv q (List.mem_cons_of_mem _ hq)) (by simp at hlen; omega)
    rw [List.cons_append]
    simp only [measure_tsc_overhead_loop, hi, hp, gt_iff_lt, if_true, e1, this,
      validDeltas_cons_valid _ _ _ hp, runMin_cons]

/-- The sample of one large value `M` followed by `m` ones. -/
theorem skew_sample (M : ℝ) (m : Nat) (hm : 1 ≤ m) (hm2 : m + 1 < U32) :
    (stat_sample_add_dataset stat_sample_clean (M :: List.replicate m (1 : ℝ))).size = m + 1 ∧
    stat_sample_mean_knuth (stat_sample_add_dataset stat_sample_clean
      (M :: List.replicate m (1 : ℝ))) = (M + m) / (m + 1) ∧
    stat_sample_var_knuth (stat_sample_add_dataset stat_sample_clean
      (M :: List.replicate m (1 : ℝ))) = (M - 1) ^ 2 / (m + 1) := by
  obtain ⟨h1, -, -, h4, h5⟩ := add_dataset_clean_inv (M :: List.replicate m (1 : ℝ))
    (by rw [List.length_cons, List.length_replicate]; exact hm2)
  rw [List.length_cons, List.length_replicate] at h1 h4 h5
  rw [List.sum_cons, sum_replicate_cast] at h4 h5
  rw [List.map_cons, List.map_replicate, List.sum_cons, sum_replicate_cast] at h5
  have hm0 : (m : ℝ) ≠ 0 := by
    have : 0 < m := by omega
    exact_mod_cast this.ne'
  have hm1 : (m : ℝ) + 1 ≠ 0 := by positivity
  refine ⟨h1, ?_, ?_⟩
  · rw [stat_sample_mean_knuth, h4]; push_cast; ring
  · rw [stat_sample_var_knuth, h1, if_pos (by omega), h5, Nat.add_sub_cancel]
    push_cast
    field_simp
    ring

/-- The Welford relative standard error of one large value `M` followed by `m` ones is
`100 * (M - 1) / (M + m)`, which exceeds `5` when `95 * M > 5 * m + 100`. -/
theorem skew_sample_rse (M : ℝ) (m : Nat) (hm : 1 ≤ m) (hm2 : m + 1 < U32)
    (hM : 95 * M > 5 * (m : ℝ) + 100) :
    stat_sample_rel_stderr_knuth Real.sqrt
      (stat_sample_add_dataset stat_sample_clean (M :: List.replicate m (1 : ℝ))) > RSE_MAX := by
  obtain ⟨h1, h2, h3⟩ := skew_sample M m hm hm2
  have hmpos : (0 : ℝ) < (m : ℝ) + 1 := by positivity
  have hm0 : (0 : ℝ) ≤ (m : ℝ) := Nat.cast_nonneg m
  have hM1 : 0 < M - 1 := by linarith
  have hse : stat_sample_stderr_knuth Real.sqrt
      (stat_sample_add_dataset stat_sample_clean (M :: List.replicate m (1 : ℝ)))
      = (M - 1) / (m + 1) := by
    rw [stat_sample_stderr_knuth, stat_sample_stddev_knuth, h3, h1,
      Real.sqrt_div (sq_nonneg _), Real.sqrt_sq hM1.le, div_div]
    push_cast
    rw [Real.mul_self_sqrt hmpos.le]
  have hpos : (0 : ℝ) < (M - 1) / (m + 1) := div_pos hM1 hmpos
  simp only [stat_sample_rel_stderr_knuth, hse, h2, RSE_MAX]
  rw [if_pos hpos]
  have hMm : (0 : ℝ) < M + m := by linarith
  rw [gt_iff_lt, div_div_div_cancel_right₀ hmpos.ne']
  have e : (M - 1) / (M + m) * 100 = (100 * (M - 1)) / (M + m) := by ring
  rw [e, lt_div_iff₀ hMm]
  linarith

/-- A batch of `n` runs on `skewBatch n` under overhead `1`. -/
theorem skew_batch_run (n c : Nat) (rest : Stream) (hn : 1 ≤ n) :
    bench_batch 1 n 0 (stat_sample_clean : stat_sample ℝ) c (skewBatch n ++ rest) =
      some (stat_sample_add_dataset stat_sample_clean
        ((1048576 : ℝ) :: List.replicate (n - 1) (1 : ℝ)), c + n, rest) := by
  have hacc : ∀ p ∈ skewBatch n, acceptedPair 1 p := by
    intro p hp
    rcases List.mem_cons.mp hp with rfl | hp
    · exact ⟨by decide, by decide⟩
    · rw [List.eq_of_mem_replicate hp]
      exact ⟨by decide, by decide⟩
  have hlen : (skewBatch n).length = n := by
    rw [skewBatch, List.length_cons, List.length_replicate]; omega
  have hmap : (skewBatch n).map (fun p => (tickValue 1 p : ℝ))
      = (1048576 : ℝ) :: List.replicate (n - 1) (1 : ℝ) := by
    have e1 : tickValue 1 (0, 1048577) = 1048576 := by decide
    have e2 : tickValue 1 (0, 2) = 1 := by decide
    rw [skewBatch, List.map_cons, List.map_replicate, e1, e2]
    norm_num
  have := bench_batch_accept_all (K := ℝ) 1 n (skewBatch n) rest 0 stat_sample_clean c hacc
    (by rw [hlen]; omega)
  rw [hmap, hlen] at this
  exact this

/-- After a batch on `skewBatch n` with `n ≤ 409600` the loop condition holds. -/
theorem skew_continue (n : Nat) (hn : 2 ≤ n) (hn2 : n ≤ 409600) :
    bench_continue Real.sqrt (stat_sample_add_dataset stat_sample_clean
      ((1048576 : ℝ) :: List.replicate (n - 1) (1 : ℝ))) = true := by
  have hU : n - 1 + 1 < U32 := by unfold U32; omega
  have hle : ((n - 1 : Nat) : ℝ) ≤ 409600 := by
    have : n - 1 ≤ 409600 := by omega
    exact_mod_cast this
  have hrse := skew_sample_rse 1048576 (n - 1) (by omega) hU (by linarith)
  have hsz := (skew_sample 1048576 (n - 1) (by omega) hU).1
  simp only [bench_continue, Bool.and_eq_true, decide_eq_true_eq]
  refine ⟨?_, hrse⟩
  rw [stat_sample_size, hsz, toInt32_small _ (by omega), NRUNS_MAX]
  have : n - 1 + 1 < 1000000 := by omega
  exact_mod_cast this

/-- After a batch on `skewBatch n` with `n ≥ 1000000` the loop condition fails. -/
theorem skew_stop (n : Nat) (hn : 1000000 ≤ n) (hn2 : n < 2 ^ 31) :
    bench_continue Real.sqrt (stat_sample_add_dataset stat_sample_clean
      ((1048576 : ℝ) :: List.replicate (n - 1) (1 : ℝ))) = false := by
  have hU : n - 1 + 1 < U32 := by unfold U32; omega
  have hsz := (skew_sample 1048576 (n - 1) (by omega) hU).1
  have hnot : ¬ stat_sample_size (stat_sample_add_dataset stat_sample_clean
      ((1048576 : ℝ) :: List.replicate (n - 1) (1 : ℝ))) < NRUNS_MAX := by
    rw [stat_sample_size, hsz, toInt32_small _ (by omega), NRUNS_MAX, not_lt]
    have : 1000000 ≤ n - 1 + 1 := by omega
    exact_mod_cast this
  simp only [bench_continue, hnot, decide_False, Bool.false_and]

/-- One turn of the loop on `skewBatch n`, `n ≤ 409600`: the loop goes on. -/
theorem skew_loop_step (n fuel c t : Nat) (st : stat_sample ℝ) (rest : Stream)
    (hn : 2 ≤ n) (hn2 : n ≤ 409600) :
    bench_loop Real.sqrt 1 (fuel + 1)
        { stat := st, nruns := n, calls := c, total := t, rest := skewBatch n ++ rest } =
      bench_loop Real.sqrt 1 fuel
        { stat := stat_sample_add_dataset stat_sample_clean
            ((1048576 : ℝ) :: List.replicate (n - 1) (1 : ℝ)),
          nruns := n * 4, calls := c + n, total := t + n, rest := rest } := by
  simp only [bench_loop, bench_body, skew_batch_run n c rest (by omega),
    skew_continue n hn hn2, if_true]

/-- The turn of the loop on `skewBatch n`, `n ≥ 1000000`: the loop ends. -/
theorem skew_loop_last (n fuel c t : Nat) (st : stat_sample ℝ) (rest : Stream)
    (hn : 1000000 ≤ n) (hn2 : n < 2 ^ 31) :
    bench_loop Real.sqrt 1 (fuel + 1)
        { stat := st, nruns := n, calls := c, total := t, rest := skewBatch n ++ rest } =
      some
        { stat := stat_sample_add_dataset stat_sample_clean
            ((1048576 : ℝ) :: List.replicate (n - 1) (1 : ℝ)),
          nruns := n * 4, calls := c + n, total := t + n, rest := rest } := by
  simp only [bench_loop, bench_body, skew_batch_run n c rest (by omega),
    skew_stop n hn hn2]
  simp

/-- Calibration on the 100 pairs `(0, 1)` at the head of `skewStream`. -/
theorem skew_calibration (rest : Stream) :
    measure_tsc_overhead (List.replicate 100 (0, 1) ++ rest) = some (1, rest) := by
  have h := measure_tsc_overhead_loop_exact (List.replicate 100 (0, 1)) rest 0 MINTICKS_INIT
    (by intro p hp; rw [List.eq_of_mem_replicate hp]; unfold U64; constructor <;> norm_num)
    (by intro p hp; rw [List.eq_of_mem_replicate hp]; norm_num)
    (by rw [List.length_replicate]; rfl)
  have e : runMin MINTICKS_INIT (validDeltas (List.replicate 100 (0, 1))) = 1 := by
    rw [validDeltas_replicate 100 0 1 (by norm_num)]
    exact runMin_replicate 100 1 MINTICKS_INIT (by norm_num) (by unfold MINTICKS_INIT; norm_num)
  rw [e] at h
  exact h

/-- The report of `run_benchmark` from the result of calibration and of the loop. -/
theorem run_benchmark_eq (sqrt : K → K) (fuel : Nat) (stream rest : Stream) (o t0 t1 : Nat)
    (fin : bench_state K) (hcal : measure_tsc_overhead stream = some (o, (t0, t1) :: rest))
    (hloop : bench_loop sqrt o fuel
      { stat := stat_sample_clean, nruns := NRUNS_MIN, calls := 1, total := 0, rest := rest }
        = some fin) :
    run_benchmark sqrt fuel stream
      = some { overhead := o, firstrun := normolize_ticks t0 t1 o, final := fin } := by
  simp only [run_benchmark, hcal, hloop]

/-- The loop of the session on `skewStream`, batch by batch. -/
theorem skew_loop :
    bench_loop Real.sqrt 1 8
      { stat := stat_sample_clean, nruns := 100, calls := 1, total := 0,
        rest := skewBatch 100 ++ (skewBatch (100 * 4) ++ (skewBatch (100 * 4 * 4) ++
          (skewBatch (100 * 4 * 4 * 4) ++ (skewBatch (100 * 4 * 4 * 4 * 4) ++
          (skewBatch (100 * 4 * 4 * 4 * 4 * 4) ++ (skewBatch (100 * 4 * 4 * 4 * 4 * 4 * 4) ++
          (skewBatch (100 * 4 * 4 * 4 * 4 * 4 * 4 * 4) ++ []))))))) } =
    some (skewReport : bench_report ℝ).final := by
  rw [skew_loop_step 100 7 _ _ _ _ (by norm_num) (by norm_num),
    skew_loop_step (100 * 4) 6 _ _ _ _ (by norm_num) (by norm_num),
    skew_loop_step (100 * 4 * 4) 5 _ _ _ _ (by norm_num) (by norm_num),
    skew_loop_step (100 * 4 * 4 * 4) 4 _ _ _ _ (by norm_num) (by norm_num),
    skew_loop_step (100 * 4 * 4 * 4 * 4) 3 _ _ _ _ (by norm_num) (by norm_num),
    skew_loop_step (100 * 4 * 4 * 4 * 4 * 4) 2 _ _ _ _ (by norm_num) (by norm_num),
    skew_loop_step (100 * 4 * 4 * 4 * 4 * 4 * 4) 1 _ _ _ _ (by norm_num) (by norm_num),
    skew_loop_last (100 * 4 * 4 * 4 * 4 * 4 * 4 * 4) 0 _ _ _ _ (by norm_num) (by norm_num),
    skewReport]

/-- The session on `skewStream`. -/
theorem skew_run : run_benchmark Real.sqrt 8 skewStream = some (skewReport : bench_report ℝ) :=
  run_benchmark_eq Real.sqrt 8 skewStream _ 1 0 5 _ (skew_calibration _) skew_loop

/-- Size of the last sample of the session on `skewStream`. -/
theorem skew_final_size :
    (stat_sample_add_dataset stat_sample_clean
      ((1048576 : ℝ) :: List.replicate (100 * 4 * 4 * 4 * 4 * 4 * 4 * 4 - 1) (1 : ℝ))).size
      = 1638400 := by
  have hsz := (skew_sample 1048576 (100 * 4 * 4 * 4 * 4 * 4 * 4 * 4 - 1) (by norm_num)
    (by unfold U32; norm_num)).1
  rw [hsz]

/-- C6 as stated fails: on `skewStream` no batch up to 409,600 runs gets its relative
standard error down to `5`, so `run_benchmark` runs all eight batches and ends with a sample
of 1,638,400 values, having collected 2,184,500 values and invoked the timed unit 2,184,501
times. -/
theorem cap_overrun :
    run_benchmark Real.sqrt 8 skewStream = some (skewReport : bench_report ℝ) ∧
      (skewReport : bench_report ℝ).overhead = 1 ∧
      (skewReport : bench_report ℝ).final.stat.size = 1638400 ∧
      stat_sample_size (skewReport : bench_report ℝ).final.stat = 1638400 ∧
      (skewReport : bench_report ℝ).final.calls = 2184501 ∧
      (skewReport : bench_report ℝ).final.total = 2184500 := by
  refine ⟨skew_run, rfl, skew_final_size, ?_, by norm_num [skewReport],
    by norm_num [skewReport]⟩
  rw [stat_sample_size]
  simp only [skewReport]
  rw [skew_final_size, toInt32_small _ (by norm_num)]
  norm_num

/-- C6 (amended) on the session on `skewStream`, which runs all eight batches. -/
theorem session_size_witness :
    ∃ k, k ≤ 7 ∧
      stat_sample_size (skewReport : bench_report ℝ).final.stat = ((100 * 4 ^ k : Nat) : Int) ∧
      (skewReport : bench_report ℝ).final.stat.size = 100 * 4 ^ k ∧
      (skewReport : bench_report ℝ).final.nruns = 100 * 4 ^ (k + 1) ∧
      3 * (skewReport : bench_report ℝ).final.total + 100 = 100 * 4 ^ (k + 1) ∧
      (skewReport : bench_report ℝ).final.stat.size ≤ 1638400 ∧
      (skewReport : bench_report ℝ).final.total ≤ 2184500 ∧
      1 + (skewReport : bench_report ℝ).final.total ≤ (skewReport : bench_report ℝ).final.calls ∧
      (∃ cal, measure_tsc_overhead skewStream
          = some ((skewReport : bench_report ℝ).overhead, cal) ∧
        (skewReport : bench_report ℝ).final.calls
          + (skewReport : bench_report ℝ).final.rest.length = cal.length) ∧
      (∀ fuel1, 8 ≤ fuel1 →
        run_benchmark Real.sqrt fuel1 skewStream = some (skewReport : bench_report ℝ)) :=
  session_size Real.sqrt 8 skewStream skewReport skew_run

/-! ## Theorems: anomalous readings -/

theorem validTicks_cons_valid (t0 t1 : Nat) (rest : Stream) (h : t0 < t1) :
    validTicks ((t0, t1) :: rest) = sub64 t1 t0 :: validTicks rest := by
  simp [validTicks, h]

theorem validTicks_cons_invalid (t0 t1 : Nat) (rest : Stream) (h : ¬ t0 < t1) :
    validTicks ((t0, t1) :: rest) = validTicks rest := by
  simp [validTicks, h]

theorem validTicks_append (a b : Stream) : validTicks (a ++ b) = validTicks a ++ validTicks b := by
  unfold validTicks
  exact List.filterMap_append _ _ _

/-- A batch of `measure_tsc_overhead_rse` completes exactly when the stream still holds the
missing number of valid pairs, and then the sample holds their deltas, added in order. -/
theorem rse_batch_fst (n : Nat) (stream : Stream) (i : Nat) (st : stat_sample K) :
    (rse_batch n i st stream).map (fun r => r.1) =
      if n - i ≤ (validTicks stream).length then
        some (stat_sample_add_dataset st
          (((validTicks stream).take (n - i)).map (fun (v : Nat) => (v : K))))
      else none := by
  induction stream generalizing i st with
  | nil =>
    by_cases hi : i < n
    · have : ¬ n - i ≤ 0 := by omega
      simp [rse_batch, hi, validTicks, this]
    · have : n - i = 0 := by omega
      simp [rse_batch, hi, validTicks, this, stat_sample_add_dataset]
  | cons p rest ih =>
    obtain ⟨t0, t1⟩ := p
    by_cases hi : i < n
    · by_cases hv : t0 < t1
      · have hs : n - i = (n - (i + 1)) + 1 := by omega
        simp only [rse_batch, hi, hv, gt_iff_lt, if_true, ih,
          validTicks_cons_valid _ _ _ hv, List.length_cons]
        rw [hs, List.take_succ_cons]
        simp only [Nat.add_le_add_iff_right, List.map_cons, stat_sample_add_dataset,
          List.foldl_cons]
      · simp only [rse_batch, hi, hv, gt_iff_lt, if_true, if_false, ih,
          validTicks_cons_invalid _ _ _ hv]
    · have : n - i = 0 := by omega
      simp [rse_batch, hi, this, stat_sample_add_dataset]

/-- C7: when a batch of `run_benchmark` or of `measure_tsc_overhead_rse` meets a pair `p`
with `after ≤ before`, the sample it produces (count, sum, minimum, maximum and Welford
accumulators: the whole record) is the one it produces on the stream without `p`; and that
sample is obtained by adding, in order, the values of the accepted pairs of the stream
without `p`. -/
theorem anomalous_excluded (ov n i : Nat) (st : stat_sample K) (c : Nat) (pre post : Stream)
    (p : Nat × Nat) (hp : p.2 ≤ p.1) :
    (bench_batch ov n i st c (pre ++ p :: post)).map (fun r => r.1)
      = (bench_batch ov n i st c (pre ++ post)).map (fun r => r.1) ∧
    (rse_batch n i st (pre ++ p :: post)).map (fun r => r.1)
      = (rse_batch n i st (pre ++ post)).map (fun r => r.1) ∧
    (bench_batch ov n i st c (pre ++ p :: post)).map (fun r => r.1)
      = (if n - i ≤ (acceptedTicks ov (pre ++ post)).length then
          some (stat_sample_add_dataset st
            (((acceptedTicks ov (pre ++ post)).take (n - i)).map (fun (v : Nat) => (v : K))))
        else none) ∧
    (rse_batch n i st (pre ++ p :: post)).map (fun r => r.1)
      = (if n - i ≤ (validTicks (pre ++ post)).length then
          some (stat_sample_add_dataset st
            (((validTicks (pre ++ post)).take (n - i)).map (fun (v : Nat) => (v : K))))
        else none) := by
  obtain ⟨t0, t1⟩ := p
  have hnv : ¬ t0 < t1 := by simpa using hp
  have ha : acceptedTicks ov (pre ++ (t0, t1) :: post) = acceptedTicks ov (pre ++ post) := by
    rw [acceptedTicks_append, acceptedTicks_cons_reject _ _ _ _ (fun h => hnv h.1),
      ← acceptedTicks_append]
  have hb : validTicks (pre ++ (t0, t1) :: post) = validTicks (pre ++ post) := by
    rw [validTicks_append, validTicks_cons_invalid _ _ _ hnv, ← validTicks_append]
  refine ⟨?_, ?_, ?_, ?_⟩
  · rw [bench_batch_fst, bench_batch_fst, ha]
  · rw [rse_batch_fst, rse_batch_fst, hb]
  · rw [bench_batch_fst, ha]
  · rw [rse_batch_fst, hb]

/-- C7 on a batch of two runs that meets the anomalous pair `(30, 25)` between two valid
pairs. -/
theorem anomalous_excluded_witness :
    (bench_batch 3 2 0 (stat_sample_clean : stat_sample ℚ) 0 ([(10, 20)] ++ (30, 25) :: [(40, 47)])).map
        (fun r => r.1)
      = (bench_batch 3 2 0 (stat_sample_clean : stat_sample ℚ) 0 ([(10, 20)] ++ [(40, 47)])).map
        (fun r => r.1) ∧
    (rse_batch 2 0 (stat_sample_clean : stat_sample ℚ) ([(10, 20)] ++ (30, 25) :: [(40, 47)])).map
        (fun r => r.1)
      = (rse_batch 2 0 (stat_sample_clean : stat_sample ℚ) ([(10, 20)] ++ [(40, 47)])).map
        (fun r => r.1) :=
  have h := anomalous_excluded (K := ℚ) 3 2 0 stat_sample_clean 0 [(10, 20)] [(40, 47)] (30, 25)
    (by decide)
  ⟨h.1, h.2.1⟩

/-- Calibration on 100 pairs of the same delta `k`. -/
theorem const_calibration (a k : Nat) (rest : Stream) (hk : 0 < k) (hk2 : k < MINTICKS_INIT)
    (ha : a + k < U64) :
    measure_tsc_overhead (List.replicate 100 (a, a + k) ++ rest) = some (k, rest) := by
  have h := measure_tsc_overhead_loop_exact (List.replicate 100 (a, a + k)) rest 0 MINTICKS_INIT
    (by intro p hp; rw [List.eq_of_mem_replicate hp]; constructor <;> simp only <;> omega)
    (by intro p hp; rw [List.eq_of_mem_replicate hp]; simp only; omega)
    (by rw [List.length_replicate]; rfl)
  have e : runMin MINTICKS_INIT (validDeltas (List.replicate 100 (a, a + k))) = k := by
    rw [validDeltas_replicate 100 a (a + k) (by omega), Nat.add_sub_cancel_left]
    exact runMin_replicate 100 k MINTICKS_INIT (by norm_num) hk2
  rw [e] at h
  exact h

/-- The loop of a session whose pairs all have the delta `d`, above the overhead `o`, ends
after one batch. -/
theorem fixed_delta_loop (sqrt : K → K) (hsqrt : sqrt 0 = 0) (o d f c t : Nat)
    (st : stat_sample K) (rest : Stream) (hd : o < d) (hwf : Readings64 rest)
    (hfix : ∀ p ∈ rest, p.2 = p.1 + d) (hlen : 100 ≤ rest.length) :
    bench_loop sqrt o (f + 1) { stat := st, nruns := 100, calls := c, total := t, rest := rest }
      = some { stat := stat_sample_add_dataset stat_sample_clean
                 (List.replicate 100 ((d - o : Nat) : K)),
               nruns := 100 * 4, calls := c + 100, total := t + 100, rest := rest.drop 100 } := by
  have hb := fixed_delta_batch (K := K) o d rest c hd hwf hfix hlen
  have hrse := const_sample_rse sqrt hsqrt 100 ((d - o : Nat) : K) (by unfold U32; norm_num)
  have h5 : ¬ ((0 : K) > RSE_MAX) := by unfold RSE_MAX; norm_num
  have hcont : bench_continue sqrt (stat_sample_add_dataset (stat_sample_clean : stat_sample K)
      (List.replicate 100 ((d - o : Nat) : K))) = false := by
    rw [bench_continue, hrse]
    simp only [h5, decide_False, Bool.and_false]
  simp only [bench_loop, bench_body, hb, hcont]
  simp

/-- C8 (amended): a pair with `after ≤ before` met by the batch loop of `run_benchmark` or of
`measure_tsc_overhead_rse` is skipped without adding any value to the sample; the first-run
measurement, computed through `normolize_ticks`, reports the value `0` for such a pair. -/
theorem anomalous_pair_paths (sqrt : K → K) (fuel : Nat) (stream cal : Stream)
    (r : bench_report K) (ov n i c : Nat) (st : stat_sample K) (p : Nat × Nat) (rest : Stream)
    (hp : p.2 ≤ p.1) (hi : i < n) :
    bench_batch ov n i st c (p :: rest) = bench_batch ov n i st (c + 1) rest ∧
    rse_batch n i st (p :: rest) = rse_batch n i st rest ∧
    normolize_ticks p.1 p.2 ov = 0 ∧
    (measure_tsc_overhead stream = some (ov, p :: cal) →
      run_benchmark sqrt fuel stream = some r → r.firstrun = 0) := by
  obtain ⟨t0, t1⟩ := p
  have hnv : ¬ t0 < t1 := by simpa using hp
  have hz : normolize_ticks t0 t1 ov = 0 := by
    simp only [normolize_ticks, gt_iff_lt, hnv, if_false]
  refine ⟨?_, ?_, hz, fun hcal hrun => ?_⟩
  · simp only [bench_batch, hi, hnv, gt_iff_lt, if_true, if_false]
  · simp only [rse_batch, hi, hnv, gt_iff_lt, if_true, if_false]
  · unfold run_benchmark at hrun
    rw [hcal] at hrun
    simp only at hrun
    cases hl : bench_loop sqrt ov fuel
        { stat := stat_sample_clean, nruns := NRUNS_MIN, calls := 1, total := 0, rest := cal } with
    | none => rw [hl] at hrun; exact absurd hrun (by simp)
    | some fin =>
      rw [hl] at hrun
      simp only [Option.some.injEq] at hrun
      rw [← hrun]
      exact hz

/-- C8 (amended) on the pair `(30, 25)` at the head of a batch under overhead `3`. -/
theorem anomalous_pair_paths_witness :
    bench_batch 3 1 0 (stat_sample_clean : stat_sample ℚ) 0 ((30, 25) :: [(40, 47)])
      = bench_batch 3 1 0 (stat_sample_clean : stat_sample ℚ) (0 + 1) [(40, 47)] ∧
    rse_batch 1 0 (stat_sample_clean : stat_sample ℚ) ((30, 25) :: [(40, 47)])
      = rse_batch 1 0 (stat_sample_clean : stat_sample ℚ) [(40, 47)] ∧
    normolize_ticks 30 25 3 = 0 :=
  have h := anomalous_pair_paths (K := ℚ) (fun x => x) 1 [] []
    { overhead := 0, firstrun := 0,
      final := { stat := stat_sample_clean, nruns := 0, calls := 0, total := 0, rest := [] } }
    3 1 0 0 stat_sample_clean (30, 25) [(40, 47)] (by decide) (by decide)
  ⟨h.1, h.2.1, h.2.2.1⟩

/-- C8 as stated fails: in the session whose first-run pair is the anomalous `(20, 10)`
(calibrated overhead `3`, all other pairs valid), `run_benchmark` reports a first-run cost
of `0`. -/
theorem anomalous_first_run_reported :
    ∃ r, run_benchmark Real.sqrt 1
        (List.replicate 100 (100, 100 + 3) ++ (20, 10) :: List.replicate 100 (100, 107)) = some r ∧
      r.overhead = 3 ∧ r.firstrun = 0 :=
  ⟨_, run_benchmark_eq Real.sqrt 1 _ _ 3 20 10 _
      (const_calibration 100 3 _ (by norm_num) (by unfold MINTICKS_INIT; norm_num)
        (by unfold U64; norm_num))
      (fixed_delta_loop Real.sqrt Real.sqrt_zero 3 7 0 1 0 _ _ (by norm_num)
        (by intro p hp; rw [List.eq_of_mem_replicate hp]; unfold U64; constructor <;> norm_num)
        (by intro p hp; rw [List.eq_of_mem_replicate hp])
        (by rw [List.length_replicate])),
    rfl, by decide⟩

/-! ## Theorems: what fixed-trials calibration returns -/

theorem runMin_eq_init (ds : List Nat) (m : Nat) (h : ∀ d ∈ ds, m ≤ d) : runMin m ds = m := by
  have h1 := runMin_le_init ds m
  rcases runMin_mem ds m with h2 | h2
  · exact h2
  · have := h _ h2
    omega

/-- On a stream with at least 100 valid pairs `measure_tsc_overhead` returns the running
minimum, started at `2 ^ 64 - 2`, over the deltas of the first 100 valid pairs; whenever one
of them is at most `2 ^ 64 - 2`, this is their minimum. -/
theorem measure_tsc_overhead_min (stream : Stream) (hwf : Readings64 stream)
    (hlen : 100 ≤ (validDeltas stream).length) :
    ∃ rest, measure_tsc_overhead stream
        = some (runMin MINTICKS_INIT ((validDeltas stream).take 100), rest) ∧
      (∀ d ∈ (validDeltas stream).take 100,
        runMin MINTICKS_INIT ((validDeltas stream).take 100) ≤ d) ∧
      ((∃ d ∈ (validDeltas stream).take 100, d ≤ MINTICKS_INIT) →
        runMin MINTICKS_INIT ((validDeltas stream).take 100) ∈ (validDeltas stream).take 100) := by
  have hfst := measure_tsc_overhead_loop_fst stream hwf 0 MINTICKS_INIT
  have h100 : NMEASURES - 0 = 100 := rfl
  rw [h100, if_pos hlen] at hfst
  cases hm : measure_tsc_overhead_loop 0 MINTICKS_INIT stream with
  | none => rw [hm] at hfst; exact absurd hfst (by simp)
  | some res =>
    obtain ⟨o, rest⟩ := res
    rw [hm] at hfst
    simp only [Option.map_some', Option.some.injEq] at hfst
    refine ⟨rest, by rw [measure_tsc_overhead, hm, hfst], runMin_le_mem _ _, ?_⟩
    rintro ⟨d, hd, hle⟩
    rcases runMin_mem ((validDeltas stream).take 100) MINTICKS_INIT with h2 | h2
    · have h1 := runMin_le_mem _ MINTICKS_INIT d hd
      have : d = MINTICKS_INIT := by omega
      rw [h2, ← this]
      exact hd
    · exact h2

/-- C10 at its failing input: on 100 pairs `before = 0`, `after = 2 ^ 64 - 1` every valid
delta is `2 ^ 64 - 1`, yet `measure_tsc_overhead` returns `2 ^ 64 - 2`, the initial value
`(uint64_t)~0x1` of `minticks`, which is the delta of no trial. -/
theorem overhead_sentinel_returned :
    measure_tsc_overhead (List.replicate 100 (0, 18446744073709551615))
      = some (18446744073709551614, []) ∧
    validDeltas (List.replicate 100 (0, 18446744073709551615))
      = List.replicate 100 18446744073709551615 := by
  have hv := validDeltas_replicate 100 0 18446744073709551615 (by norm_num)
  have h := measure_tsc_overhead_loop_exact (List.replicate 100 (0, 18446744073709551615)) []
    0 MINTICKS_INIT
    (by intro p hp; rw [List.eq_of_mem_replicate hp]; unfold U64; constructor <;> norm_num)
    (by intro p hp; rw [List.eq_of_mem_replicate hp]; norm_num)
    (by rw [List.length_replicate]; rfl)
  have e : runMin MINTICKS_INIT (validDeltas (List.replicate 100 (0, 18446744073709551615)))
      = 18446744073709551614 := by
    rw [hv]
    exact runMin_eq_init _ _ (by
      intro d hd
      rw [List.eq_of_mem_replicate hd]
      unfold MINTICKS_INIT
      norm_num)
  rw [e, List.append_nil] at h
  exact ⟨h, hv⟩

/-! ## Theorems: clearing -/

/-- C18: for every sample state, `stat_sample_clean` produces exactly the state that
`stat_sample_create` produces (whatever the fresh memory held), which is the empty state
`stat_sample_clean`; so mean, variance, minimum, maximum, their indices and the size queried
right after a clear equal those of a freshly created sample; and clearing twice equals
clearing once. -/
theorem clean_restores_empty (s memory : stat_sample K) :
    stat_sample_clean_state s = stat_sample_create_state memory ∧
    stat_sample_clean_state s = stat_sample_clean ∧
    stat_sample_mean (stat_sample_clean_state s)
      = stat_sample_mean (stat_sample_create_state memory) ∧
    stat_sample_mean_knuth (stat_sample_clean_state s)
      = stat_sample_mean_knuth (stat_sample_create_state memory) ∧
    stat_sample_var (stat_sample_clean_state s)
      = stat_sample_var (stat_sample_create_state memory) ∧
    stat_sample_var_knuth (stat_sample_clean_state s)
      = stat_sample_var_knuth (stat_sample_create_state memory) ∧
    stat_sample_min (stat_sample_clean_state s)
      = stat_sample_min (stat_sample_create_state memory) ∧
    stat_sample_max (stat_sample_clean_state s)
      = stat_sample_max (stat_sample_create_state memory) ∧
    stat_sample_min_index (stat_sample_clean_state s)
      = stat_sample_min_index (stat_sample_create_state memory) ∧
    stat_sample_max_index (stat_sample_clean_state s)
      = stat_sample_max_index (stat_sample_create_state memory) ∧
    stat_sample_size (stat_sample_clean_state s)
      = stat_sample_size (stat_sample_create_state memory) ∧
    stat_sample_clean_state (stat_sample_clean_state s) = stat_sample_clean_state s := by
  have h : ∀ t : stat_sample K, stat_sample_clean_state t = stat_sample_clean := fun _ => rfl
  rw [stat_sample_create_state, h s, h memory, h stat_sample_clean]
  exact ⟨rfl, rfl, rfl, rfl, rfl, rfl, rfl, rfl, rfl, rfl, rfl, rfl⟩

/-! ## Theorems: empty and single-value samples -/

theorem clean_var (sqrt : K → K) (hs0 : sqrt 0 = 0) :
    stat_sample_var (stat_sample_clean : stat_sample K) = 0 ∧
    stat_sample_var_knuth (stat_sample_clean : stat_sample K) = 0 ∧
    stat_sample_stddev sqrt (stat_sample_clean : stat_sample K) = 0 ∧
    stat_sample_stddev_knuth sqrt (stat_sample_clean : stat_sample K) = 0 := by
  have h1 : stat_sample_var (stat_sample_clean : stat_sample K) = 0 := by
    simp [stat_sample_var, stat_sample_clean]
  have h2 : stat_sample_var_knuth (stat_sample_clean : stat_sample K) = 0 := by
    simp [stat_sample_var_knuth, stat_sample_clean]
  exact ⟨h1, h2, by rw [stat_sample_stddev, h1, hs0], by rw [stat_sample_stddev_knuth, h2, hs0]⟩

theorem single_fields (x : K) :
    (stat_sample_add stat_sample_clean x).size = 1 ∧
    (stat_sample_add stat_sample_clean x).sum = x ∧
    (stat_sample_add stat_sample_clean x).knuth_mean = x := by
  have hm : (0 + 1) % U32 = 1 := by decide
  refine ⟨hm, by simp [stat_sample_add, stat_sample_clean], ?_⟩
  exact add_knuth_mean_wrap _ _ (by simp [stat_sample_clean, hm])

theorem single_var (sqrt : K → K) (hs0 : sqrt 0 = 0) (x : K) :
    stat_sample_var (stat_sample_add stat_sample_clean x) = 0 ∧
    stat_sample_var_knuth (stat_sample_add stat_sample_clean x) = 0 ∧
    stat_sample_stddev sqrt (stat_sample_add stat_sample_clean x) = 0 ∧
    stat_sample_stddev_knuth sqrt (stat_sample_add stat_sample_clean x) = 0 := by
  have hsz := (single_fields x).1
  have h1 : stat_sample_var (stat_sample_add stat_sample_clean x) = 0 := by
    rw [stat_sample_var, hsz, if_neg (by norm_num)]
  have h2 : stat_sample_var_knuth (stat_sample_add stat_sample_clean x) = 0 := by
    rw [stat_sample_var_knuth, hsz, if_neg (by norm_num)]
  exact ⟨h1, h2, by rw [stat_sample_stddev, h1, hs0], by rw [stat_sample_stddev_knuth, h2, hs0]⟩

theorem rel_of_stderr_zero (m : K) : rel_of_stderr (fpval.num 0) m = fpval.num 0 := by
  simp [rel_of_stderr]

/-- With a zero variance the checked standard error is the checked quotient
`sqrt(0) / sqrt(size)`. -/
theorem stderr_chk_of_var_zero (sqrt : K → K) (s : stat_sample K) :
    (stat_sample_var s = 0 →
      stat_sample_stderr_chk sqrt s = fdiv (sqrt 0) (sqrt (s.size : K))) ∧
    (stat_sample_var_knuth s = 0 →
      stat_sample_stderr_knuth_chk sqrt s = fdiv (sqrt 0) (sqrt (s.size : K))) := by
  constructor
  · intro h
    rw [stat_sample_stderr_chk, stat_sample_stddev_chk, h, fsqrt, if_neg (lt_irrefl _)]
    rfl
  · intro h
    rw [stat_sample_stderr_knuth_chk, stat_sample_stddev_knuth_chk, h, fsqrt,
      if_neg (lt_irrefl _)]
    rfl

/-- C19: on an empty sample both means, both variances, both standard deviations and both
relative standard errors are `0` and the size is `0`; on a sample holding the single value
`x` both means are `x` and both variances, standard deviations, standard errors and relative
standard errors are `0`.  The relative standard errors are `0` in IEEE arithmetic as well
(their comparison `stderr > 0.0` fails), and the standard errors of the single-value sample
divide by `sqrt(1)`. -/
theorem degenerate_defaults (sqrt : K → K) (hs0 : sqrt 0 = 0) (hs1 : sqrt 1 = 1) (x : K) :
    (stat_sample_mean (stat_sample_clean : stat_sample K) = 0 ∧
      stat_sample_mean_knuth (stat_sample_clean : stat_sample K) = 0 ∧
      stat_sample_var (stat_sample_clean : stat_sample K) = 0 ∧
      stat_sample_var_knuth (stat_sample_clean : stat_sample K) = 0 ∧
      stat_sample_stddev sqrt (stat_sample_clean : stat_sample K) = 0 ∧
      stat_sample_stddev_knuth sqrt (stat_sample_clean : stat_sample K) = 0 ∧
      stat_sample_rel_stderr sqrt (stat_sample_clean : stat_sample K) = 0 ∧
      stat_sample_rel_stderr_knuth sqrt (stat_sample_clean : stat_sample K) = 0 ∧
      stat_sample_rel_stderr_chk sqrt (stat_sample_clean : stat_sample K) = fpval.num 0 ∧
      stat_sample_rel_stderr_knuth_chk sqrt (stat_sample_clean : stat_sample K) = fpval.num 0 ∧
      stat_sample_size (stat_sample_clean : stat_sample K) = 0) ∧
    (stat_sample_mean (stat_sample_add stat_sample_clean x) = x ∧
      stat_sample_mean_knuth (stat_sample_add stat_sample_clean x) = x ∧
      stat_sample_var (stat_sample_add stat_sample_clean x) = 0 ∧
      stat_sample_var_knuth (stat_sample_add stat_sample_clean x) = 0 ∧
      stat_sample_stddev sqrt (stat_sample_add stat_sample_clean x) = 0 ∧
      stat_sample_stddev_knuth sqrt (stat_sample_add stat_sample_clean x) = 0 ∧
      stat_sample_stderr sqrt (stat_sample_add stat_sample_clean x) = 0 ∧
      stat_sample_stderr_knuth sqrt (stat_sample_add stat_sample_clean x) = 0 ∧
      stat_sample_stderr_chk sqrt (stat_sample_add stat_sample_clean x) = fpval.num 0 ∧
      stat_sample_stderr_knuth_chk sqrt (stat_sample_add stat_sample_clean x) = fpval.num 0 ∧
      stat_sample_rel_stderr sqrt (stat_sample_add stat_sample_clean x) = 0 ∧
      stat_sample_rel_stderr_knuth sqrt (stat_sample_add stat_sample_clean x) = 0 ∧
      stat_sample_rel_stderr_chk sqrt (stat_sample_add stat_sample_clean x) = fpval.num 0 ∧
      stat_sample_rel_stderr_knuth_chk sqrt (stat_sample_add stat_sample_clean x)
        = fpval.num 0) := by
  obtain ⟨c1, c2, c3, c4⟩ := clean_var sqrt hs0
  obtain ⟨v1, v2, v3, v4⟩ := single_var sqrt hs0 x
  obtain ⟨f1, f2, f3⟩ := single_fields x
  have hcs : ((stat_sample_clean : stat_sample K).size : K) = 0 := by simp [stat_sample_clean]
  have hss : ((stat_sample_add stat_sample_clean x).size : K) = 1 := by rw [f1]; simp
  have e1 : stat_sample_stderr sqrt (stat_sample_add stat_sample_clean x) = 0 := by
    rw [stat_sample_stderr, v3, zero_div]
  have e2 : stat_sample_stderr_knuth sqrt (stat_sample_add stat_sample_clean x) = 0 := by
    rw [stat_sample_stderr_knuth, v4, zero_div]
  have e3 : stat_sample_stderr_chk sqrt (stat_sample_add stat_sample_clean x) = fpval.num 0 := by
    rw [(stderr_chk_of_var_zero sqrt _).1 v1, hs0, hss, hs1, fdiv, if_neg one_ne_zero, zero_div]
  have e4 : stat_sample_stderr_knuth_chk sqrt (stat_sample_add stat_sample_clean x)
      = fpval.num 0 := by
    rw [(stderr_chk_of_var_zero sqrt _).2 v2, hs0, hss, hs1, fdiv, if_neg one_ne_zero, zero_div]
  have n1 : stat_sample_stderr_chk sqrt (stat_sample_clean : stat_sample K) = fpval.nan := by
    rw [(stderr_chk_of_var_zero sqrt _).1 c1, hs0, hcs, hs0, fdiv, if_pos rfl, if_pos rfl]
  have n2 : stat_sample_stderr_knuth_chk sqrt (stat_sample_clean : stat_sample K)
      = fpval.nan := by
    rw [(stderr_chk_of_var_zero sqrt _).2 c2, hs0, hcs, hs0, fdiv, if_pos rfl, if_pos rfl]
  refine ⟨⟨by simp [stat_sample_mean, stat_sample_clean], rfl, c1, c2, c3, c4, ?_, ?_, ?_, ?_,
    by rw [stat_sample_size, toInt32_small _ (by simp [stat_sample_clean])]; rfl⟩,
    ⟨by rw [stat_sample_mean, f1, if_neg (by norm_num), f2], f3, v1, v2, v3, v4, e1, e2, e3, e4,
      ?_, ?_, ?_, ?_⟩⟩
  · simp [stat_sample_rel_stderr, stat_sample_stderr, c3]
  · simp [stat_sample_rel_stderr_knuth, stat_sample_stderr_knuth, c4]
  · rw [stat_sample_rel_stderr_chk, n1]; rfl
  · rw [stat_sample_rel_stderr_knuth_chk, n2]; rfl
  · simp [stat_sample_rel_stderr, e1]
  · simp [stat_sample_rel_stderr_knuth, e2]
  · rw [stat_sample_rel_stderr_chk, e3, rel_of_stderr_zero]
  · rw [stat_sample_rel_stderr_knuth_chk, e4, rel_of_stderr_zero]

/-- C19 over the reals with `Real.sqrt`, single value `7`. -/
theorem degenerate_defaults_witness :
    stat_sample_rel_stderr_knuth Real.sqrt (stat_sample_clean : stat_sample ℝ) = 0 ∧
    stat_sample_rel_stderr_knuth_chk Real.sqrt (stat_sample_clean : stat_sample ℝ)
      = fpval.num 0 ∧
    stat_sample_mean (stat_sample_add stat_sample_clean (7 : ℝ)) = 7 ∧
    stat_sample_mean_knuth (stat_sample_add stat_sample_clean (7 : ℝ)) = 7 ∧
    stat_sample_var_knuth (stat_sample_add stat_sample_clean (7 : ℝ)) = 0 ∧
    stat_sample_stderr_knuth_chk Real.sqrt (stat_sample_add stat_sample_clean (7 : ℝ))
      = fpval.num 0 ∧
    stat_sample_rel_stderr_knuth_chk Real.sqrt (stat_sample_add stat_sample_clean (7 : ℝ))
      = fpval.num 0 :=
  have h := degenerate_defaults Real.sqrt Real.sqrt_zero Real.sqrt_one (7 : ℝ)
  ⟨h.1.2.2.2.2.2.2.2.1, h.1.2.2.2.2.2.2.2.2.2.1, h.2.1, h.2.2.1, h.2.2.2.2.1,
    h.2.2.2.2.2.2.2.2.2.2.1, h.2.2.2.2.2.2.2.2.2.2.2.2.2.2⟩

/-- On the empty sample both standard errors are the quotient `0 / 0`. -/
theorem clean_stderr_nan (sqrt : K → K) (hs0 : sqrt 0 = 0) :
    sqrt (((stat_sample_clean : stat_sample K).size : Nat) : K) = 0 ∧
    stat_sample_stderr_chk sqrt (stat_sample_clean : stat_sample K) = fpval.nan ∧
    stat_sample_stderr_knuth_chk sqrt (stat_sample_clean : stat_sample K) = fpval.nan := by
  obtain ⟨c1, c2, -, -⟩ := clean_var sqrt hs0
  have hcs : ((stat_sample_clean : stat_sample K).size : K) = 0 := by simp [stat_sample_clean]
  refine ⟨by rw [hcs, hs0], ?_, ?_⟩
  · rw [(stderr_chk_of_var_zero sqrt _).1 c1, hs0, hcs, hs0, fdiv, if_pos rfl, if_pos rfl]
  · rw [(stderr_chk_of_var_zero sqrt _).2 c2, hs0, hcs, hs0, fdiv, if_pos rfl, if_pos rfl]

/-- C20 at its failing input: on the empty sample the divisor `sqrt(size)` of
`stat_sample_stderr` and `stat_sample_stderr_knuth` is `0` and so is the dividend, so both
functions evaluate `0.0 / 0.0`, which is not a number, instead of returning `0`. -/
theorem stderr_empty_divides_by_zero :
    Real.sqrt (((stat_sample_clean : stat_sample ℝ).size : Nat) : ℝ) = 0 ∧
    stat_sample_stderr_chk Real.sqrt (stat_sample_clean : stat_sample ℝ) = fpval.nan ∧
    stat_sample_stderr_knuth_chk Real.sqrt (stat_sample_clean : stat_sample ℝ) = fpval.nan :=
  clean_stderr_nan Real.sqrt Real.sqrt_zero

/-- A checked quotient that is a number is the quotient of the total model. -/
theorem fdiv_num (a b e : K) (h : fdiv a b = fpval.num e) : a / b = e := by
  unfold fdiv at h
  split at h
  · split at h <;> exact absurd h (by simp)
  · simpa using h

/-! ## Theorems: stabilized calibration -/

theorem stab_stop (i nc m : Nat) (stream : Stream)
    (h : ¬ (i < NMEASURES_MAX ∧ nc < NOTCHANGED_THRESHOLD)) :
    measure_tsc_overhead_stabilized_loop i nc m stream = some (m, stream) := by
  cases stream with
  | nil => simp only [measure_tsc_overhead_stabilized_loop, if_neg h]
  | cons p tl =>
    obtain ⟨t0, t1⟩ := p
    simp only [measure_tsc_overhead_stabilized_loop, if_neg h]

theorem stab_step_lower (i nc m t0 t1 : Nat) (rest : Stream)
    (h : i < NMEASURES_MAX ∧ nc < NOTCHANGED_THRESHOLD) (hv : t0 < t1) (hl : sub64 t1 t0 < m) :
    measure_tsc_overhead_stabilized_loop i nc m ((t0, t1) :: rest)
      = measure_tsc_overhead_stabilized_loop (i + 1) 0 (sub64 t1 t0) rest := by
  simp only [measure_tsc_overhead_stabilized_loop, if_pos h, gt_iff_lt, if_pos hv, if_pos hl]

theorem stab_step_keep (i nc m t0 t1 : Nat) (rest : Stream)
    (h : i < NMEASURES_MAX ∧ nc < NOTCHANGED_THRESHOLD) (hv : t0 < t1) (hl : ¬ sub64 t1 t0 < m) :
    measure_tsc_overhead_stabilized_loop i nc m ((t0, t1) :: rest)
      = measure_tsc_overhead_stabilized_loop (i + 1) (nc + 1) m rest := by
  simp only [measure_tsc_overhead_stabilized_loop, if_pos h, gt_iff_lt, if_pos hv, if_neg hl]

theorem stab_step_skip (i nc m t0 t1 : Nat) (rest : Stream)
    (h : i < NMEASURES_MAX ∧ nc < NOTCHANGED_THRESHOLD) (hv : ¬ t0 < t1) :
    measure_tsc_overhead_stabilized_loop i nc m ((t0, t1) :: rest)
      = measure_tsc_overhead_stabilized_loop i nc m rest := by
  simp only [measure_tsc_overhead_stabilized_loop, if_pos h, gt_iff_lt, if_neg hv]

/-- A run of `n` equal valid pairs none of which lowers the minimum. -/
theorem stab_keep_run (n i nc m t0 t1 : Nat) (rest : Stream) (hv : t0 < t1)
    (hl : ¬ sub64 t1 t0 < m) (hi : i + n ≤ NMEASURES_MAX) (hn : nc + n ≤ NOTCHANGED_THRESHOLD) :
    measure_tsc_overhead_stabilized_loop i nc m (List.replicate n (t0, t1) ++ rest)
      = measure_tsc_overhead_stabilized_loop (i + n) (nc + n) m rest := by
  induction n generalizing i nc with
  | zero => simp
  | succ k ih =>
    rw [List.replicate_succ, List.cons_append,
      stab_step_keep i nc m t0 t1 _ ⟨by omega, by omega⟩ hv hl, ih (i + 1) (nc + 1)
        (by omega) (by omega)]
    have e1 : i + 1 + k = i + (k + 1) := by omega
    have e2 : nc + 1 + k = nc + (k + 1) := by omega
    rw [e1, e2]

/-- On a stream of constant delta `k`, `0 < k < 2 ^ 64 - 2`, the stabilized calibration
returns `k` after exactly 11 valid trials. -/
theorem stabilized_const (a k : Nat) (rest : Stream) (hk : 0 < k) (hk2 : k < MINTICKS_INIT)
    (ha : a + k < U64) :
    measure_tsc_overhead_stabilized (List.replicate 11 (a, a + k) ++ rest) = some (k, rest) := by
  have e : sub64 (a + k) a = k := by rw [sub64_eq _ _ ha (by omega)]; omega
  have h1 : (11 : Nat) = 10 + 1 := rfl
  rw [measure_tsc_overhead_stabilized, h1, List.replicate_succ, List.cons_append,
    stab_step_lower 0 0 MINTICKS_INIT a (a + k) _ ⟨by decide, by decide⟩ (by omega)
      (by rw [e]; exact hk2),
    e, stab_keep_run 10 (0 + 1) 0 k a (a + k) rest (by omega) (by rw [e]; omega)
      (by decide) (by decide),
    stab_stop _ _ _ _ (by decide)]

/-- C11 at its failing input: on the stream of constant delta `2 ^ 64 - 1` the stabilized
calibration stops after 10 valid trials, not 11 (the eleventh pair is left unread), and
returns `2 ^ 64 - 2`, the initial value `(uint64_t)~0x1` of `minticks`, not the delta. -/
theorem stabilized_sentinel_returned :
    measure_tsc_overhead_stabilized (List.replicate 10 (0, 18446744073709551615) ++
        [(0, 18446744073709551615)])
      = some (18446744073709551614, [(0, 18446744073709551615)]) ∧
    validDeltas (List.replicate 10 (0, 18446744073709551615) ++ [(0, 18446744073709551615)])
      = List.replicate 10 18446744073709551615 ++ [18446744073709551615] := by
  constructor
  · rw [measure_tsc_overhead_stabilized,
      stab_keep_run 10 0 0 MINTICKS_INIT 0 18446744073709551615 _ (by norm_num) (by decide)
        (by decide) (by decide),
      stab_stop _ _ _ _ (by decide)]
    rfl
  · decide

/-! ## Theorems: how many trials calibration performs -/

theorem filter_valid_cons_valid (t0 t1 : Nat) (rest : Stream) (h : t0 < t1) :
    ((t0, t1) :: rest).filter validPair = (t0, t1) :: rest.filter validPair := by
  simp [validPair, h]

theorem filter_valid_cons_invalid (t0 t1 : Nat) (rest : Stream) (h : ¬ t0 < t1) :
    ((t0, t1) :: rest).filter validPair = rest.filter validPair := by
  simp [validPair, h]

/-- The loop of `measure_tsc_overhead` ends as soon as the stream has supplied the missing
valid pairs, and has then read exactly that many valid pairs. -/
theorem measure_tsc_overhead_loop_ends (stream : Stream) (i m : Nat)
    (h : NMEASURES - i ≤ (stream.filter validPair).length) :
    ∃ r rest pre, measure_tsc_overhead_loop i m stream = some (r, rest) ∧
      stream = pre ++ rest ∧ (pre.filter validPair).length = NMEASURES - i := by
  induction stream generalizing i m with
  | nil =>
    have hi : ¬ i < NMEASURES := by simp at h; omega
    exact ⟨m, [], [], by simp only [measure_tsc_overhead_loop, if_neg hi], rfl,
      by simp; omega⟩
  | cons p tl ih =>
    obtain ⟨t0, t1⟩ := p
    by_cases hi : i < NMEASURES
    · by_cases hv : t0 < t1
      · rw [filter_valid_cons_valid _ _ _ hv, List.length_cons] at h
        obtain ⟨r, rest, pre, h1, h2, h3⟩ :=
          ih (i + 1) (if sub64 t1 t0 < m then sub64 t1 t0 else m) (by omega)
        refine ⟨r, rest, (t0, t1) :: pre, ?_, by rw [h2, List.cons_append], ?_⟩
        · simp only [measure_tsc_overhead_loop, if_pos hi, gt_iff_lt, if_pos hv, h1]
        · rw [filter_valid_cons_valid _ _ _ hv, List.length_cons, h3]; omega
      · rw [filter_valid_cons_invalid _ _ _ hv] at h
        obtain ⟨r, rest, pre, h1, h2, h3⟩ := ih i m h
        refine ⟨r, rest, (t0, t1) :: pre, ?_, by rw [h2, List.cons_append], ?_⟩
        · simp only [measure_tsc_overhead_loop, if_pos hi, gt_iff_lt, if_neg hv, h1]
        · rw [filter_valid_cons_invalid _ _ _ hv, h3]
    · exact ⟨m, (t0, t1) :: tl, [],
        by simp only [measure_tsc_overhead_loop, if_neg hi], rfl, by simp; omega⟩

/-- The loop of `measure_tsc_overhead_stabilized` ends once the stream has supplied the
missing valid pairs at the latest, and has then read at most that many valid pairs. -/
theorem measure_tsc_overhead_stabilized_loop_ends (stream : Stream) (i nc m : Nat)
    (h : NMEASURES_MAX - i ≤ (stream.filter validPair).length) :
    ∃ r rest pre, measure_tsc_overhead_stabilized_loop i nc m stream = some (r, rest) ∧
      stream = pre ++ rest ∧ (pre.filter validPair).length ≤ NMEASURES_MAX - i := by
  induction stream generalizing i nc m with
  | nil =>
    have hi : ¬ (i < NMEASURES_MAX ∧ nc < NOTCHANGED_THRESHOLD) := by
      simp at h; omega
    exact ⟨m, [], [], stab_stop _ _ _ _ hi, rfl, by simp⟩
  | cons p tl ih =>
    obtain ⟨t0, t1⟩ := p
    by_cases hi : i < NMEASURES_MAX ∧ nc < NOTCHANGED_THRESHOLD
    · by_cases hv : t0 < t1
      · rw [filter_valid_cons_valid _ _ _ hv, List.length_cons] at h
        by_cases hl : sub64 t1 t0 < m
        · obtain ⟨r, rest, pre, h1, h2, h3⟩ := ih (i + 1) 0 (sub64 t1 t0) (by omega)
          refine ⟨r, rest, (t0, t1) :: pre, ?_, by rw [h2, List.cons_append], ?_⟩
          · rw [stab_step_lower _ _ _ _ _ _ hi hv hl, h1]
          · rw [filter_valid_cons_valid _ _ _ hv, List.length_cons]; omega
        · obtain ⟨r, rest, pre, h1, h2, h3⟩ := ih (i + 1) (nc + 1) m (by omega)
          refine ⟨r, rest, (t0, t1) :: pre, ?_, by rw [h2, List.cons_append], ?_⟩
          · rw [stab_step_keep _ _ _ _ _ _ hi hv hl, h1]
          · rw [filter_valid_cons_valid _ _ _ hv, List.length_cons]; omega
      · rw [filter_valid_cons_invalid _ _ _ hv] at h
        obtain ⟨r, rest, pre, h1, h2, h3⟩ := ih i nc m h
        refine ⟨r, rest, (t0, t1) :: pre, ?_, by rw [h2, List.cons_append], ?_⟩
        · rw [stab_step_skip _ _ _ _ _ _ hi hv, h1]
        · rw [filter_valid_cons_invalid _ _ _ hv]; exact h3
    · exact ⟨m, (t0, t1) :: tl, [], stab_stop _ _ _ _ hi, rfl, by simp⟩

/-- C12 (amended): on every counter stream that supplies 100 valid pairs,
`measure_tsc_overhead` terminates having read exactly 100 valid pairs and
`measure_tsc_overhead_stabilized` terminates having read at most 100 valid pairs; the pairs
with `after ≤ before` that they read on the way are retried without being counted, so the
number of pairs read is the number of valid pairs plus the number of such pairs. -/
theorem calibration_trial_cap (stream : Stream)
    (h : 100 ≤ (stream.filter validPair).length) :
    (∃ r rest pre, measure_tsc_overhead stream = some (r, rest) ∧ stream = pre ++ rest ∧
      (pre.filter validPair).length = 100 ∧
      pre.length = 100 + (pre.filter (fun p => !validPair p)).length) ∧
    (∃ r rest pre, measure_tsc_overhead_stabilized stream = some (r, rest) ∧
      stream = pre ++ rest ∧ (pre.filter validPair).length ≤ 100 ∧
      pre.length = (pre.filter validPair).length
        + (pre.filter (fun p => !validPair p)).length) := by
  have hsplit : ∀ pre : Stream, pre.length = (pre.filter validPair).length
      + (pre.filter (fun p => !validPair p)).length := by
    intro pre
    induction pre with
    | nil => rfl
    | cons p tl ih =>
      by_cases hp : validPair p = true
      · simp [hp, ih]; omega
      · simp [hp, ih]; omega
  obtain ⟨r, rest, pre, h1, h2, h3⟩ := measure_tsc_overhead_loop_ends stream 0 MINTICKS_INIT h
  obtain ⟨r2, rest2, pre2, k1, k2, k3⟩ :=
    measure_tsc_overhead_stabilized_loop_ends stream 0 0 MINTICKS_INIT h
  exact ⟨⟨r, rest, pre, h1, h2, h3, by rw [hsplit pre, h3]; rfl⟩,
    ⟨r2, rest2, pre2, k1, k2, k3, hsplit pre2⟩⟩

set_option maxRecDepth 100000 in
/-- C12 (amended) on the stream that starts with the anomalous pair `(5, 5)` and goes on
with 100 pairs of delta `3`. -/
theorem calibration_trial_cap_witness :
    (∃ r rest pre, measure_tsc_overhead ((5, 5) :: List.replicate 100 (100, 103))
        = some (r, rest) ∧
      (5, 5) :: List.replicate 100 (100, 103) = pre ++ rest ∧
      (pre.filter validPair).length = 100 ∧
      pre.length = 100 + (pre.filter (fun p => !validPair p)).length) ∧
    (∃ r rest pre, measure_tsc_overhead_stabilized ((5, 5) :: List.replicate 100 (100, 103))
        = some (r, rest) ∧
      (5, 5) :: List.replicate 100 (100, 103) = pre ++ rest ∧
      (pre.filter validPair).length ≤ 100 ∧
      pre.length = (pre.filter validPair).length
        + (pre.filter (fun p => !validPair p)).length) :=
  calibration_trial_cap ((5, 5) :: List.replicate 100 (100, 103)) (by decide)

/-- A run of pairs with `after ≤ before` in the stabilized calibration loop is read and
retried. -/
theorem stab_skip_run (n i nc m t0 t1 : Nat) (rest : Stream) (hv : ¬ t0 < t1)
    (h : i < NMEASURES_MAX ∧ nc < NOTCHANGED_THRESHOLD) :
    measure_tsc_overhead_stabilized_loop i nc m (List.replicate n (t0, t1) ++ rest)
      = measure_tsc_overhead_stabilized_loop i nc m rest := by
  induction n with
  | zero => simp
  | succ k ih => rw [List.replicate_succ, List.cons_append, stab_step_skip _ _ _ _ _ _ h hv, ih]

/-- A pair with `after ≤ before` in the loop of `measure_tsc_overhead` is read and
retried. -/
theorem overhead_step_skip (i m t0 t1 : Nat) (rest : Stream) (hi : i < NMEASURES)
    (hv : ¬ t0 < t1) :
    measure_tsc_overhead_loop i m ((t0, t1) :: rest) = measure_tsc_overhead_loop i m rest := by
  simp only [measure_tsc_overhead_loop, if_pos hi, gt_iff_lt, if_neg hv]

/-- C12 as stated fails: `measure_tsc_overhead` reads 101 pairs on a stream that starts with
one pair with `after ≤ before`, and `measure_tsc_overhead_stabilized` reads 111 pairs on a
stream that starts with 100 such pairs. -/
theorem calibration_reads_more_than_cap :
    measure_tsc_overhead ((5, 5) :: (List.replicate 100 (100, 100 + 3) ++ [])) = some (3, []) ∧
    ((5, 5) :: (List.replicate 100 (100, 100 + 3) ++ [])).length = 101 ∧
    measure_tsc_overhead_stabilized
        (List.replicate 100 (5, 5) ++ (List.replicate 11 (100, 100 + 3) ++ [])) = some (3, []) ∧
    (List.replicate 100 (5, 5) ++ (List.replicate 11 (100, 100 + 3) ++ [])).length = 111 := by
  have hc := const_calibration 100 3 [] (by norm_num) (by unfold MINTICKS_INIT; norm_num)
    (by unfold U64; norm_num)
  have hs := stabilized_const 100 3 [] (by norm_num) (by unfold MINTICKS_INIT; norm_num)
    (by unfold U64; norm_num)
  refine ⟨?_, by simp, ?_, by simp⟩
  · rw [measure_tsc_overhead] at hc ⊢
    rw [overhead_step_skip 0 MINTICKS_INIT 5 5 _ (by decide) (by decide), hc]
  · rw [measure_tsc_overhead_stabilized] at hs ⊢
    rw [stab_skip_run 100 0 0 MINTICKS_INIT 5 5 _ (by decide) (by decide), hs]

/-! ## Theorems: minimum and maximum tracking -/

theorem add_max (s : stat_sample K) (v : K) :
    (stat_sample_add s v).max = if v > s.max then v else s.max := rfl

theorem add_max_index (s : stat_sample K) (v : K) :
    (stat_sample_add s v).max_index = if v > s.max then s.size else s.max_index := rfl

theorem add_min (s : stat_sample K) (v : K) :
    (stat_sample_add s v).min = if v < s.min then v else s.min := rfl

theorem add_min_index (s : stat_sample K) (v : K) :
    (stat_sample_add s v).min_index = if v < s.min then s.size else s.min_index := rfl

/-- What `max` and `max_index` hold after adding `xs` to a cleared sample, as long as the
32-bit element counter has not wrapped: an upper bound of the values that is at least `0`;
the largest value and the position of its first occurrence when some value is positive; the
initial `0` and the sentinel index otherwise. -/
theorem max_track (xs : List K) (h : xs.length < U32) :
    (∀ y ∈ xs, y ≤ (stat_sample_add_dataset stat_sample_clean xs).max) ∧
    0 ≤ (stat_sample_add_dataset stat_sample_clean xs).max ∧
    ((∃ y ∈ xs, 0 < y) →
      (stat_sample_add_dataset stat_sample_clean xs).max ∈ xs ∧
      (stat_sample_add_dataset stat_sample_clean xs).max_index
        = xs.indexOf (stat_sample_add_dataset stat_sample_clean xs).max) ∧
    ((∀ y ∈ xs, y ≤ 0) →
      (stat_sample_add_dataset stat_sample_clean xs).max = 0 ∧
      (stat_sample_add_dataset stat_sample_clean xs).max_index = 4294967294) := by
  induction xs using List.reverseRecOn with
  | nil =>
    refine ⟨by simp, le_refl _, fun ⟨y, hy, _⟩ => absurd hy (by simp), fun _ => ⟨rfl, rfl⟩⟩
  | append_singleton xs x ih =>
    have hlen : xs.length + 1 < U32 := by simpa using h
    obtain ⟨i1, i2, i3, i4⟩ := ih (by omega)
    have hsz := (add_dataset_clean_inv xs (by omega)).1
    rw [add_dataset_snoc, add_max, add_max_index, hsz]
    by_cases hx : x > (stat_sample_add_dataset stat_sample_clean xs).max
    · rw [if_pos hx, if_pos hx]
      have hnot : x ∉ xs := fun hm => absurd (i1 x hm) (not_le.mpr hx)
      refine ⟨?_, le_trans i2 hx.le, fun _ => ⟨by simp, ?_⟩, fun hall => ?_⟩
      · intro y hy
        rcases List.mem_append.mp hy with hy | hy
        · exact le_trans (i1 y hy) hx.le
        · rw [List.mem_singleton.mp hy]
      · rw [List.indexOf_append_of_not_mem hnot, List.indexOf_cons_self, Nat.add_zero]
      · have := hall x (by simp)
        exact absurd (lt_of_le_of_lt i2 hx) (not_lt.mpr this)
    · rw [if_neg hx, if_neg hx]
      have hx1 : x ≤ (stat_sample_add_dataset stat_sample_clean xs).max := not_lt.mp hx
      refine ⟨?_, i2, fun hex => ?_, fun hall => ?_⟩
      · intro y hy
        rcases List.mem_append.mp hy with hy | hy
        · exact i1 y hy
        · rw [List.mem_singleton.mp hy]; exact hx1
      · have hT : ∃ y ∈ xs, 0 < y := by
          by_contra hc
          have hall : ∀ y ∈ xs, y ≤ 0 := fun y hy => not_lt.mp (fun hpos => hc ⟨y, hy, hpos⟩)
          obtain ⟨y, hy, hpos⟩ := hex
          rcases List.mem_append.mp hy with hy | hy
          · exact hc ⟨y, hy, hpos⟩
          · rw [List.mem_singleton.mp hy] at hpos
            have := (i4 hall).1
            rw [this] at hx1
            exact absurd hpos (not_lt.mpr hx1)
        obtain ⟨m1, m2⟩ := i3 hT
        exact ⟨List.mem_append_left _ m1, by rw [List.indexOf_append_of_mem m1]; exact m2⟩
      · exact i4 (fun y hy => hall y (List.mem_append_left _ hy))

/-- What `min` and `min_index` hold after adding `xs` to a cleared sample, as long as the
32-bit element counter has not wrapped: a lower bound of the values that is at most
`DBL_MAX`; the smallest value and the position of its first occurrence when some value is
below `DBL_MAX`; the initial `DBL_MAX` and the sentinel index otherwise. -/
theorem min_track (xs : List K) (h : xs.length < U32) :
    (∀ y ∈ xs, (stat_sample_add_dataset stat_sample_clean xs).min ≤ y) ∧
    (stat_sample_add_dataset stat_sample_clean xs).min ≤ DBL_MAX ∧
    ((∃ y ∈ xs, y < DBL_MAX) →
      (stat_sample_add_dataset stat_sample_clean xs).min ∈ xs ∧
      (stat_sample_add_dataset stat_sample_clean xs).min_index
        = xs.indexOf (stat_sample_add_dataset stat_sample_clean xs).min) ∧
    ((∀ y ∈ xs, DBL_MAX ≤ y) →
      (stat_sample_add_dataset stat_sample_clean xs).min = DBL_MAX ∧
      (stat_sample_add_dataset stat_sample_clean xs).min_index = 4294967294) := by
  induction xs using List.reverseRecOn with
  | nil =>
    refine ⟨by simp, le_refl _, fun ⟨y, hy, _⟩ => absurd hy (by simp), fun _ => ⟨rfl, rfl⟩⟩
  | append_singleton xs x ih =>
    have hlen : xs.length + 1 < U32 := by simpa using h
    obtain ⟨i1, i2, i3, i4⟩ := ih (by omega)
    have hsz := (add_dataset_clean_inv xs (by omega)).1
    rw [add_dataset_snoc, add_min, add_min_index, hsz]
    by_cases hx : x < (stat_sample_add_dataset stat_sample_clean xs).min
    · rw [if_pos hx, if_pos hx]
      have hnot : x ∉ xs := fun hm => absurd (i1 x hm) (not_le.mpr hx)
      refine ⟨?_, le_trans hx.le i2, fun _ => ⟨by simp, ?_⟩, fun hall => ?_⟩
      · intro y hy
        rcases List.mem_append.mp hy with hy | hy
        · exact le_trans hx.le (i1 y hy)
        · rw [List.mem_singleton.mp hy]
      · rw [List.indexOf_append_of_not_mem hnot, List.indexOf_cons_self, Nat.add_zero]
      · have := hall x (by simp)
        exact absurd (lt_of_lt_of_le hx i2) (not_lt.mpr this)
    · rw [if_neg hx, if_neg hx]
      have hx1 : (stat_sample_add_dataset stat_sample_clean xs).min ≤ x := not_lt.mp hx
      refine ⟨?_, i2, fun hex => ?_, fun hall => ?_⟩
      · intro y hy
        rcases List.mem_append.mp hy with hy | hy
        · exact i1 y hy
        · rw [List.mem_singleton.mp hy]; exact hx1
      · have hT : ∃ y ∈ xs, y < DBL_MAX := by
          by_contra hc
          have hall : ∀ y ∈ xs, DBL_MAX ≤ y :=
            fun y hy => not_lt.mp (fun hlt => hc ⟨y, hy, hlt⟩)
          obtain ⟨y, hy, hlt⟩ := hex
          rcases List.mem_append.mp hy with hy | hy
          · exact hc ⟨y, hy, hlt⟩
          · rw [List.mem_singleton.mp hy] at hlt
            have := (i4 hall).1
            rw [this] at hx1
            exact absurd hlt (not_lt.mpr hx1)
        obtain ⟨m1, m2⟩ := i3 hT
        exact ⟨List.mem_append_left _ m1, by rw [List.indexOf_append_of_mem m1]; exact m2⟩
      · exact i4 (fun y hy => hall y (List.mem_append_left _ hy))

/-- No position before `List.indexOf a l` holds `a`: it is the first occurrence. -/
theorem indexOf_first (a : K) (l : List K) (j : Nat) (hj : j < l.indexOf a) :
    l[j]? ≠ some a := by
  induction l generalizing j with
  | nil => simp
  | cons b t ih =>
    by_cases hb : b = a
    · rw [List.indexOf_cons_eq _ hb] at hj
      exact absurd hj (Nat.not_lt_zero _)
    · rw [List.indexOf_cons_ne _ hb] at hj
      cases j with
      | zero => simpa using hb
      | succ k => simpa using ih k (by omega)

/-- Where the maximum is tracked as expected: for every sequence of at most `2 ^ 31` values
whose largest value is positive, added to a cleared sample, `stat_sample_max` returns the largest value of the
sequence and `stat_sample_max_index` returns the 0-based position of its first occurrence
(no earlier position holds that value), which is no longer the sentinel. -/
theorem max_tracking (xs : List K) (hlen : xs.length ≤ 2 ^ 31) (hpos : ∃ y ∈ xs, 0 < y) :
    stat_sample_max (stat_sample_add_dataset stat_sample_clean xs) ∈ xs ∧
    (∀ y ∈ xs, y ≤ stat_sample_max (stat_sample_add_dataset stat_sample_clean xs)) ∧
    stat_sample_max_index (stat_sample_add_dataset stat_sample_clean xs)
      = ((xs.indexOf (stat_sample_max (stat_sample_add_dataset stat_sample_clean xs)) : Nat)
          : Int) ∧
    xs.indexOf (stat_sample_max (stat_sample_add_dataset stat_sample_clean xs)) < xs.length ∧
    (∀ j, j < xs.indexOf (stat_sample_max (stat_sample_add_dataset stat_sample_clean xs)) →
      xs[j]? ≠ some (stat_sample_max (stat_sample_add_dataset stat_sample_clean xs))) ∧
    (stat_sample_add_dataset stat_sample_clean xs).max_index ≠ 4294967294 := by
  have hU : xs.length < U32 := by unfold U32; omega
  obtain ⟨i1, -, i3, -⟩ := max_track xs hU
  obtain ⟨m1, m2⟩ := i3 hpos
  have hlt := List.indexOf_lt_length.mpr m1
  refine ⟨m1, i1, ?_, hlt, fun j hj => indexOf_first _ _ j hj, ?_⟩
  · rw [stat_sample_max_index, m2, stat_sample_max, toInt32_small _ (by omega)]
  · rw [m2]; omega

/-- The maximum and its first position on the values `3, 7, 7, 2`. -/
theorem max_tracking_witness :
    stat_sample_max (stat_sample_add_dataset stat_sample_clean [(3 : ℚ), 7, 7, 2])
      ∈ [(3 : ℚ), 7, 7, 2] ∧
    (∀ y ∈ [(3 : ℚ), 7, 7, 2],
      y ≤ stat_sample_max (stat_sample_add_dataset stat_sample_clean [(3 : ℚ), 7, 7, 2])) ∧
    stat_sample_max_index (stat_sample_add_dataset stat_sample_clean [(3 : ℚ), 7, 7, 2])
      = (([(3 : ℚ), 7, 7, 2].indexOf
          (stat_sample_max (stat_sample_add_dataset stat_sample_clean [(3 : ℚ), 7, 7, 2])) : Nat)
          : Int) :=
  have h := max_tracking [(3 : ℚ), 7, 7, 2] (by norm_num) ⟨3, by simp, by norm_num⟩
  ⟨h.1, h.2.1, h.2.2.1⟩

/-- Two inputs on which the maximum is not tracked.  After the single value `-1` the maximum
is still the initial `0` and the index is still the sentinel (returned as `-2`).  After `2 ^ 31` ones and a final `2`
the first occurrence of the maximum is at position `2 ^ 31`, which `stat_sample_max_index`
returns as the `int` `-2 ^ 31`. -/
theorem max_tracking_fails :
    stat_sample_max (stat_sample_add_dataset stat_sample_clean [(-1 : ℚ)]) = 0 ∧
    stat_sample_max_index (stat_sample_add_dataset stat_sample_clean [(-1 : ℚ)]) = -2 ∧
    stat_sample_max_index
        (stat_sample_add_dataset stat_sample_clean (List.replicate (U32 / 2) (1 : ℚ) ++ [2]))
      = -2147483648 ∧
    (List.replicate (U32 / 2) (1 : ℚ) ++ [2]).indexOf 2 = 2147483648 := by
  have hhalf : U32 / 2 = 2147483648 := by unfold U32; norm_num
  have hlenr : (List.replicate (U32 / 2) (1 : ℚ)).length < U32 := by
    rw [List.length_replicate]; unfold U32; norm_num
  have hs : (stat_sample_add_dataset stat_sample_clean [(-1 : ℚ)])
      = stat_sample_add stat_sample_clean (-1) := rfl
  refine ⟨?_, ?_, ?_, ?_⟩
  · rw [hs, stat_sample_max, add_max]
    simp [stat_sample_clean]
  · rw [hs, stat_sample_max_index, add_max_index, if_neg (by simp [stat_sample_clean])]
    simp [stat_sample_clean, toInt32, U32]
  · obtain ⟨-, -, i3, -⟩ := max_track (List.replicate (U32 / 2) (1 : ℚ)) hlenr
    have hmem1 : (1 : ℚ) ∈ List.replicate (U32 / 2) (1 : ℚ) :=
      List.mem_replicate.mpr ⟨by rw [hhalf]; norm_num, rfl⟩
    obtain ⟨m1, -⟩ := i3 ⟨1, hmem1, by norm_num⟩
    have hmax := List.eq_of_mem_replicate m1
    have hsz := (add_dataset_clean_inv (List.replicate (U32 / 2) (1 : ℚ)) hlenr).1
    rw [List.length_replicate] at hsz
    rw [add_dataset_snoc, stat_sample_max_index, add_max_index, hmax, if_pos (by norm_num), hsz,
      hhalf]
    simp [toInt32, U32]
  · have hnot : (2 : ℚ) ∉ List.replicate (U32 / 2) (1 : ℚ) := by
      intro hm
      have := List.eq_of_mem_replicate hm
      norm_num at this
    rw [List.indexOf_append_of_not_mem hnot, List.length_replicate, List.indexOf_cons_self, hhalf]

/-- C15 at its failing input: after the single value `-1` is added to a cleared sample of
size `1`, `stat_sample_max` returns `0`, the value that `stat_sample_clean` stored, and
`stat_sample_max_index` returns the sentinel `(uint32_t)~0x1` as the `int` `-2`, where the
largest value is `-1` at position `0`.  On the same input the array functions `stat_max` and
`stat_max_index` return `-1` and `0`, and `stat_sample_min` and `stat_sample_min_index`,
which start from `DBL_MAX`, return `-1` and `0`. -/
theorem max_of_negative_value :
    stat_sample_size (stat_sample_add_dataset stat_sample_clean [(-1 : ℚ)]) = 1 ∧
    stat_sample_max (stat_sample_add_dataset stat_sample_clean [(-1 : ℚ)]) = 0 ∧
    stat_sample_max_index (stat_sample_add_dataset stat_sample_clean [(-1 : ℚ)]) = -2 ∧
    stat_max [(-1 : ℚ)] = -1 ∧
    stat_max_index [(-1 : ℚ)] = 0 ∧
    stat_sample_min (stat_sample_add_dataset stat_sample_clean [(-1 : ℚ)]) = -1 ∧
    stat_sample_min_index (stat_sample_add_dataset stat_sample_clean [(-1 : ℚ)]) = 0 := by
  have hs : (stat_sample_add_dataset stat_sample_clean [(-1 : ℚ)])
      = stat_sample_add stat_sample_clean (-1) := rfl
  have hD : (-1 : ℚ) < DBL_MAX := by unfold DBL_MAX; norm_num
  have hmin : (-1 : ℚ) < (stat_sample_clean : stat_sample ℚ).min := hD
  refine ⟨?_, ?_, ?_, rfl, rfl, ?_, ?_⟩
  · rw [hs, stat_sample_size, add_size]
    simp [stat_sample_clean, toInt32, U32]
  · rw [hs, stat_sample_max, add_max]
    simp [stat_sample_clean]
  · rw [hs, stat_sample_max_index, add_max_index, if_neg (by simp [stat_sample_clean])]
    simp [stat_sample_clean, toInt32, U32]
  · rw [hs, stat_sample_min, add_min, if_pos hmin]
  · rw [hs, stat_sample_min_index, add_min_index, if_pos hmin]
    simp [stat_sample_clean, toInt32, U32]

/-- C16 (amended): for every non-empty sequence of fewer than `2 ^ 31` values, all below
`DBL_MAX`, added to a cleared sample, `stat_sample_min` returns the smallest value of the
sequence and `stat_sample_min_index` returns the 0-based position of its first occurrence (no
earlier position holds that value), which is smaller than `stat_sample_size`. -/
theorem min_tracking (xs : List K) (hne : xs ≠ []) (hlen : xs.length < 2 ^ 31)
    (hb : ∀ y ∈ xs, y < DBL_MAX) :
    stat_sample_min (stat_sample_add_dataset stat_sample_clean xs) ∈ xs ∧
    (∀ y ∈ xs, stat_sample_min (stat_sample_add_dataset stat_sample_clean xs) ≤ y) ∧
    stat_sample_min_index (stat_sample_add_dataset stat_sample_clean xs)
      = ((xs.indexOf (stat_sample_min (stat_sample_add_dataset stat_sample_clean xs)) : Nat)
          : Int) ∧
    (∀ j, j < xs.indexOf (stat_sample_min (stat_sample_add_dataset stat_sample_clean xs)) →
      xs[j]? ≠ some (stat_sample_min (stat_sample_add_dataset stat_sample_clean xs))) ∧
    stat_sample_min_index (stat_sample_add_dataset stat_sample_clean xs)
      < stat_sample_size (stat_sample_add_dataset stat_sample_clean xs) := by
  have hU : xs.length < U32 := by unfold U32; omega
  obtain ⟨i1, -, i3, -⟩ := min_track xs hU
  obtain ⟨x0, hx0⟩ := List.exists_mem_of_ne_nil xs hne
  obtain ⟨m1, m2⟩ := i3 ⟨x0, hx0, hb x0 hx0⟩
  have hlt := List.indexOf_lt_length.mpr m1
  have hsz := (add_dataset_clean_inv xs hU).1
  have hidx : stat_sample_min_index (stat_sample_add_dataset stat_sample_clean xs)
      = ((xs.indexOf (stat_sample_min (stat_sample_add_dataset stat_sample_clean xs)) : Nat)
          : Int) := by
    rw [stat_sample_min_index, m2, stat_sample_min, toInt32_small _ (by omega)]
  refine ⟨m1, i1, hidx, fun j hj => indexOf_first _ _ j hj, ?_⟩
  rw [hidx, stat_sample_size, hsz, toInt32_small _ hlen]
  exact_mod_cast hlt

/-- C16 (amended) on the values `3, 1, 4, 1, 5`. -/
theorem min_tracking_witness :
    stat_sample_min (stat_sample_add_dataset stat_sample_clean [(3 : ℚ), 1, 4, 1, 5])
      ∈ [(3 : ℚ), 1, 4, 1, 5] ∧
    (∀ y ∈ [(3 : ℚ), 1, 4, 1, 5],
      stat_sample_min (stat_sample_add_dataset stat_sample_clean [(3 : ℚ), 1, 4, 1, 5]) ≤ y) ∧
    stat_sample_min_index (stat_sample_add_dataset stat_sample_clean [(3 : ℚ), 1, 4, 1, 5])
      = (([(3 : ℚ), 1, 4, 1, 5].indexOf
          (stat_sample_min (stat_sample_add_dataset stat_sample_clean [(3 : ℚ), 1, 4, 1, 5]))
            : Nat) : Int) ∧
    stat_sample_min_index (stat_sample_add_dataset stat_sample_clean [(3 : ℚ), 1, 4, 1, 5])
      < stat_sample_size (stat_sample_add_dataset stat_sample_clean [(3 : ℚ), 1, 4, 1, 5]) :=
  have h := min_tracking [(3 : ℚ), 1, 4, 1, 5] (by simp) (by norm_num)
    (by
      intro y hy
      have h5 : y ≤ 5 := by
        simp only [List.mem_cons, List.mem_singleton, List.not_mem_nil, or_false] at hy
        rcases hy with rfl | rfl | rfl | rfl | rfl <;> norm_num
      have hD : (5 : ℚ) < DBL_MAX := by unfold DBL_MAX; norm_num
      exact lt_of_le_of_lt h5 hD)
  ⟨h.1, h.2.1, h.2.2.1, h.2.2.2.2⟩

/-- C16 as stated fails for `2 ^ 31` values: after `2 ^ 31` ones `stat_sample_size` returns
the `int` `-2 ^ 31`, and the index `0` of the minimum is not smaller than that. -/
theorem min_index_not_below_size :
    stat_sample_size
        (stat_sample_add_dataset stat_sample_clean ((1 : ℚ) :: List.replicate (U32 / 2 - 1) 1))
      = -2147483648 ∧
    stat_sample_min_index
        (stat_sample_add_dataset stat_sample_clean ((1 : ℚ) :: List.replicate (U32 / 2 - 1) 1))
      = 0 ∧
    ((1 : ℚ) :: List.replicate (U32 / 2 - 1) 1).length = 2147483648 := by
  have hl : ((1 : ℚ) :: List.replicate (U32 / 2 - 1) 1).length = 2147483648 := by
    rw [List.length_cons, List.length_replicate]; unfold U32; norm_num
  have hU : ((1 : ℚ) :: List.replicate (U32 / 2 - 1) 1).length < U32 := by
    rw [hl]; unfold U32; norm_num
  have hsz := (add_dataset_clean_inv _ hU).1
  rw [hl] at hsz
  obtain ⟨-, -, i3, -⟩ := min_track _ hU
  have hD : (1 : ℚ) < DBL_MAX := by unfold DBL_MAX; norm_num
  obtain ⟨m1, m2⟩ := i3 ⟨1, List.mem_cons_self _ _, hD⟩
  have hmin : (stat_sample_add_dataset stat_sample_clean
      ((1 : ℚ) :: List.replicate (U32 / 2 - 1) 1)).min = 1 := by
    rcases List.mem_cons.mp m1 with h | h
    · exact h
    · exact List.eq_of_mem_replicate h
  rw [hmin, List.indexOf_cons_self] at m2
  refine ⟨?_, ?_, hl⟩
  · rw [stat_sample_size, hsz]
    simp [toInt32, U32]
  · rw [stat_sample_min_index, m2]
    simp [toInt32, U32]

/-! ## Theorems: order of insertion -/

/-- C17 (amended): for two sequences of fewer than `2 ^ 32` values that are permutations of
one another, adding each to a cleared sample yields the same size, the same classical and
Welford mean, the same classical and Welford variance, and the same minimum and maximum. -/
theorem order_independent (xs ys : List K) (hp : xs.Perm ys) (hlen : xs.length < U32) :
    (stat_sample_add_dataset stat_sample_clean xs).size
      = (stat_sample_add_dataset stat_sample_clean ys).size ∧
    stat_sample_size (stat_sample_add_dataset stat_sample_clean xs)
      = stat_sample_size (stat_sample_add_dataset stat_sample_clean ys) ∧
    stat_sample_mean (stat_sample_add_dataset stat_sample_clean xs)
      = stat_sample_mean (stat_sample_add_dataset stat_sample_clean ys) ∧
    stat_sample_mean_knuth (stat_sample_add_dataset stat_sample_clean xs)
      = stat_sample_mean_knuth (stat_sample_add_dataset stat_sample_clean ys) ∧
    stat_sample_var (stat_sample_add_dataset stat_sample_clean xs)
      = stat_sample_var (stat_sample_add_dataset stat_sample_clean ys) ∧
    stat_sample_var_knuth (stat_sample_add_dataset stat_sample_clean xs)
      = stat_sample_var_knuth (stat_sample_add_dataset stat_sample_clean ys) ∧
    stat_sample_min (stat_sample_add_dataset stat_sample_clean xs)
      = stat_sample_min (stat_sample_add_dataset stat_sample_clean ys) ∧
    stat_sample_max (stat_sample_add_dataset stat_sample_clean xs)
      = stat_sample_max (stat_sample_add_dataset stat_sample_clean ys) := by
  have hl : xs.length = ys.length := hp.length_eq
  have hleny : ys.length < U32 := by rw [← hl]; exact hlen
  obtain ⟨a1, a2, a3, a4, a5⟩ := add_dataset_clean_inv xs hlen
  obtain ⟨b1, b2, b3, b4, b5⟩ := add_dataset_clean_inv ys hleny
  have hsum : xs.sum = ys.sum := hp.sum_eq
  have hsq : (xs.map (fun x => x ^ 2)).sum = (ys.map (fun x => x ^ 2)).sum :=
    (hp.map _).sum_eq
  have hsize : (stat_sample_add_dataset stat_sample_clean xs).size
      = (stat_sample_add_dataset stat_sample_clean ys).size := by rw [a1, b1, hl]
  have hmem : ∀ y, y ∈ xs ↔ y ∈ ys := fun y => hp.mem_iff
  obtain ⟨p1, p2, p3, p4⟩ := max_track xs hlen
  obtain ⟨q1, q2, q3, q4⟩ := max_track ys hleny
  obtain ⟨r1, r2, r3, r4⟩ := min_track xs hlen
  obtain ⟨t1, t2, t3, t4⟩ := min_track ys hleny
  refine ⟨hsize, by rw [stat_sample_size, stat_sample_size, hsize],
    by rw [stat_sample_mean, stat_sample_mean, a1, a2, b1, b2, hl, hsum],
    by rw [stat_sample_mean_knuth, stat_sample_mean_knuth, a4, b4, hl, hsum],
    by rw [stat_sample_var, stat_sample_var, a1, a2, a3, b1, b2, b3, hl, hsum, hsq],
    by rw [stat_sample_var_knuth, stat_sample_var_knuth, a1, a5, b1, b5, hl, hsum, hsq], ?_, ?_⟩
  · rw [stat_sample_min, stat_sample_min]
    by_cases hT : ∃ y ∈ xs, y < DBL_MAX
    · have hT2 : ∃ y ∈ ys, y < DBL_MAX := by
        obtain ⟨y, hy, hlt⟩ := hT
        exact ⟨y, (hmem y).mp hy, hlt⟩
      have m1 := (r3 hT).1
      have m2 := (t3 hT2).1
      exact le_antisymm (r1 _ ((hmem _).mpr m2)) (t1 _ ((hmem _).mp m1))
    · have hall : ∀ y ∈ xs, DBL_MAX ≤ y := fun y hy => not_lt.mp (fun hlt => hT ⟨y, hy, hlt⟩)
      have hall2 : ∀ y ∈ ys, DBL_MAX ≤ y := fun y hy => hall y ((hmem y).mpr hy)
      rw [(r4 hall).1, (t4 hall2).1]
  · rw [stat_sample_max, stat_sample_max]
    by_cases hT : ∃ y ∈ xs, 0 < y
    · have hT2 : ∃ y ∈ ys, 0 < y := by
        obtain ⟨y, hy, hlt⟩ := hT
        exact ⟨y, (hmem y).mp hy, hlt⟩
      have m1 := (p3 hT).1
      have m2 := (q3 hT2).1
      exact le_antisymm (q1 _ ((hmem _).mp m1)) (p1 _ ((hmem _).mpr m2))
    · have hall : ∀ y ∈ xs, y ≤ 0 := fun y hy => not_lt.mp (fun hlt => hT ⟨y, hy, hlt⟩)
      have hall2 : ∀ y ∈ ys, y ≤ 0 := fun y hy => hall y ((hmem y).mpr hy)
      rw [(p4 hall).1, (q4 hall2).1]

/-- C17 (amended) on `2, 9, 4` and its permutation `4, 2, 9`. -/
theorem order_independent_witness :
    stat_sample_mean_knuth (stat_sample_add_dataset stat_sample_clean [(2 : ℚ), 9, 4])
      = stat_sample_mean_knuth (stat_sample_add_dataset stat_sample_clean [(4 : ℚ), 2, 9]) ∧
    stat_sample_var_knuth (stat_sample_add_dataset stat_sample_clean [(2 : ℚ), 9, 4])
      = stat_sample_var_knuth (stat_sample_add_dataset stat_sample_clean [(4 : ℚ), 2, 9]) ∧
    stat_sample_min (stat_sample_add_dataset stat_sample_clean [(2 : ℚ), 9, 4])
      = stat_sample_min (stat_sample_add_dataset stat_sample_clean [(4 : ℚ), 2, 9]) ∧
    stat_sample_max (stat_sample_add_dataset stat_sample_clean [(2 : ℚ), 9, 4])
      = stat_sample_max (stat_sample_add_dataset stat_sample_clean [(4 : ℚ), 2, 9]) :=
  have h := order_independent [(2 : ℚ), 9, 4] [(4 : ℚ), 2, 9]
    (List.perm_append_singleton (4 : ℚ) [2, 9]) (by simp [U32])
  ⟨h.2.2.2.1, h.2.2.2.2.2.1, h.2.2.2.2.2.2.1, h.2.2.2.2.2.2.2⟩

/-- C17 as stated fails once the 32-bit element counter wraps: `2 ^ 32 - 1` zeros followed
by a `1`, and a `1`, `2 ^ 32 - 2` zeros and a final `0`, are permutations of one another,
yet the Welford mean is `1` after the first and `0` after the second (the value added last
restarts it). -/
theorem order_matters_on_wrap :
    ((0 :: List.replicate (U32 - 2) (0 : ℚ)) ++ [1]).Perm
      ((1 :: List.replicate (U32 - 2) (0 : ℚ)) ++ [0]) ∧
    stat_sample_mean_knuth (stat_sample_add_dataset stat_sample_clean
      ((0 :: List.replicate (U32 - 2) (0 : ℚ)) ++ [1])) = 1 ∧
    stat_sample_mean_knuth (stat_sample_add_dataset stat_sample_clean
      ((1 :: List.replicate (U32 - 2) (0 : ℚ)) ++ [0])) = 0 := by
  have hU : U32 - 2 + 1 + 1 = 4294967296 := by unfold U32; norm_num
  have hl0 : ((0 : ℚ) :: List.replicate (U32 - 2) (0 : ℚ)).length < U32 := by
    rw [List.length_cons, List.length_replicate]; unfold U32; norm_num
  have hl1 : ((1 : ℚ) :: List.replicate (U32 - 2) (0 : ℚ)).length < U32 := by
    rw [List.length_cons, List.length_replicate]; unfold U32; norm_num
  have h0 := (add_dataset_clean_inv _ hl0).1
  have h1 := (add_dataset_clean_inv _ hl1).1
  rw [List.length_cons, List.length_replicate] at h0 h1
  refine ⟨?_, ?_, ?_⟩
  · have e1 : (0 :: List.replicate (U32 - 2) (0 : ℚ)) ++ [1]
        = 0 :: (List.replicate (U32 - 2) (0 : ℚ) ++ [1]) := rfl
    have e2 : (1 :: List.replicate (U32 - 2) (0 : ℚ)) ++ [0]
        = 1 :: (List.replicate (U32 - 2) (0 : ℚ) ++ [0]) := rfl
    rw [e1, e2]
    exact ((List.perm_append_singleton _ _).cons 0).trans
      ((List.Perm.swap 1 0 _).trans ((List.perm_append_singleton _ _).symm.cons 1))
  · rw [add_dataset_snoc, stat_sample_mean_knuth]
    exact add_knuth_mean_wrap _ _ (by rw [h0, hU]; unfold U32; norm_num)
  · rw [add_dataset_snoc, stat_sample_mean_knuth]
    exact add_knuth_mean_wrap _ _ (by rw [h1, hU]; unfold U32; norm_num)

/-! ## Theorems: outlier trimming -/

/-- The truncated percentage `size / 100.0 * p` of a non-negative `p` is `⌊size * p / 100⌋`. -/
theorem truncInt_pct [FloorRing K] (n p : Nat) :
    truncInt ((n : K) / 100 * (((p : Nat) : Int) : K)) = ((n * p / 100 : Nat) : Int) := by
  have hx : (n : K) / 100 * (((p : Nat) : Int) : K) = ((n * p : Nat) : K) / ((100 : Nat) : K) := by
    push_cast; ring
  have h0 : (0 : K) ≤ ((n * p : Nat) : K) / ((100 : Nat) : K) := by positivity
  rw [hx, truncInt, if_pos h0, ← Int.natCast_floor_eq_floor h0, Nat.floor_div_eq_div]

/-- The compaction loop, when every index it reads is inside the array: position `j` of the
`k` positions from `i` on receives the element that was at `j + m`; nothing else changes. -/
theorem outliers_copy_spec (m k i : Nat) (data : List K) (h : i + k + m ≤ data.length) :
    ∃ res, outliers_copy (m : Int) k i data = some res ∧ res.length = data.length ∧
      (∀ j, j < i → res[j]? = data[j]?) ∧
      (∀ j, i ≤ j → j < i + k → res[j]? = data[j + m]?) ∧
      (∀ j, i + k ≤ j → res[j]? = data[j]?) := by
  induction k generalizing i data with
  | zero =>
    exact ⟨data, rfl, rfl, fun _ _ => rfl, fun j h1 h2 => absurd h2 (by omega), fun _ _ => rfl⟩
  | succ k ih =>
    have hidx : i + m < data.length := by omega
    have hi : i < data.length := by omega
    have hnn : (0 : Int) ≤ (i : Int) + (m : Int) := by omega
    have htn : ((i : Int) + (m : Int)).toNat = i + m := by omega
    have hget : data[i + m]? = some (data[i + m]) := List.getElem?_eq_getElem hidx
    obtain ⟨res, r1, r2, r3, r4, r5⟩ := ih (i + 1) (data.set i (data[i + m]))
      (by rw [List.length_set]; omega)
    refine ⟨res, ?_, by rw [r2, List.length_set], ?_, ?_, ?_⟩
    · simp only [outliers_copy, if_pos hnn, htn, hget, if_pos hi, r1]
    · intro j hj
      rw [r3 j (by omega), List.getElem?_set_ne (by omega)]
    · intro j h1 h2
      rcases Nat.eq_or_lt_of_le h1 with he | hl
      · subst he
        rw [r3 i (by omega), List.getElem?_set_self hi, hget]
      · rw [r4 j (by omega) (by omega), List.getElem?_set_ne (by omega)]
    · intro j hj
      rw [r5 j (by omega), List.getElem?_set_ne (by omega)]

/-- In IEEE binary64 the percentage `58 / 100.0 * 50` evaluates below `29`: the double
nearest to `58 / 100` is `a = 5224175567749775 / 2 ^ 53` (within half a unit in the last
place of the binade `[1/2, 1)`), the double nearest to `a * 50` is
`b = 8162774324609023 / 2 ^ 48 = 29 - 2 ^ (-48)` (within half a unit in the last place of the
binade `[16, 32)`), and `b` truncates to `28`, whereas `⌊58 * 50 / 100⌋ = 29`. -/
theorem pct_binary64_58_50 :
    |(58 : ℚ) / 100 - 5224175567749775 / 2 ^ 53| < 1 / 2 ^ 54 ∧
    (1 : ℚ) / 2 ≤ 5224175567749775 / 2 ^ 53 ∧ (5224175567749775 : ℚ) / 2 ^ 53 < 1 ∧
    |(5224175567749775 : ℚ) / 2 ^ 53 * 50 - 8162774324609023 / 2 ^ 48| < 1 / 2 ^ 49 ∧
    (16 : ℚ) ≤ 8162774324609023 / 2 ^ 48 ∧ (8162774324609023 : ℚ) / 2 ^ 48 < 32 ∧
    truncInt ((8162774324609023 : ℚ) / 2 ^ 48) = 28 ∧
    58 * 50 / 100 = 29 := by
  refine ⟨?_, by norm_num, by norm_num, ?_, by norm_num, by norm_num, ?_, by norm_num⟩
  · rw [abs_lt]; constructor <;> norm_num
  · rw [abs_lt]; constructor <;> norm_num
  · rw [truncInt, if_pos (by norm_num), Int.floor_eq_iff]
    constructor <;> norm_num

/-- The value returned by the loop of `measure_tsc_overhead_stabilized` is the running
minimum over the deltas of the valid pairs it has read. -/
theorem measure_tsc_overhead_stabilized_loop_value (stream : Stream) (i nc m r : Nat)
    (rest : Stream) (h : measure_tsc_overhead_stabilized_loop i nc m stream = some (r, rest)) :
    ∃ pre, stream = pre ++ rest ∧ r = runMin m (validTicks pre) := by
  induction stream generalizing i nc m with
  | nil =>
    by_cases hi : i < NMEASURES_MAX ∧ nc < NOTCHANGED_THRESHOLD
    · simp only [measure_tsc_overhead_stabilized_loop, if_pos hi] at h
      exact absurd h (by simp)
    · rw [stab_stop _ _ _ _ hi] at h
      simp only [Option.some.injEq, Prod.mk.injEq] at h
      exact ⟨[], by rw [← h.2]; rfl, by rw [← h.1]; rfl⟩
  | cons p tl ih =>
    obtain ⟨t0, t1⟩ := p
    by_cases hi : i < NMEASURES_MAX ∧ nc < NOTCHANGED_THRESHOLD
    · by_cases hv : t0 < t1
      · by_cases hl : sub64 t1 t0 < m
        · rw [stab_step_lower _ _ _ _ _ _ hi hv hl] at h
          obtain ⟨pre, h1, h2⟩ := ih _ _ _ h
          exact ⟨(t0, t1) :: pre, by rw [h1, List.cons_append],
            by rw [validTicks_cons_valid _ _ _ hv, runMin_cons, if_pos hl]; exact h2⟩
        · rw [stab_step_keep _ _ _ _ _ _ hi hv hl] at h
          obtain ⟨pre, h1, h2⟩ := ih _ _ _ h
          exact ⟨(t0, t1) :: pre, by rw [h1, List.cons_append],
            by rw [validTicks_cons_valid _ _ _ hv, runMin_cons, if_neg hl]; exact h2⟩
      · rw [stab_step_skip _ _ _ _ _ _ hi hv] at h
        obtain ⟨pre, h1, h2⟩ := ih _ _ _ h
        exact ⟨(t0, t1) :: pre, by rw [h1, List.cons_append],
          by rw [validTicks_cons_invalid _ _ _ hv]; exact h2⟩
    · rw [stab_stop _ _ _ _ hi] at h
      simp only [Option.some.injEq, Prod.mk.injEq] at h
      exact ⟨[], by rw [← h.2]; rfl, by rw [← h.1]; rfl⟩

/-! ## Theorems: the textbook data set -/

theorem textbook_fields :
    (stat_sample_add_dataset stat_sample_clean (textbookData : List K)).size = 8 ∧
    (stat_sample_add_dataset stat_sample_clean (textbookData : List K)).sum = 40 ∧
    (stat_sample_add_dataset stat_sample_clean (textbookData : List K)).sum_pow2 = 232 ∧
    (stat_sample_add_dataset stat_sample_clean (textbookData : List K)).knuth_mean = 5 ∧
    (stat_sample_add_dataset stat_sample_clean (textbookData : List K)).knuth_var = 32 := by
  obtain ⟨h1, h2, h3, h4, h5⟩ := add_dataset_clean_inv (textbookData : List K)
    (by simp [textbookData, U32])
  rw [h1, h2, h3, h4, h5]
  simp only [textbookData, List.length_cons, List.length_nil, List.sum_cons, List.sum_nil,
    List.map_cons, List.map_nil]
  norm_num

/-- C22: after adding `2, 4, 4, 4, 5, 5, 7, 9` in this order to a cleared sample, both means
are `5`, both variances are `32 / 7`, and both standard deviations are the square root of
`32 / 7`; with the real square root that is `2.1381` to four decimal places. -/
theorem textbook_dataset :
    (∀ sqrt : K → K,
      stat_sample_mean (stat_sample_add_dataset stat_sample_clean (textbookData : List K)) = 5 ∧
      stat_sample_mean_knuth
        (stat_sample_add_dataset stat_sample_clean (textbookData : List K)) = 5 ∧
      stat_sample_var
        (stat_sample_add_dataset stat_sample_clean (textbookData : List K)) = 32 / 7 ∧
      stat_sample_var_knuth
        (stat_sample_add_dataset stat_sample_clean (textbookData : List K)) = 32 / 7 ∧
      stat_sample_stddev sqrt
        (stat_sample_add_dataset stat_sample_clean (textbookData : List K)) = sqrt (32 / 7) ∧
      stat_sample_stddev_knuth sqrt
        (stat_sample_add_dataset stat_sample_clean (textbookData : List K)) = sqrt (32 / 7)) ∧
    |stat_sample_stddev Real.sqrt
        (stat_sample_add_dataset stat_sample_clean (textbookData : List ℝ)) - 2.1381| < 0.0001 ∧
    |stat_sample_stddev_knuth Real.sqrt
        (stat_sample_add_dataset stat_sample_clean (textbookData : List ℝ)) - 2.1381| < 0.0001 := by
  have hv : ∀ (F : Type) [LinearOrderedField F],
      stat_sample_var (stat_sample_add_dataset stat_sample_clean (textbookData : List F))
        = 32 / 7 := by
    intro F _
    obtain ⟨h1, h2, h3, -, -⟩ := textbook_fields (K := F)
    rw [stat_sample_var, h1, h2, h3, if_pos (by norm_num)]
    norm_num
  have hk : ∀ (F : Type) [LinearOrderedField F],
      stat_sample_var_knuth (stat_sample_add_dataset stat_sample_clean (textbookData : List F))
        = 32 / 7 := by
    intro F _
    obtain ⟨h1, -, -, -, h5⟩ := textbook_fields (K := F)
    rw [stat_sample_var_knuth, h1, h5, if_pos (by norm_num)]
    norm_num
  have hsq : |Real.sqrt (32 / 7) - 2.1381| < 0.0001 := by
    rw [abs_lt]
    constructor
    · have : (2.1380 : ℝ) < Real.sqrt (32 / 7) := by
        rw [Real.lt_sqrt (by norm_num)]
        norm_num
      linarith
    · have : Real.sqrt (32 / 7) < (2.1382 : ℝ) := by
        rw [Real.sqrt_lt' (by norm_num)]
        norm_num
      linarith
  refine ⟨fun sqrt => ⟨?_, ?_, hv K, hk K, ?_, ?_⟩, ?_, ?_⟩
  · obtain ⟨h1, h2, -, -, -⟩ := textbook_fields (K := K)
    rw [stat_sample_mean, h1, h2, if_pos (by norm_num)]
    norm_num
  · exact textbook_fields.2.2.2.1
  · rw [stat_sample_stddev, hv K]
  · rw [stat_sample_stddev_knuth, hk K]
  · rw [stat_sample_stddev, hv ℝ]; exact hsq
  · rw [stat_sample_stddev_knuth, hk ℝ]; exact hsq

/-! ## Theorems: what the final sample holds -/

/-- The pairs read by one pass through the loop body: they hold exactly `nruns` accepted
values, and the sample left behind holds these values, in order, and nothing else. -/
theorem bench_body_pairs (ov : Nat) (st st1 : bench_state K) (h : bench_body ov st = some st1) :
    ∃ pre, st.rest = pre ++ st1.rest ∧ (acceptedTicks ov pre).length = st.nruns ∧
      st1.stat = stat_sample_add_dataset stat_sample_clean
        ((acceptedTicks ov pre).map (fun (v : Nat) => (v : K))) := by
  obtain ⟨-, hstat, -, -, -⟩ := bench_body_spec ov st st1 h
  unfold bench_body at h
  cases hb : bench_batch ov st.nruns 0 (stat_sample_clean : stat_sample K) st.calls st.rest with
  | none => rw [hb] at h; exact absurd h (by simp)
  | some res =>
    obtain ⟨stat, calls, rest⟩ := res
    rw [hb] at h
    simp only [Option.some.injEq] at h
    obtain ⟨pre, hpre, hc⟩ := bench_batch_consumed_count ov st.nruns st.rest 0 _ _ _ _ _ hb
    have hrest : st1.rest = rest := by rw [← h]
    rw [Nat.sub_zero] at hc
    refine ⟨pre, by rw [hrest]; exact hpre, hc, ?_⟩
    rw [hstat, hpre, acceptedTicks_append, List.take_left' hc]

/-- Along the loop the unread stream is a suffix of the initial one, and the pairs read so
far hold exactly the values collected so far. -/
theorem bench_head_pairs (sqrt : K → K) (ov : Nat) (s0 st : bench_state K)
    (h0t : s0.total = 0) (h : BenchHead sqrt ov s0 st) :
    ∃ earlier, s0.rest = earlier ++ st.rest ∧ (acceptedTicks ov earlier).length = st.total := by
  induction h with
  | start => exact ⟨[], by simp, by simp [acceptedTicks, h0t]⟩
  | next st st1 _ hbody _ ih =>
    obtain ⟨earlier, he, hl⟩ := ih
    obtain ⟨pre, hpre, hc, -⟩ := bench_body_pairs ov st st1 hbody
    obtain ⟨-, -, -, ht1, -⟩ := bench_body_spec ov st st1 hbody
    refine ⟨earlier ++ pre, by rw [he, hpre, List.append_assoc], ?_⟩
    rw [acceptedTicks_append, List.length_append, hl, hc, ht1]

/-- C24: when `run_benchmark` finishes after growth step `k`, the stream after calibration
splits into the pair of the first run, the pairs read by the earlier batches, the pairs read
by the last batch and the unread rest; the final sample is the cleared sample to which exactly
the `100 * 4 ^ k` values accepted from the pairs of the last batch were added, in order, and
the reported run count `stat_sample_size` is `100 * 4 ^ k`. -/
theorem last_batch_only (sqrt : K → K) (fuel : Nat) (stream : Stream) (r : bench_report K)
    (h : run_benchmark sqrt fuel stream = some r) :
    ∃ k first earlier last, k ≤ 7 ∧
      measure_tsc_overhead stream
        = some (r.overhead, first :: (earlier ++ (last ++ r.final.rest))) ∧
      r.firstrun = normolize_ticks first.1 first.2 r.overhead ∧
      3 * (acceptedTicks r.overhead earlier).length + 100 = 100 * 4 ^ k ∧
      (acceptedTicks r.overhead last).length = 100 * 4 ^ k ∧
      r.final.stat = stat_sample_add_dataset stat_sample_clean
        ((acceptedTicks r.overhead last).map (fun (v : Nat) => (v : K))) ∧
      stat_sample_size r.final.stat = ((100 * 4 ^ k : Nat) : Int) := by
  unfold run_benchmark at h
  cases hcal : measure_tsc_overhead stream with
  | none => rw [hcal] at h; exact absurd h (by simp)
  | some res =>
    obtain ⟨o, cal⟩ := res
    rw [hcal] at h
    cases cal with
    | nil => exact absurd h (by simp)
    | cons q tl =>
      obtain ⟨t0, t1⟩ := q
      simp only at h
      cases hl : bench_loop sqrt o fuel
          { stat := stat_sample_clean, nruns := NRUNS_MIN, calls := 1, total := 0, rest := tl } with
      | none => rw [hl] at h; exact absurd h (by simp)
      | some fin =>
        rw [hl] at h
        simp only [Option.some.injEq] at h
        subst h
        obtain ⟨prev, hprev, hbody, -⟩ := bench_loop_last sqrt o _ fuel _ fin BenchHead.start hl
        obtain ⟨k, hk, hn, ht⟩ := bench_head_inv sqrt o _ prev rfl rfl hprev
        obtain ⟨earlier, he, hel⟩ := bench_head_pairs sqrt o _ prev rfl hprev
        obtain ⟨last, hlast, hll, hstat⟩ := bench_body_pairs o prev fin hbody
        have hpow : 4 ^ k ≤ 4 ^ 7 := Nat.pow_le_pow_right (by norm_num) hk
        have hp7 : (4 : Nat) ^ 7 = 16384 := by norm_num
        have hsz := bench_body_size o prev fin hbody (by rw [hn]; omega)
        simp only at he
        refine ⟨k, (t0, t1), earlier, last, hk, ?_, rfl, ?_, ?_, hstat, ?_⟩
        · simp only [he, hlast]
        · simp only [hel]; exact ht
        · simp only [hll, hn]
        · rw [hsz, hn]

/-- C24 on the session on `skewStream`, which runs all eight batches. -/
theorem last_batch_only_witness :
    ∃ k first earlier last, k ≤ 7 ∧
      measure_tsc_overhead skewStream
        = some ((skewReport : bench_report ℝ).overhead,
            first :: (earlier ++ (last ++ (skewReport : bench_report ℝ).final.rest))) ∧
      (skewReport : bench_report ℝ).firstrun
        = normolize_ticks first.1 first.2 (skewReport : bench_report ℝ).overhead ∧
      3 * (acceptedTicks (skewReport : bench_report ℝ).overhead earlier).length + 100
        = 100 * 4 ^ k ∧
      (acceptedTicks (skewReport : bench_report ℝ).overhead last).length = 100 * 4 ^ k ∧
      (skewReport : bench_report ℝ).final.stat = stat_sample_add_dataset stat_sample_clean
        ((acceptedTicks (skewReport : bench_report ℝ).overhead last).map
          (fun (v : Nat) => (v : ℝ))) ∧
      stat_sample_size (skewReport : bench_report ℝ).final.stat = ((100 * 4 ^ k : Nat) : Int) :=
  last_batch_only Real.sqrt 8 skewStream skewReport skew_run

/-! ## Theorems: bounded growth of the batches -/

/-- After a completed batch of `measure_tsc_overhead_rse` of fewer than `2 ^ 31` runs,
`stat_sample_size` is `nruns`. -/
theorem rse_batch_size (n : Nat) (stream rest : Stream) (stat : stat_sample K)
    (h : rse_batch n 0 (stat_sample_clean : stat_sample K) stream = some (stat, rest))
    (hn : n < 2 ^ 31) : stat_sample_size stat = (n : Int) := by
  have hfst := rse_batch_fst (K := K) n stream 0 stat_sample_clean
  rw [h, Nat.sub_zero] at hfst
  by_cases hlen : n ≤ (validTicks stream).length
  · rw [if_pos hlen] at hfst
    simp only [Option.map_some', Option.some.injEq] at hfst
    have hl : (((validTicks stream).take n).map (fun (v : Nat) => (v : K))).length = n := by
      rw [List.length_map, List.length_take]; omega
    have := (add_dataset_clean_inv
      (((validTicks stream).take n).map (fun (v : Nat) => (v : K)))
      (by rw [hl]; unfold U32; omega)).1
    rw [stat_sample_size, hfst, this, hl, toInt32_small _ hn]
  · rw [if_neg hlen] at hfst
    exact absurd hfst (by simp)

/-- The loop condition admits another batch only after a batch of at most 409,600 runs. -/
theorem continue_bound (sqrt : K → K) (stat : stat_sample K) (k : Nat) (hk : k ≤ 7)
    (hsz : stat_sample_size stat = ((100 * 4 ^ k : Nat) : Int))
    (hc : bench_continue sqrt stat = true) : k ≤ 6 := by
  simp only [bench_continue, Bool.and_eq_true, decide_eq_true_eq] at hc
  have hlt := hc.1
  rw [hsz, NRUNS_MAX] at hlt
  have hlt1 : 100 * 4 ^ k < 1000000 := by exact_mod_cast hlt
  by_contra hcon
  have : k = 7 := by omega
  subst this
  norm_num at hlt1

/-- Loop invariant of `measure_tsc_overhead_rse`: the batch about to start is growth step `k`
for some `k ≤ 7`, with `nruns = 100 * 4 ^ k`. -/
theorem rse_head_inv (sqrt : K → K) (s0 : Stream) (n : Nat) (s : Stream)
    (h : RseHead sqrt s0 n s) : ∃ k, k ≤ 7 ∧ n = 100 * 4 ^ k := by
  induction h with
  | start => exact ⟨0, by norm_num, rfl⟩
  | next n s rest stat _ hb hc ih =>
    obtain ⟨k, hk, hn⟩ := ih
    have hpow : 4 ^ k ≤ 4 ^ 7 := Nat.pow_le_pow_right (by norm_num) hk
    have hsz := rse_batch_size n s rest stat hb (by rw [hn]; norm_num at hpow ⊢; omega)
    have hk6 := continue_bound sqrt stat k hk (by rw [hsz, hn]) hc
    exact ⟨k + 1, by omega, by rw [hn, pow_succ]; ring⟩

/-- When every batch completes, the loop of `measure_tsc_overhead_rse` ends within the
batches that the growth steps still allow. -/
theorem rse_loop_total (sqrt : K → K) (s0 : Stream)
    (hall : ∀ n s, RseHead sqrt s0 n s →
      rse_batch n 0 (stat_sample_clean : stat_sample K) s ≠ none)
    (fuel k n : Nat) (s : Stream) (hk : k ≤ 7) (hn : n = 100 * 4 ^ k) (hf : 8 ≤ fuel + k)
    (hhead : RseHead sqrt s0 n s) :
    ∃ r, rse_loop sqrt fuel n s = some r ∧ r.2.1 ≤ 6553600 := by
  induction fuel generalizing k n s with
  | zero => omega
  | succ f ih =>
    cases hb : rse_batch n 0 (stat_sample_clean : stat_sample K) s with
    | none => exact absurd hb (hall n s hhead)
    | some res =>
      obtain ⟨stat, rest⟩ := res
      have hpow : 4 ^ k ≤ 4 ^ 7 := Nat.pow_le_pow_right (by norm_num) hk
      have hp7 : (4 : Nat) ^ 7 = 16384 := by norm_num
      simp only [rse_loop, hb]
      by_cases hc : bench_continue sqrt stat = true
      · rw [if_pos hc]
        have hsz := rse_batch_size n s rest stat hb (by rw [hn]; omega)
        have hk6 := continue_bound sqrt stat k hk (by rw [hsz, hn]) hc
        exact ih (k + 1) (n * 4) rest (by omega) (by rw [hn, pow_succ]; ring) (by omega)
          (RseHead.next n s rest stat hhead hb hc)
      · rw [if_neg hc]
        exact ⟨_, rfl, by simp only; omega⟩

/-- When every batch completes, the loop of `run_benchmark` ends within the batches that the
growth steps still allow. -/
theorem bench_loop_total (sqrt : K → K) (ov : Nat) (s0 : bench_state K)
    (hall : ∀ st, BenchHead sqrt ov s0 st → bench_body ov st ≠ none)
    (fuel k : Nat) (st : bench_state K) (hk : k ≤ 7) (hn : st.nruns = 100 * 4 ^ k)
    (hf : 8 ≤ fuel + k) (hhead : BenchHead sqrt ov s0 st) :
    ∃ r, bench_loop sqrt ov fuel st = some r ∧ r.nruns ≤ 6553600 := by
  induction fuel generalizing k st with
  | zero => omega
  | succ f ih =>
    cases hb : bench_body ov st with
    | none => exact absurd hb (hall st hhead)
    | some st1 =>
      have hpow : 4 ^ k ≤ 4 ^ 7 := Nat.pow_le_pow_right (by norm_num) hk
      have hp7 : (4 : Nat) ^ 7 = 16384 := by norm_num
      obtain ⟨-, -, hn1, -, -⟩ := bench_body_spec ov st st1 hb
      simp only [bench_loop, hb]
      by_cases hc : bench_continue sqrt st1.stat = true
      · rw [if_pos hc]
        have hsz := bench_body_size ov st st1 hb (by rw [hn]; omega)
        have hk6 := continue_bound sqrt st1.stat k hk (by rw [hsz, hn]) hc
        exact ih (k + 1) st1 (by omega) (by rw [hn1, hn, pow_succ]; ring) (by omega)
          (BenchHead.next st st1 hhead hb hc)
      · rw [if_neg hc]
        exact ⟨st1, rfl, by rw [hn1, hn]; omega⟩

/-- In a session whose pairs after calibration all have the delta `d`, above the overhead
`o`, the loop of `run_benchmark` starts one batch only. -/
theorem fixed_delta_head (sqrt : K → K) (hsqrt : sqrt 0 = 0) (o d c t : Nat)
    (st0 : stat_sample K) (rest : Stream) (hd : o < d) (hwf : Readings64 rest)
    (hfix : ∀ p ∈ rest, p.2 = p.1 + d) (hlen : 100 ≤ rest.length) (st : bench_state K)
    (h : BenchHead sqrt o { stat := st0, nruns := 100, calls := c, total := t, rest := rest } st) :
    st = { stat := st0, nruns := 100, calls := c, total := t, rest := rest } := by
  induction h with
  | start => rfl
  | next st st1 _ hbody hcont ih =>
    subst ih
    have hb := fixed_delta_batch (K := K) o d rest c hd hwf hfix hlen
    have hrse := const_sample_rse sqrt hsqrt 100 ((d - o : Nat) : K) (by unfold U32; norm_num)
    have h5 : ¬ ((0 : K) > RSE_MAX) := by unfold RSE_MAX; norm_num
    have hc : bench_continue sqrt (stat_sample_add_dataset (stat_sample_clean : stat_sample K)
        (List.replicate 100 ((d - o : Nat) : K))) = false := by
      rw [bench_continue, hrse]
      simp only [h5, decide_False, Bool.and_false]
    simp only [bench_body, hb, Option.some.injEq] at hbody
    rw [← hbody] at hcont
    simp only at hcont
    rw [hc] at hcont
    exact absurd hcont (by simp)

theorem validTicks_replicate (n a b : Nat) (h : a < b) :
    validTicks (List.replicate n (a, b)) = List.replicate n (sub64 b a) := by
  induction n with
  | zero => rfl
  | succ n ih => rw [List.replicate_succ, validTicks_cons_valid _ _ _ h, ih, List.replicate_succ]

/-- On a stream of pairs of one fixed delta, the loop of `measure_tsc_overhead_rse` starts one
batch only. -/
theorem fixed_delta_rse_head (sqrt : K → K) (hsqrt : sqrt 0 = 0) (m a b : Nat) (h : a < b)
    (hm : 100 ≤ m) (n : Nat) (s : Stream)
    (hh : RseHead sqrt (List.replicate m (a, b)) n s) :
    n = 100 ∧ s = List.replicate m (a, b) := by
  induction hh with
  | start => exact ⟨rfl, rfl⟩
  | next n s rest stat _ hb hc ih =>
    obtain ⟨rfl, rfl⟩ := ih
    have hfst := rse_batch_fst (K := K) 100 (List.replicate m (a, b)) 0 stat_sample_clean
    rw [hb, Nat.sub_zero, validTicks_replicate _ _ _ h,
      if_pos (by rw [List.length_replicate]; exact hm), List.take_replicate,
      Nat.min_eq_left hm, List.map_replicate] at hfst
    simp only [Option.map_some', Option.some.injEq] at hfst
    have hrse := const_sample_rse sqrt hsqrt 100 ((sub64 b a : Nat) : K) (by unfold U32; norm_num)
    have h5 : ¬ ((0 : K) > RSE_MAX) := by unfold RSE_MAX; norm_num
    rw [hfst, bench_continue, hrse] at hc
    simp only [h5, decide_False, Bool.and_false] at hc
    exact absurd hc (by simp)

/-- C25: in `run_benchmark` and in `measure_tsc_overhead_rse` every batch starts with
`nruns = 100 * 4 ^ k` for some `k ≤ 7` (so at most eight batches, of the sizes 100, 400, ...,
1,638,400, are started); the product `nruns * 4` is at most 6,553,600 and is the same number
as a 32-bit signed integer; and on a stream on which each batch completes, eight batches of
fuel give both functions their result. -/
theorem bounded_growth [FloorRing K] (sqrt : K → K) (stream rest warm : Stream) (ov : Nat)
    (first : Nat × Nat) (hcal : measure_tsc_overhead stream = some (ov, first :: rest)) :
    (∀ st, BenchHead sqrt ov
        { stat := stat_sample_clean, nruns := NRUNS_MIN, calls := 1, total := 0, rest := rest }
        st →
      ∃ k, k ≤ 7 ∧ st.nruns = 100 * 4 ^ k ∧ st.nruns * 4 ≤ 6553600 ∧
        toInt32 (st.nruns * 4) = ((st.nruns * 4 : Nat) : Int)) ∧
    ((∀ st, BenchHead sqrt ov
        { stat := stat_sample_clean, nruns := NRUNS_MIN, calls := 1, total := 0, rest := rest }
        st → bench_body ov st ≠ none) →
      ∃ r, run_benchmark sqrt 8 stream = some r ∧ r.final.nruns ≤ 6553600) ∧
    (∀ n s, RseHead sqrt (warm.drop 10) n s →
      ∃ k, k ≤ 7 ∧ n = 100 * 4 ^ k ∧ n * 4 ≤ 6553600 ∧
        toInt32 (n * 4) = ((n * 4 : Nat) : Int)) ∧
    (10 ≤ warm.length →
      (∀ n s, RseHead sqrt (warm.drop 10) n s →
        rse_batch n 0 (stat_sample_clean : stat_sample K) s ≠ none) →
      ∃ v, measure_tsc_overhead_rse sqrt 8 warm = some v) := by
  have hp7 : (4 : Nat) ^ 7 = 16384 := by norm_num
  refine ⟨?_, ?_, ?_, ?_⟩
  · intro st hst
    obtain ⟨k, hk, hn, -⟩ := bench_head_inv sqrt ov _ st rfl rfl hst
    have hpow : 4 ^ k ≤ 4 ^ 7 := Nat.pow_le_pow_right (by norm_num) hk
    exact ⟨k, hk, hn, by omega, toInt32_small _ (by omega)⟩
  · intro hall
    obtain ⟨r, hr, hn⟩ := bench_loop_total sqrt ov _ hall 8 0 _ (by norm_num) rfl (by norm_num)
      BenchHead.start
    exact ⟨_, run_benchmark_eq sqrt 8 stream rest ov first.1 first.2 r hcal hr, hn⟩
  · intro n s hh
    obtain ⟨k, hk, hn⟩ := rse_head_inv sqrt _ n s hh
    have hpow : 4 ^ k ≤ 4 ^ 7 := Nat.pow_le_pow_right (by norm_num) hk
    exact ⟨k, hk, hn, by omega, toInt32_small _ (by omega)⟩
  · intro hlen hall
    obtain ⟨⟨stat, n, rest1⟩, hr, -⟩ := rse_loop_total sqrt _ hall 8 0 _ _ (by norm_num) rfl
      (by norm_num) RseHead.start
    have hr1 : rse_loop sqrt 8 NRUNS_MIN (warm.drop 10) = some (stat, n, rest1) := hr
    simp only [measure_tsc_overhead_rse, if_neg (not_lt.mpr hlen), hr1]
    exact ⟨_, rfl⟩


set_option maxRecDepth 100000 in
/-- C25 on `steadyStream` (calibration) and on 110 pairs of delta 7 (the RSE-driven
calibration), over the reals with `Real.sqrt`: each batch completes and both functions return
a result. -/
theorem bounded_growth_witness :
    (∃ r, run_benchmark Real.sqrt 8 steadyStream = some r ∧ r.final.nruns ≤ 6553600) ∧
    (∃ v, measure_tsc_overhead_rse Real.sqrt 8 (List.replicate 110 (100, 107)) = some v) := by
  have hwf : Readings64 (List.replicate 100 (100, 107)) := by
    intro p hp; rw [List.eq_of_mem_replicate hp]; unfold U64; constructor <;> norm_num
  have hfix : ∀ p ∈ List.replicate 100 (100, 107), p.2 = p.1 + 7 := by
    intro p hp; rw [List.eq_of_mem_replicate hp]
  have hdrop : (List.replicate 110 ((100, 107) : Nat × Nat)).drop 10
      = List.replicate 100 (100, 107) := by
    rw [List.drop_replicate]
  have h := bounded_growth Real.sqrt steadyStream (List.replicate 100 (100, 107))
    (List.replicate 110 (100, 107)) 3 (100, 107) (by decide)
  refine ⟨h.2.1 ?_, h.2.2.2 (by simp) ?_⟩
  · intro st hst
    rw [fixed_delta_head Real.sqrt Real.sqrt_zero 3 7 1 0 stat_sample_clean _ (by norm_num)
      hwf hfix (by simp) st hst]
    simp only [bench_body, fixed_delta_batch (K := ℝ) 3 7 _ 1 (by norm_num) hwf hfix (by simp)]
    simp
  · intro n s hh
    rw [hdrop] at hh
    obtain ⟨rfl, rfl⟩ := fixed_delta_rse_head Real.sqrt Real.sqrt_zero 100 100 107
      (by norm_num) (le_refl _) n s hh
    intro hnone
    have hfst := rse_batch_fst (K := ℝ) 100 (List.replicate 100 (100, 107)) 0 stat_sample_clean
    rw [hnone, validTicks_replicate _ _ _ (by norm_num),
      if_pos (by rw [List.length_replicate])] at hfst
    exact absurd hfst (by simp)

/-! ## Theorems: the values of a batch -/

/-- Every value that a batch accepts comes from a pair that passed both guards. -/
theorem acceptedTicks_mem (ov v : Nat) (stream : Stream) (h : v ∈ acceptedTicks ov stream) :
    ∃ p ∈ stream, p.1 < p.2 ∧ ov < sub64 p.2 p.1 ∧ v = sub64 (sub64 p.2 p.1) ov := by
  unfold acceptedTicks at h
  obtain ⟨p, hp, hv⟩ := List.mem_filterMap.mp h
  by_cases hc : p.2 > p.1 ∧ sub64 p.2 p.1 > ov
  · rw [if_pos hc] at hv
    simp only [Option.some.injEq] at hv
    exact ⟨p, hp, hc.1, hc.2, hv.symm⟩
  · rw [if_neg hc] at hv
    exact absurd hv (by simp)

/-- A list of values that are all at least `1` sums to at least its length. -/
theorem length_le_sum (xs : List K) (h : ∀ x ∈ xs, 1 ≤ x) : (xs.length : K) ≤ xs.sum := by
  induction xs with
  | nil => simp
  | cons x xs ih =>
    have h1 := h x (List.mem_cons_self _ _)
    have h2 := ih (fun y hy => h y (List.mem_cons_of_mem _ hy))
    rw [List.length_cons, List.sum_cons]
    push_cast
    linarith

/-- A sample of at least two and fewer than `2 ^ 32` values that are all at least `1` has its
minimum and both means at least `1`. -/
theorem sample_ge_one (xs : List K) (h : ∀ x ∈ xs, 1 ≤ x) (h2 : 2 ≤ xs.length)
    (hlen : xs.length < U32) :
    1 ≤ stat_sample_min (stat_sample_add_dataset stat_sample_clean xs) ∧
    1 ≤ stat_sample_mean (stat_sample_add_dataset stat_sample_clean xs) ∧
    1 ≤ stat_sample_mean_knuth (stat_sample_add_dataset stat_sample_clean xs) := by
  obtain ⟨h1, hs, -, hm, -⟩ := add_dataset_clean_inv xs hlen
  obtain ⟨-, -, i3, i4⟩ := min_track xs hlen
  have hsum := length_le_sum xs h
  have hpos : (0 : K) < (xs.length : K) := by exact_mod_cast (by omega : 0 < xs.length)
  refine ⟨?_, ?_, ?_⟩
  · rw [stat_sample_min]
    by_cases hc : ∃ y ∈ xs, y < DBL_MAX
    · exact h _ (i3 hc).1
    · have hall : ∀ y ∈ xs, DBL_MAX ≤ y := fun y hy => not_lt.mp (fun hlt => hc ⟨y, hy, hlt⟩)
      rw [(i4 hall).1]
      unfold DBL_MAX
      norm_num
  · rw [stat_sample_mean, h1, hs, if_pos (by omega), le_div_iff₀ hpos, one_mul]
    exact hsum
  · rw [stat_sample_mean_knuth, hm, le_div_iff₀ hpos, one_mul]
    exact hsum

/-- C26: a batch of `run_benchmark` started from a state the loop can reach, on 64-bit
readings, adds to the cleared sample exactly `nruns` values; each is a natural number at
least `1`, equal to `after - before - overhead` for a pair with `after > before` and
`after - before > overhead`; the minimum and both means of the completed batch are at least
`1`; and the Welford mean, the divisor in `stat_sample_rel_stderr_knuth`, is not zero, so
that the checked division by it always yields a number. -/
theorem batch_values_positive (sqrt : K → K) (ov : Nat) (s0 st st1 : bench_state K)
    (h0 : s0.nruns = NRUNS_MIN) (h0t : s0.total = 0) (hhead : BenchHead sqrt ov s0 st)
    (hbody : bench_body ov st = some st1) (hwf : Readings64 st.rest) :
    ∃ pre, st.rest = pre ++ st1.rest ∧
      st1.stat = stat_sample_add_dataset stat_sample_clean
        ((acceptedTicks ov pre).map (fun (v : Nat) => (v : K))) ∧
      (∀ v ∈ acceptedTicks ov pre, 1 ≤ v ∧
        ∃ p ∈ pre, p.1 < p.2 ∧ ov < p.2 - p.1 ∧ v = p.2 - p.1 - ov) ∧
      (acceptedTicks ov pre).length = st.nruns ∧
      st1.stat.size = st.nruns ∧
      stat_sample_size st1.stat = (st.nruns : Int) ∧
      1 ≤ stat_sample_min st1.stat ∧
      1 ≤ stat_sample_mean st1.stat ∧
      1 ≤ stat_sample_mean_knuth st1.stat ∧
      stat_sample_mean_knuth st1.stat ≠ 0 ∧
      (∀ e : K, fdiv e (stat_sample_mean_knuth st1.stat)
        = fpval.num (e / stat_sample_mean_knuth st1.stat)) := by
  obtain ⟨k, hk, hn, -⟩ := bench_head_inv sqrt ov s0 st h0 h0t hhead
  obtain ⟨pre, hpre, hl, hstat⟩ := bench_body_pairs ov st st1 hbody
  have hpow : 4 ^ k ≤ 4 ^ 7 := Nat.pow_le_pow_right (by norm_num) hk
  have hp7 : (4 : Nat) ^ 7 = 16384 := by norm_num
  have hk1 : 1 ≤ 4 ^ k := Nat.one_le_pow _ _ (by norm_num)
  have hsz := bench_body_size ov st st1 hbody (by rw [hn]; omega)
  have hU : U64 = 2 ^ 64 := rfl
  have hvals : ∀ v ∈ acceptedTicks ov pre, 1 ≤ v ∧
      ∃ p ∈ pre, p.1 < p.2 ∧ ov < p.2 - p.1 ∧ v = p.2 - p.1 - ov := by
    intro v hv
    obtain ⟨p, hp, h1, h2, h3⟩ := acceptedTicks_mem ov v pre hv
    have hp64 := hwf p (by rw [hpre]; exact List.mem_append_left _ hp)
    have e1 : sub64 p.2 p.1 = p.2 - p.1 := sub64_eq _ _ hp64.2 h1.le
    rw [e1] at h2 h3
    have e2 : sub64 (p.2 - p.1) ov = p.2 - p.1 - ov := sub64_eq _ _ (by omega) h2.le
    rw [e2] at h3
    exact ⟨by omega, p, hp, h1, h2, h3⟩
  have hlen : ((acceptedTicks ov pre).map (fun (v : Nat) => (v : K))).length = st.nruns := by
    rw [List.length_map, hl]
  have hge : ∀ x ∈ (acceptedTicks ov pre).map (fun (v : Nat) => (v : K)), (1 : K) ≤ x := by
    intro x hx
    obtain ⟨v, hv, rfl⟩ := List.mem_map.mp hx
    exact_mod_cast (hvals v hv).1
  obtain ⟨g1, g2, g3⟩ := sample_ge_one _ hge (by rw [hlen, hn]; omega)
    (by rw [hlen, hn]; unfold U32; omega)
  have hsize := (add_dataset_clean_inv _
    (by rw [hlen, hn]; unfold U32; omega :
      ((acceptedTicks ov pre).map (fun (v : Nat) => (v : K))).length < U32)).1
  rw [← hstat] at g1 g2 g3 hsize
  have hne : stat_sample_mean_knuth st1.stat ≠ 0 := by
    intro h0
    rw [h0] at g3
    exact absurd g3 (by norm_num)
  refine ⟨pre, hpre, hstat, hvals, hl, by rw [hsize, hlen], hsz, g1, g2, g3, hne, ?_⟩
  intro e
  rw [fdiv, if_neg hne]

/-- C26 on the first batch of a session with overhead `3` whose pairs all have the delta
`7`. -/
theorem batch_values_positive_witness :
    ∃ pre, List.replicate 100 ((100, 107) : Nat × Nat) = pre ++ [] ∧
      stat_sample_add_dataset stat_sample_clean (List.replicate 100 (((7 - 3 : Nat) : ℝ)))
        = stat_sample_add_dataset stat_sample_clean
          ((acceptedTicks 3 pre).map (fun (v : Nat) => (v : ℝ))) ∧
      (∀ v ∈ acceptedTicks 3 pre, 1 ≤ v ∧
        ∃ p ∈ pre, p.1 < p.2 ∧ 3 < p.2 - p.1 ∧ v = p.2 - p.1 - 3) ∧
      (acceptedTicks 3 pre).length = 100 ∧
      (stat_sample_add_dataset stat_sample_clean
        (List.replicate 100 (((7 - 3 : Nat) : ℝ)))).size = 100 ∧
      stat_sample_size (stat_sample_add_dataset stat_sample_clean
        (List.replicate 100 (((7 - 3 : Nat) : ℝ)))) = ((100 : Nat) : Int) ∧
      1 ≤ stat_sample_min (stat_sample_add_dataset stat_sample_clean
        (List.replicate 100 (((7 - 3 : Nat) : ℝ)))) ∧
      1 ≤ stat_sample_mean (stat_sample_add_dataset stat_sample_clean
        (List.replicate 100 (((7 - 3 : Nat) : ℝ)))) ∧
      1 ≤ stat_sample_mean_knuth (stat_sample_add_dataset stat_sample_clean
        (List.replicate 100 (((7 - 3 : Nat) : ℝ)))) ∧
      stat_sample_mean_knuth (stat_sample_add_dataset stat_sample_clean
        (List.replicate 100 (((7 - 3 : Nat) : ℝ)))) ≠ 0 ∧
      (∀ e : ℝ, fdiv e (stat_sample_mean_knuth (stat_sample_add_dataset stat_sample_clean
          (List.replicate 100 (((7 - 3 : Nat) : ℝ)))))
        = fpval.num (e / stat_sample_mean_knuth (stat_sample_add_dataset stat_sample_clean
          (List.replicate 100 (((7 - 3 : Nat) : ℝ)))))) :=
  batch_values_positive Real.sqrt 3
    { stat := stat_sample_clean, nruns := 100, calls := 1, total := 0,
      rest := List.replicate 100 (100, 107) }
    { stat := stat_sample_clean, nruns := 100, calls := 1, total := 0,
      rest := List.replicate 100 (100, 107) }
    { stat := stat_sample_add_dataset stat_sample_clean
        (List.replicate 100 (((7 - 3 : Nat) : ℝ))),
      nruns := 400, calls := 101, total := 100, rest := [] }
    rfl rfl BenchHead.start
    (by
      simp only [bench_body]
      rw [fixed_delta_batch (K := ℝ) 3 7 (List.replicate 100 (100, 107)) 1 (by norm_num)
        (by intro p hp; rw [List.eq_of_mem_replicate hp]; unfold U64; constructor <;> norm_num)
        (by intro p hp; rw [List.eq_of_mem_replicate hp]) (by simp)]
      simp)
    (by intro p hp; rw [List.eq_of_mem_replicate hp]; unfold U64; constructor <;> norm_num)

/-- C27: for every array of `size ≥ 1` and all percentages `lb ≥ 0`, `ub ≥ 0` with
`lb + ub < 100`, in exact arithmetic, `stat_dataset_remove_outliers` completes without an
access outside the array, the returned new size is `size - nmin - nmax` with
`1 ≤ newsize ≤ size`, the count `nmin` is not negative, and every index `i + nmin` read by
the compaction loop (`0 ≤ i < newsize`) is inside the array. -/
theorem remove_outliers_in_bounds [FloorRing K] (xs : List K) (lb ub : Int)
    (hsize : 1 ≤ xs.length) (hlb : 0 ≤ lb) (hub : 0 ≤ ub) (hsum : lb + ub < 100) :
    ∃ r, stat_dataset_remove_outliers (some xs) lb ub = some r ∧
      r.ret = (xs.length : Int) - truncInt ((xs.length : K) / 100 * (lb : K))
        - truncInt ((xs.length : K) / 100 * (ub : K)) ∧
      1 ≤ r.ret ∧ r.ret ≤ (xs.length : Int) ∧
      0 ≤ truncInt ((xs.length : K) / 100 * (lb : K)) ∧
      (∀ i : Int, 0 ≤ i → i < r.ret →
        0 ≤ i + truncInt ((xs.length : K) / 100 * (lb : K)) ∧
        i + truncInt ((xs.length : K) / 100 * (lb : K)) < (xs.length : Int)) := by
  obtain ⟨l, rfl⟩ := Int.eq_ofNat_of_zero_le hlb
  obtain ⟨u, rfl⟩ := Int.eq_ofNat_of_zero_le hub
  have hlu : l + u < 100 := by omega
  have hlt : xs.length * l / 100 + xs.length * u / 100 < xs.length := by
    have h1 : xs.length * l + xs.length * u ≤ xs.length * 99 := by
      rw [← Nat.mul_add]
      exact Nat.mul_le_mul_left _ (by omega)
    omega
  have hs1 : ¬ ((l : Int) + (u : Int) > 100) := by omega
  have hs2 : ¬ (xs.length = 0 ∨ (l : Int) + (u : Int) = 100) := by
    rintro (h | h) <;> omega
  have hnew : (xs.length : Int) - ((xs.length * l / 100 : Nat) : Int)
      - ((xs.length * u / 100 : Nat) : Int)
      = ((xs.length - xs.length * l / 100 - xs.length * u / 100 : Nat) : Int) := by
    omega
  have hlen := List.length_insertionSort (fun a b : K => a ≤ b) xs
  obtain ⟨res, r1, -⟩ := outliers_copy_spec (xs.length * l / 100)
    (xs.length - xs.length * l / 100 - xs.length * u / 100) 0
    (xs.insertionSort (fun a b => a ≤ b)) (by rw [hlen]; omega)
  refine ⟨{ ret := ((xs.length - xs.length * l / 100 - xs.length * u / 100 : Nat) : Int),
            data := some res }, ?_, ?_, ?_, ?_, ?_, ?_⟩
  · simp only [stat_dataset_remove_outliers, if_neg hs1, if_neg hs2, truncInt_pct, hnew,
      Int.toNat_ofNat, r1]
  · simp only [truncInt_pct]
    omega
  · simp only
    omega
  · simp only
    omega
  · rw [truncInt_pct]
    omega
  · intro i h0 hi
    simp only at hi
    rw [truncInt_pct]
    omega

/-- C27 on the array `5, 1, 4, 2, 3` with `lb = 20`, `ub = 40`. -/
theorem remove_outliers_in_bounds_witness :
    ∃ r, stat_dataset_remove_outliers (some [(5 : ℚ), 1, 4, 2, 3]) 20 40 = some r ∧
      r.ret = ([(5 : ℚ), 1, 4, 2, 3].length : Int)
        - truncInt ((([(5 : ℚ), 1, 4, 2, 3].length : Nat) : ℚ) / 100 * ((20 : Int) : ℚ))
        - truncInt ((([(5 : ℚ), 1, 4, 2, 3].length : Nat) : ℚ) / 100 * ((40 : Int) : ℚ)) ∧
      1 ≤ r.ret ∧ r.ret ≤ ([(5 : ℚ), 1, 4, 2, 3].length : Int) ∧
      0 ≤ truncInt ((([(5 : ℚ), 1, 4, 2, 3].length : Nat) : ℚ) / 100 * ((20 : Int) : ℚ)) ∧
      (∀ i : Int, 0 ≤ i → i < r.ret →
        0 ≤ i + truncInt ((([(5 : ℚ), 1, 4, 2, 3].length : Nat) : ℚ) / 100 * ((20 : Int) : ℚ)) ∧
        i + truncInt ((([(5 : ℚ), 1, 4, 2, 3].length : Nat) : ℚ) / 100 * ((20 : Int) : ℚ))
          < ([(5 : ℚ), 1, 4, 2, 3].length : Int)) :=
  remove_outliers_in_bounds [(5 : ℚ), 1, 4, 2, 3] 20 40 (by simp) (by norm_num) (by norm_num)
    (by norm_num)

/-! ## Theorems: early stopping against the fixed number of trials -/

theorem overhead_stop (i m : Nat) (stream : Stream) (h : ¬ i < NMEASURES) :
    measure_tsc_overhead_loop i m stream = some (m, stream) := by
  cases stream with
  | nil => simp only [measure_tsc_overhead_loop, if_neg h]
  | cons p tl =>
    obtain ⟨t0, t1⟩ := p
    simp only [measure_tsc_overhead_loop, if_neg h]

theorem overhead_step_valid (i m t0 t1 : Nat) (rest : Stream) (hi : i < NMEASURES)
    (hv : t0 < t1) :
    measure_tsc_overhead_loop i m ((t0, t1) :: rest)
      = measure_tsc_overhead_loop (i + 1) (if sub64 t1 t0 < m then sub64 t1 t0 else m) rest := by
  simp only [measure_tsc_overhead_loop, if_pos hi, gt_iff_lt, if_pos hv]

theorem runMin_append (m : Nat) (a b : List Nat) :
    runMin m (a ++ b) = runMin (runMin m a) b := by
  simp only [runMin, List.foldl_append]

/-- The value returned by the loop of `measure_tsc_overhead` is the running minimum over the
deltas of the valid pairs it has read. -/
theorem measure_tsc_overhead_loop_value (stream : Stream) (i m r : Nat) (rest : Stream)
    (h : measure_tsc_overhead_loop i m stream = some (r, rest)) :
    ∃ pre, stream = pre ++ rest ∧ r = runMin m (validTicks pre) := by
  induction stream generalizing i m with
  | nil =>
    by_cases hi : i < NMEASURES
    · simp only [measure_tsc_overhead_loop, if_pos hi] at h
      exact absurd h (by simp)
    · rw [overhead_stop _ _ _ hi] at h
      simp only [Option.some.injEq, Prod.mk.injEq] at h
      exact ⟨[], by rw [← h.2]; rfl, by rw [← h.1]; rfl⟩
  | cons p tl ih =>
    obtain ⟨t0, t1⟩ := p
    by_cases hi : i < NMEASURES
    · by_cases hv : t0 < t1
      · rw [overhead_step_valid _ _ _ _ _ hi hv] at h
        obtain ⟨pre, h1, h2⟩ := ih _ _ h
        exact ⟨(t0, t1) :: pre, by rw [h1, List.cons_append],
          by rw [validTicks_cons_valid _ _ _ hv, runMin_cons]; exact h2⟩
      · rw [overhead_step_skip _ _ _ _ _ hi hv] at h
        obtain ⟨pre, h1, h2⟩ := ih _ _ h
        exact ⟨(t0, t1) :: pre, by rw [h1, List.cons_append],
          by rw [validTicks_cons_invalid _ _ _ hv]; exact h2⟩
    · rw [overhead_stop _ _ _ hi] at h
      simp only [Option.some.injEq, Prod.mk.injEq] at h
      exact ⟨[], by rw [← h.2]; rfl, by rw [← h.1]; rfl⟩

/-- Started with the same count of accepted trials on the same stream, the loop of
`measure_tsc_overhead_stabilized` stops no later than the loop of `measure_tsc_overhead`:
what the first leaves unread ends with what the second leaves unread. -/
theorem stabilized_stops_first (stream : Stream) (i nc m1 m2 rs rf : Nat)
    (rests restf : Stream)
    (hs : measure_tsc_overhead_stabilized_loop i nc m1 stream = some (rs, rests))
    (hf : measure_tsc_overhead_loop i m2 stream = some (rf, restf)) :
    ∃ extra, rests = extra ++ restf := by
  induction stream generalizing i nc m1 m2 with
  | nil =>
    obtain ⟨pre, h1, -⟩ := measure_tsc_overhead_stabilized_loop_value _ _ _ _ _ _ hs
    obtain ⟨pre2, h2, -⟩ := measure_tsc_overhead_loop_value _ _ _ _ _ hf
    have e1 := (List.append_eq_nil.mp h1.symm).2
    have e2 := (List.append_eq_nil.mp h2.symm).2
    exact ⟨[], by rw [e1, e2]; rfl⟩
  | cons p tl ih =>
    obtain ⟨t0, t1⟩ := p
    by_cases hi : i < NMEASURES
    · by_cases hnc : nc < NOTCHANGED_THRESHOLD
      · have hc : i < NMEASURES_MAX ∧ nc < NOTCHANGED_THRESHOLD := ⟨hi, hnc⟩
        by_cases hv : t0 < t1
        · rw [overhead_step_valid _ _ _ _ _ hi hv] at hf
          by_cases hl : sub64 t1 t0 < m1
          · rw [stab_step_lower _ _ _ _ _ _ hc hv hl] at hs
            exact ih _ _ _ _ hs hf
          · rw [stab_step_keep _ _ _ _ _ _ hc hv hl] at hs
            exact ih _ _ _ _ hs hf
        · rw [overhead_step_skip _ _ _ _ _ hi hv] at hf
          rw [stab_step_skip _ _ _ _ _ _ hc hv] at hs
          exact ih _ _ _ _ hs hf
      · rw [stab_stop _ _ _ _ (fun h => hnc h.2)] at hs
        simp only [Option.some.injEq, Prod.mk.injEq] at hs
        obtain ⟨pre, h1⟩ := measure_tsc_overhead_loop_rest _ _ _ _ _ hf
        exact ⟨pre, by rw [← hs.2]; exact h1⟩
    · rw [stab_stop _ _ _ _ (fun h => hi h.1)] at hs
      rw [overhead_stop _ _ _ hi] at hf
      simp only [Option.some.injEq, Prod.mk.injEq] at hs hf
      exact ⟨[], by rw [← hs.2, ← hf.2]; rfl⟩

/-- C29: on every counter stream with at least 100 valid pairs both calibrations return; the
pairs read by `measure_tsc_overhead_stabilized` are a prefix of the pairs read by
`measure_tsc_overhead`; each returns the running minimum (from the same initial value) over
the deltas of the valid pairs it read; and the stabilized overhead is greater than or equal
to the fixed-trials overhead. -/
theorem early_stop_not_below (stream : Stream)
    (h : 100 ≤ (stream.filter validPair).length) :
    ∃ rs rf pre extra rest,
      measure_tsc_overhead_stabilized stream = some (rs, extra ++ rest) ∧
      measure_tsc_overhead stream = some (rf, rest) ∧
      stream = pre ++ (extra ++ rest) ∧
      (pre.filter validPair).length ≤ 100 ∧
      ((pre ++ extra).filter validPair).length = 100 ∧
      rs = runMin MINTICKS_INIT (validTicks pre) ∧
      rf = runMin MINTICKS_INIT (validTicks (pre ++ extra)) ∧
      rf ≤ rs := by
  obtain ⟨rf, restf, pref, h1, h2, h3⟩ := measure_tsc_overhead_loop_ends stream 0 MINTICKS_INIT h
  obtain ⟨rs, rests, pres, k1, k2, k3⟩ :=
    measure_tsc_overhead_stabilized_loop_ends stream 0 0 MINTICKS_INIT h
  obtain ⟨extra, he⟩ := stabilized_stops_first stream 0 0 _ _ rs rf rests restf k1 h1
  obtain ⟨pref1, f1, f2⟩ := measure_tsc_overhead_loop_value _ _ _ _ _ h1
  obtain ⟨pres1, s1, s2⟩ := measure_tsc_overhead_stabilized_loop_value _ _ _ _ _ _ k1
  have e1 : pref1 = pref := List.append_cancel_right (f1.symm.trans h2)
  have e2 : pres1 = pres := List.append_cancel_right (s1.symm.trans k2)
  subst e1 e2
  subst he
  have e3 : pref1 = pres1 ++ extra := by
    have : pref1 ++ restf = (pres1 ++ extra) ++ restf := by
      rw [List.append_assoc, ← h2, ← k2]
    exact List.append_cancel_right this
  subst e3
  refine ⟨rs, rf, pres1, extra, restf, k1, h1, k2, k3, h3, s2, f2, ?_⟩
  rw [f2, s2, validTicks_append, runMin_append]
  exact runMin_le_init _ _

set_option maxRecDepth 100000 in
/-- C29 on a stream of 100 pairs of delta `3`. -/
theorem early_stop_not_below_witness :
    ∃ rs rf pre extra rest,
      measure_tsc_overhead_stabilized (List.replicate 100 (100, 103)) = some (rs, extra ++ rest) ∧
      measure_tsc_overhead (List.replicate 100 (100, 103)) = some (rf, rest) ∧
      List.replicate 100 (100, 103) = pre ++ (extra ++ rest) ∧
      (pre.filter validPair).length ≤ 100 ∧
      ((pre ++ extra).filter validPair).length = 100 ∧
      rs = runMin MINTICKS_INIT (validTicks pre) ∧
      rf = runMin MINTICKS_INIT (validTicks (pre ++ extra)) ∧
      rf ≤ rs :=
  early_stop_not_below (List.replicate 100 (100, 103)) (by decide)

/-! ## Theorems: the relative standard error -/

/-- The record after adding `n` equal values `v` to a cleared sample, whatever `n` is: the
counter is `n` modulo `2 ^ 32`, the sums are `n * v` and `n * v * v`, the Welford accumulator
is `0`. -/
theorem const_sample_any (n : Nat) (v : K) :
    (stat_sample_add_dataset stat_sample_clean (List.replicate n v)).size = n % U32 ∧
    (stat_sample_add_dataset stat_sample_clean (List.replicate n v)).sum = (n : K) * v ∧
    (stat_sample_add_dataset stat_sample_clean (List.replicate n v)).sum_pow2
      = (n : K) * (v * v) ∧
    (stat_sample_add_dataset stat_sample_clean (List.replicate n v)).knuth_var = 0 ∧
    (0 < n → (stat_sample_add_dataset stat_sample_clean (List.replicate n v)).knuth_mean = v) := by
  induction n with
  | zero =>
    refine ⟨rfl, by simp [stat_sample_add_dataset, stat_sample_clean],
      by simp [stat_sample_add_dataset, stat_sample_clean], rfl, fun h => absurd h (by omega)⟩
  | succ n ih =>
    obtain ⟨h1, h2, h3, h4, h5⟩ := ih
    rw [List.replicate_succ', add_dataset_snoc]
    have hsz : (stat_sample_add (stat_sample_add_dataset stat_sample_clean (List.replicate n v))
        v).size = (n + 1) % U32 := by
      rw [add_size, h1, Nat.add_mod, Nat.mod_mod, ← Nat.add_mod]
    have hs' : ((stat_sample_add_dataset (stat_sample_clean : stat_sample K)
        (List.replicate n v)).size + 1) % U32 = (n + 1) % U32 := by
      rw [← add_size]; exact hsz
    refine ⟨hsz, by rw [add_sum, h2]; push_cast; ring, ?_, ?_, ?_⟩
    · simp only [stat_sample_add, h3]; push_cast; ring
    · by_cases hgt : (n + 1) % U32 > 1
      · have hn : 0 < n := by
          rcases Nat.eq_zero_or_pos n with h0 | h0
          · subst h0; exact absurd hgt (by decide)
          · exact h0
        simp only [stat_sample_add, hs', if_pos hgt, h4, h5 hn]
        simp
      · simp only [stat_sample_add, hs', if_neg hgt]
    · intro _
      by_cases hgt : (n + 1) % U32 > 1
      · have hn : 0 < n := by
          rcases Nat.eq_zero_or_pos n with h0 | h0
          · subst h0; exact absurd hgt (by decide)
          · exact h0
        simp only [stat_sample_add, hs', if_pos hgt, h5 hn]
        simp
      · simp only [stat_sample_add, hs', if_neg hgt]

/-- The classical variance of a sample of equal values is never positive: it is `0` as long
as the counter has not wrapped and negative or `0` afterwards. -/
theorem const_sample_var_nonpos (n : Nat) (v : K) :
    stat_sample_var (stat_sample_add_dataset stat_sample_clean (List.replicate n v)) ≤ 0 ∧
    (n < U32 →
      stat_sample_var (stat_sample_add_dataset stat_sample_clean (List.replicate n v)) = 0) ∧
    stat_sample_var_knuth (stat_sample_add_dataset stat_sample_clean (List.replicate n v))
      = 0 := by
  obtain ⟨h1, h2, h3, h4, -⟩ := const_sample_any n v
  have hk : stat_sample_var_knuth
      (stat_sample_add_dataset stat_sample_clean (List.replicate n v)) = 0 := by
    rw [stat_sample_var_knuth, h4]
    split <;> simp
  by_cases hgt : n % U32 > 1
  · have hS : (1 : K) < ((n % U32 : Nat) : K) := by exact_mod_cast hgt
    have hle : ((n % U32 : Nat) : K) ≤ (n : K) := by exact_mod_cast Nat.mod_le n U32
    have hS0 : ((n % U32 : Nat) : K) ≠ 0 := by linarith
    have hS1 : ((n % U32 : Nat) : K) - 1 ≠ 0 := by linarith
    have hform : stat_sample_var
        (stat_sample_add_dataset stat_sample_clean (List.replicate n v))
        = (n : K) * (v * v) * (((n % U32 : Nat) : K) - (n : K))
          / (((n % U32 : Nat) : K) * (((n % U32 : Nat) : K) - 1)) := by
      rw [stat_sample_var, h1, h2, h3, if_pos hgt]
      field_simp
      ring
    refine ⟨?_, ?_, hk⟩
    · rw [hform]
      apply div_nonpos_of_nonpos_of_nonneg
      · apply mul_nonpos_of_nonneg_of_nonpos
        · exact mul_nonneg (Nat.cast_nonneg n) (mul_self_nonneg v)
        · linarith
      · apply mul_nonneg <;> linarith
    · intro hn
      rw [hform, Nat.mod_eq_of_lt hn]
      simp
  · have h0 : stat_sample_var
        (stat_sample_add_dataset stat_sample_clean (List.replicate n v)) = 0 := by
      rw [stat_sample_var, h1, if_neg hgt]
    exact ⟨by rw [h0], fun _ => h0, hk⟩

/-- In IEEE binary64 the classical variance of six values `3.0` does not evaluate to `0`:
with `sum = 18` and `sum_pow2 = 54`, the double nearest to `1 / 5` is
`a = 7205759403792794 / 2 ^ 55`, the double nearest to `a * 54` is
`b = 6079859496950170 / 2 ^ 49`, the double nearest to `1 / 30` is
`c = 4803839602528529 / 2 ^ 57`, the double nearest to `c * 18` is
`d = 5404319552844595 / 2 ^ 53`, the double nearest to `d * 18` is
`e = 6079859496950169 / 2 ^ 49` (each within half a unit in the last place of its binade),
and `b - e = 2 ^ (-49)` is positive, whereas the exact variance is `0`. -/
theorem var_binary64_six_threes :
    |(1 : ℚ) / 5 - 7205759403792794 / 2 ^ 55| < 1 / 2 ^ 56 ∧
    (1 : ℚ) / 8 ≤ 7205759403792794 / 2 ^ 55 ∧ (7205759403792794 : ℚ) / 2 ^ 55 < 1 / 4 ∧
    |(7205759403792794 : ℚ) / 2 ^ 55 * 54 - 6079859496950170 / 2 ^ 49| < 1 / 2 ^ 50 ∧
    (8 : ℚ) ≤ 6079859496950170 / 2 ^ 49 ∧ (6079859496950170 : ℚ) / 2 ^ 49 < 16 ∧
    |(1 : ℚ) / 30 - 4803839602528529 / 2 ^ 57| < 1 / 2 ^ 58 ∧
    (1 : ℚ) / 32 ≤ 4803839602528529 / 2 ^ 57 ∧ (4803839602528529 : ℚ) / 2 ^ 57 < 1 / 16 ∧
    |(4803839602528529 : ℚ) / 2 ^ 57 * 18 - 5404319552844595 / 2 ^ 53| < 1 / 2 ^ 54 ∧
    (1 : ℚ) / 2 ≤ 5404319552844595 / 2 ^ 53 ∧ (5404319552844595 : ℚ) / 2 ^ 53 < 1 ∧
    |(5404319552844595 : ℚ) / 2 ^ 53 * 18 - 6079859496950169 / 2 ^ 49| < 1 / 2 ^ 50 ∧
    (8 : ℚ) ≤ 6079859496950169 / 2 ^ 49 ∧ (6079859496950169 : ℚ) / 2 ^ 49 < 16 ∧
    (6079859496950170 : ℚ) / 2 ^ 49 - 6079859496950169 / 2 ^ 49 = 1 / 2 ^ 49 ∧
    stat_sample_var (stat_sample_add_dataset stat_sample_clean (List.replicate 6 (3 : ℚ)))
      = 0 := by
  refine ⟨?_, by norm_num, by norm_num, ?_, by norm_num, by norm_num, ?_, by norm_num,
    by norm_num, ?_, by norm_num, by norm_num, ?_, by norm_num, by norm_num, by norm_num, ?_⟩
  · rw [abs_lt]; constructor <;> norm_num
  · rw [abs_lt]; constructor <;> norm_num
  · rw [abs_lt]; constructor <;> norm_num
  · rw [abs_lt]; constructor <;> norm_num
  · rw [abs_lt]; constructor <;> norm_num
  · exact (const_sample_var_nonpos 6 (3 : ℚ)).2.1 (by unfold U32; norm_num)

theorem rel_of_stderr_nan (m : K) : rel_of_stderr (fpval.nan : fpval K) m = fpval.num 0 := rfl

/-- The accumulation loop of `stat_var` computes the sum and the sum of squares. -/
theorem var_loop (data : List K) (a b : K) :
    data.foldl (fun (acc : K × K) d => (acc.1 + d, acc.2 + d * d)) (a, b)
      = (a + data.sum, b + (data.map (fun x => x ^ 2)).sum) := by
  induction data generalizing a b with
  | nil => simp
  | cons x xs ih =>
    rw [List.foldl_cons, ih, List.sum_cons, List.map_cons, List.sum_cons]
    congr 1 <;> ring

theorem mean_loop (data : List K) (a : K) :
    data.foldl (fun sum d => sum + d) a = a + data.sum := by
  induction data generalizing a with
  | nil => simp
  | cons x xs ih => rw [List.foldl_cons, ih, List.sum_cons]; ring

/-- Invariant of the loops of `stat_min` and `stat_min_index`: with the elements `pre`
already seen, `m` their smallest value and `pre.indexOf m` its first position, the loops end
at the smallest value of the whole array and its first position. -/
theorem min_loop_inv (data rest pre : List K) (m : K) (hd : data = pre ++ rest)
    (hm : m ∈ pre) (hlow : ∀ y ∈ pre, m ≤ y) :
    ∃ r, r ∈ data ∧ (∀ y ∈ data, r ≤ y) ∧
      rest.foldl (fun min d => if min > d then d else min) m = r ∧
      stat_min_index_loop data rest pre.length (pre.indexOf m) = data.indexOf r := by
  induction rest generalizing pre m with
  | nil =>
    rw [List.append_nil] at hd
    subst hd
    exact ⟨m, hm, hlow, rfl, rfl⟩
  | cons d rest ih =>
    have hd2 : data = (pre ++ [d]) ++ rest := by rw [hd, List.append_assoc]; rfl
    have hget : data.getD (pre.indexOf m) 0 = m := by
      rw [List.getD_eq_getElem?_getD, hd,
        List.getElem?_append_left (List.indexOf_lt_length.mpr hm), List.getElem?_indexOf hm]
      rfl
    simp only [List.foldl_cons, stat_min_index_loop, hget]
    by_cases hlt : m > d
    · rw [if_pos hlt, if_pos hlt]
      have hnot : d ∉ pre := fun hmem => absurd (hlow d hmem) (not_le.mpr hlt)
      have hidx : pre.length = (pre ++ [d]).indexOf d := by
        rw [List.indexOf_append_of_not_mem hnot, List.indexOf_cons_self, Nat.add_zero]
      have := ih (pre ++ [d]) d hd2 (by simp) (fun y hy => by
        rcases List.mem_append.mp hy with h | h
        · exact le_trans hlt.le (hlow y h)
        · rw [List.mem_singleton.mp h])
      rw [List.length_append, List.length_singleton, ← hidx] at this
      exact this
    · rw [if_neg hlt, if_neg hlt]
      have hidx : pre.indexOf m = (pre ++ [d]).indexOf m := by
        rw [List.indexOf_append_of_mem hm]
      have := ih (pre ++ [d]) m hd2 (List.mem_append_left _ hm) (fun y hy => by
        rcases List.mem_append.mp hy with h | h
        · exact hlow y h
        · rw [List.mem_singleton.mp h]; exact not_lt.mp hlt)
      rw [List.length_append, List.length_singleton, ← hidx] at this
      exact this

/-- Invariant of the loops of `stat_max` and `stat_max_index`. -/
theorem max_loop_inv (data rest pre : List K) (m : K) (hd : data = pre ++ rest)
    (hm : m ∈ pre) (hup : ∀ y ∈ pre, y ≤ m) :
    ∃ r, r ∈ data ∧ (∀ y ∈ data, y ≤ r) ∧
      rest.foldl (fun max d => if max < d then d else max) m = r ∧
      stat_max_index_loop data rest pre.length (pre.indexOf m) = data.indexOf r := by
  induction rest generalizing pre m with
  | nil =>
    rw [List.append_nil] at hd
    subst hd
    exact ⟨m, hm, hup, rfl, rfl⟩
  | cons d rest ih =>
    have hd2 : data = (pre ++ [d]) ++ rest := by rw [hd, List.append_assoc]; rfl
    have hget : data.getD (pre.indexOf m) 0 = m := by
      rw [List.getD_eq_getElem?_getD, hd,
        List.getElem?_append_left (List.indexOf_lt_length.mpr hm), List.getElem?_indexOf hm]
      rfl
    simp only [List.foldl_cons, stat_max_index_loop, hget]
    by_cases hlt : m < d
    · rw [if_pos hlt, if_pos hlt]
      have hnot : d ∉ pre := fun hmem => absurd (hup d hmem) (not_le.mpr hlt)
      have hidx : pre.length = (pre ++ [d]).indexOf d := by
        rw [List.indexOf_append_of_not_mem hnot, List.indexOf_cons_self, Nat.add_zero]
      have := ih (pre ++ [d]) d hd2 (by simp) (fun y hy => by
        rcases List.mem_append.mp hy with h | h
        · exact le_trans (hup y h) hlt.le
        · rw [List.mem_singleton.mp h])
      rw [List.length_append, List.length_singleton, ← hidx] at this
      exact this
    · rw [if_neg hlt, if_neg hlt]
      have hidx : pre.indexOf m = (pre ++ [d]).indexOf m := by
        rw [List.indexOf_append_of_mem hm]
      have := ih (pre ++ [d]) m hd2 (List.mem_append_left _ hm) (fun y hy => by
        rcases List.mem_append.mp hy with h | h
        · exact hup y h
        · rw [List.mem_singleton.mp h]; exact not_lt.mp hlt)
      rw [List.length_append, List.length_singleton, ← hidx] at this
      exact this

/-- What `stat_min`, `stat_min_index`, `stat_max` and `stat_max_index` return on a non-empty
array: the smallest and the largest value and the positions of their first occurrences. -/
theorem array_extrema (xs : List K) (hne : xs ≠ []) :
    (stat_min xs ∈ xs ∧ (∀ y ∈ xs, stat_min xs ≤ y) ∧
      stat_min_index xs = ((xs.indexOf (stat_min xs) : Nat) : Int)) ∧
    (stat_max xs ∈ xs ∧ (∀ y ∈ xs, y ≤ stat_max xs) ∧
      stat_max_index xs = ((xs.indexOf (stat_max xs) : Nat) : Int)) := by
  cases xs with
  | nil => exact absurd rfl hne
  | cons x rest =>
    obtain ⟨r, r1, r2, r3, r4⟩ := min_loop_inv (x :: rest) rest [x] x rfl (by simp)
      (fun y hy => by rw [List.mem_singleton.mp hy])
    obtain ⟨q, q1, q2, q3, q4⟩ := max_loop_inv (x :: rest) rest [x] x rfl (by simp)
      (fun y hy => by rw [List.mem_singleton.mp hy])
    rw [List.length_singleton, List.indexOf_cons_self] at r4 q4
    have hmin : stat_min (x :: rest) = r := r3
    have hmax : stat_max (x :: rest) = q := q3
    refine ⟨⟨by rw [hmin]; exact r1, by rw [hmin]; exact r2, ?_⟩,
      ⟨by rw [hmax]; exact q1, by rw [hmax]; exact q2, ?_⟩⟩
    · rw [hmin]
      simp only [stat_min_index, r4]
    · rw [hmax]
      simp only [stat_max_index, q4]

/-- C28: for every array (its size an `int`, so below `2 ^ 31`; the empty one included),
`stat_mean` and `stat_var` equal `stat_sample_mean` and `stat_sample_var` of a cleared sample
after `stat_sample_add_dataset` of the same array, in exact arithmetic; and for every
non-empty such array whose values are all positive and below `DBL_MAX`, `stat_min`,
`stat_min_index`, `stat_max` and `stat_max_index` equal `stat_sample_min`,
`stat_sample_min_index`, `stat_sample_max` and `stat_sample_max_index`. -/
theorem batch_agrees (xs : List K) (hlen : xs.length < 2 ^ 31) :
    stat_mean xs = stat_sample_mean (stat_sample_add_dataset stat_sample_clean xs) ∧
    stat_var xs = stat_sample_var (stat_sample_add_dataset stat_sample_clean xs) ∧
    (xs ≠ [] → (∀ y ∈ xs, 0 < y ∧ y < DBL_MAX) →
      stat_min xs = stat_sample_min (stat_sample_add_dataset stat_sample_clean xs) ∧
      stat_min_index xs
        = stat_sample_min_index (stat_sample_add_dataset stat_sample_clean xs) ∧
      stat_max xs = stat_sample_max (stat_sample_add_dataset stat_sample_clean xs) ∧
      stat_max_index xs
        = stat_sample_max_index (stat_sample_add_dataset stat_sample_clean xs)) := by
  have hU : xs.length < U32 := by unfold U32; omega
  obtain ⟨h1, h2, h3, -, -⟩ := add_dataset_clean_inv xs hU
  refine ⟨?_, ?_, ?_⟩
  · rw [stat_mean, stat_sample_mean, h1, h2, mean_loop, zero_add]
    by_cases hgt : xs.length > 1
    · rw [if_pos hgt, if_pos hgt]
    · rw [if_neg hgt, if_neg hgt]
      match xs, hgt with
      | [], _ => simp
      | [x], _ => simp
      | _ :: _ :: _, hgt => exact absurd hgt (by simp)
  · rw [stat_var, stat_sample_var, h1, h2, h3]
    by_cases hgt : xs.length > 1
    · rw [if_pos hgt, if_pos hgt]
      simp only [var_loop, zero_add]
    · rw [if_neg hgt, if_neg hgt]
  · intro hne hall
    obtain ⟨y, hy⟩ := List.exists_mem_of_ne_nil xs hne
    obtain ⟨⟨a1, a2, a3⟩, ⟨b1, b2, b3⟩⟩ := array_extrema xs hne
    obtain ⟨i1, -, i3, -⟩ := min_track xs hU
    obtain ⟨j1, -, j3, -⟩ := max_track xs hU
    obtain ⟨m1, m2⟩ := i3 ⟨y, hy, (hall y hy).2⟩
    obtain ⟨n1, n2⟩ := j3 ⟨y, hy, (hall y hy).1⟩
    have emin : stat_min xs = (stat_sample_add_dataset stat_sample_clean xs).min :=
      le_antisymm (a2 _ m1) (i1 _ a1)
    have emax : stat_max xs = (stat_sample_add_dataset stat_sample_clean xs).max :=
      le_antisymm (j1 _ b1) (b2 _ n1)
    have hi1 : xs.indexOf (stat_min xs) < 2 ^ 31 :=
      lt_trans (List.indexOf_lt_length.mpr a1) hlen
    have hi2 : xs.indexOf (stat_max xs) < 2 ^ 31 :=
      lt_trans (List.indexOf_lt_length.mpr b1) hlen
    refine ⟨emin, ?_, emax, ?_⟩
    · rw [a3, stat_sample_min_index, m2, ← emin, toInt32_small _ hi1]
    · rw [b3, stat_sample_max_index, n2, ← emax, toInt32_small _ hi2]

/-- C28 on the array `3, 1, 2, 1`. -/
theorem batch_agrees_witness :
    stat_mean [(3 : ℚ), 1, 2, 1]
      = stat_sample_mean (stat_sample_add_dataset stat_sample_clean [(3 : ℚ), 1, 2, 1]) ∧
    stat_var [(3 : ℚ), 1, 2, 1]
      = stat_sample_var (stat_sample_add_dataset stat_sample_clean [(3 : ℚ), 1, 2, 1]) ∧
    stat_min [(3 : ℚ), 1, 2, 1]
      = stat_sample_min (stat_sample_add_dataset stat_sample_clean [(3 : ℚ), 1, 2, 1]) ∧
    stat_min_index [(3 : ℚ), 1, 2, 1]
      = stat_sample_min_index (stat_sample_add_dataset stat_sample_clean [(3 : ℚ), 1, 2, 1]) ∧
    stat_max [(3 : ℚ), 1, 2, 1]
      = stat_sample_max (stat_sample_add_dataset stat_sample_clean [(3 : ℚ), 1, 2, 1]) ∧
    stat_max_index [(3 : ℚ), 1, 2, 1]
      = stat_sample_max_index (stat_sample_add_dataset stat_sample_clean [(3 : ℚ), 1, 2, 1]) :=
  have h := batch_agrees [(3 : ℚ), 1, 2, 1] (by simp)
  have hD : ∀ y ∈ [(3 : ℚ), 1, 2, 1], 0 < y ∧ y < DBL_MAX := by
    intro y hy
    simp only [List.mem_cons, List.mem_singleton, List.not_mem_nil, or_false] at hy
    unfold DBL_MAX
    rcases hy with h | h | h | h <;> subst h <;> constructor <;> norm_num
  ⟨h.1, h.2.1, (h.2.2 (by simp) hD).1, (h.2.2 (by simp) hD).2.1, (h.2.2 (by simp) hD).2.2.1,
    (h.2.2 (by simp) hD).2.2.2⟩

end TscBench
